import Mathlib

/-!  Verification development for the TLBtree single-threaded core.

This file gives a shallow embedding of the two tree structures of the
repository and proves/refutes the frozen specification claims about them:

* `src/Single/src/wotree256.h` / `wotree256.cc` — the write-optimised
  256-byte-node tree (`state_t`, `Node`, and the recursive driver
  `find` / `insert` / `update`), embedded over an explicit heap
  (`List Node`) with fuel for the pointer recursions;
* `src/Single/src/fixtree.h` — the search-optimised linearised tree
  (bulk constructor, `find_lower`, `insert`, `try_remove`), embedded
  with buffers as `Int`-indexed functions (the C code indexes leaves
  with a signed `int` that can go negative, which we must represent).

Machine integers (`uint64_t`) are modelled as `Nat` with explicit
`% 2 ^ 64` where the C arithmetic can wrap.  Keys (`_key_t`) are 64-bit;
the sentinel `MAX_KEY` and the pm-allocator live in headers that are not
part of the sources (`pmallocator.h`, `flush.h`); following the spec
(§3 data model) `MAX_KEY` is strictly greater than every legal key and
we take the all-ones 64-bit word.  The allocator's `relative`/`absolute`
translation is a bijection and is modelled as the identity on our heap
addresses; address `0` plays the role of `NULL`.
-/

namespace TLB

/-- Sentinel key, strictly greater than every legal key (spec §3). -/
def MAX_KEY : Nat := 2 ^ 64 - 1

/-- An (8-byte key, 8-byte value-or-pointer) pair; `Record` in the source. -/
structure Record where
  key : Nat
  val : Nat
  deriving Repr, DecidableEq

/-- Pointwise update of a `Nat`-indexed store. -/
def upd {α : Type} (f : Nat → α) (i : Nat) (a : α) : Nat → α :=
  fun j => if j = i then a else f j

/-- Pointwise update of an `Int`-indexed store. -/
def updI {α : Type} (f : Int → α) (i : Int) (a : α) : Int → α :=
  fun j => if j = i then a else f j

namespace wotree256

/-- The 8-byte packed `state_t` of a write-optimised node
(`wotree256.h:23-37`).  The C bitfield layout (little-endian, GCC) puts
`slotArray` in bits 0-51, `count` in bits 52-55, `sibling_version` in
bit 56, `latch` in bit 57 and `node_version` in bits 58-63; the union
member `pack` is the whole 64-bit word. -/
structure state_t where
  pack : Nat
  deriving Repr, DecidableEq

namespace state_t

/-- Bitfield accessor `unpack.slotArray` (bits 0-51). -/
def slotArray (s : state_t) : Nat := s.pack % 2 ^ 52

/-- Bitfield accessor `unpack.count` (bits 52-55). -/
def count (s : state_t) : Nat := s.pack / 2 ^ 52 % 2 ^ 4

/-- Bitfield accessor `unpack.sibling_version` (bit 56). -/
def sibling_version (s : state_t) : Nat := s.pack / 2 ^ 56 % 2

/-- Bitfield assignment `unpack.slotArray = a` (truncates to 52 bits,
preserves the other fields). -/
def withSlotArray (s : state_t) (a : Nat) : state_t :=
  ⟨s.pack / 2 ^ 52 * 2 ^ 52 + a % 2 ^ 52⟩

/-- Bitfield assignment `unpack.count = c` (truncates to 4 bits). -/
def withCount (s : state_t) (c : Nat) : state_t :=
  ⟨s.pack / 2 ^ 56 * 2 ^ 56 + c % 2 ^ 4 * 2 ^ 52 + s.pack % 2 ^ 52⟩

/-- Bitfield assignment `unpack.sibling_version = v` (truncates to 1 bit). -/
def withSibVersion (s : state_t) (v : Nat) : state_t :=
  ⟨s.pack / 2 ^ 57 * 2 ^ 57 + v % 2 * 2 ^ 56 + s.pack % 2 ^ 56⟩

/-- `state_t::read(idx)` (`wotree256.h:43-48`): left-align the 52-bit
slot array in the 64-bit word (`<< 12`) and extract the `(15-idx)`-th
4-bit nibble. -/
def read (s : state_t) (idx : Nat) : Nat :=
  let p := s.slotArray <<< 12
  (p &&& (0xf <<< ((15 - idx) * 4))) >>> ((15 - idx) * 4)

/-- `state_t::alloc()` (`wotree256.h:51-67`): mark the physical slots
referenced by `slotArray[0..count)` as occupied and return the first
free one, `13` (CARDINALITY) if none. -/
def alloc (s : state_t) : Nat :=
  (((List.range 13).find? (fun sl =>
    !((List.range s.count).any (fun i => s.read i == sl)))).getD 13)

/-- `state_t::add(idx, slot)` (`wotree256.h:70-85`): insert the nibble
`slot` at logical position `idx` of the slot array, shifting positions
`idx..` one nibble down, and increment `count`.  Returns the new packed
word.  The C computation is on `uint64_t`, hence the explicit
`% 2 ^ 64`; the assignments to the bitfields truncate as in C. -/
def add (s : state_t) (idx slot : Nat) : Nat :=
  let p := s.slotArray <<< 12
  let mask := (2 ^ 64 - 1) >>> (idx * 4)
  let add_value := slot <<< ((15 - idx) * 4)
  let sa := (((p &&& ((2 ^ 64 - 1) ^^^ mask)) + add_value + ((p &&& mask) >>> 4)) % 2 ^ 64) >>> 12
  (((s.withSlotArray sa).withCount (s.count + 1)).pack)

/-- `state_t::remove(idx)` (`wotree256.h:87-97`): delete the nibble at
logical position `idx`, shifting positions `idx+1..` one nibble up, and
decrement `count` (4-bit wrap-around, hence `+ 15`). -/
def remove (s : state_t) (idx : Nat) : Nat :=
  let p := s.slotArray <<< 12
  let mask := (2 ^ 64 - 1) >>> (idx * 4)
  let sa := (((p &&& ((2 ^ 64 - 1) ^^^ mask)) + ((p &&& (mask >>> 4)) <<< 4)) % 2 ^ 64) >>> 12
  (((s.withSlotArray sa).withCount (s.count + 15)).pack)

/-- `state_t::append(idx, slot)` (`wotree256.h:100-111`): same slot-array
insertion as `add` but leaves `count` unchanged. -/
def append (s : state_t) (idx slot : Nat) : Nat :=
  let p := s.slotArray <<< 12
  let mask := (2 ^ 64 - 1) >>> (idx * 4)
  let add_value := slot <<< ((15 - idx) * 4)
  let sa := (((p &&& ((2 ^ 64 - 1) ^^^ mask)) + add_value + ((p &&& mask) >>> 4)) % 2 ^ 64) >>> 12
  ((s.withSlotArray sa).pack)

end state_t

/-! ### Persistence events

Following spec §4.1, the three persistence primitives are `clwb`
(write-back of a byte range), `mfence` (store barrier) and
`persist_assign` (8-byte store, flush of the containing cache line,
fence).  To state the temporal claims we instrument the heap operations
so that they also emit the list of PM events they perform, in program
order.  A plain 8-byte/16-byte store that is not itself a persistence
primitive is recorded as `write`. -/
inductive PMEvent where
  | write (addr size : Nat)
  | clwb (addr size : Nat)
  | mfence
  | store8 (addr : Nat)
  deriving Repr, DecidableEq

/-- Start of the cache line containing byte address `a` (lines are 64 B). -/
def lineOf (a : Nat) : Nat := a / 64 * 64

/-- Events of `persist_assign(loc, v)`: an 8-byte store, a write-back of
the containing cache line, and a fence (spec §4.1 and glossary). -/
def persistAssignEv (a : Nat) : List PMEvent :=
  [PMEvent.store8 a, PMEvent.clwb (lineOf a) 64, PMEvent.mfence]

/-- A 256-byte node (`wotree256.h:116-128`).  `leftmost_ptr_` is a
relative pointer (`0` = NULL); `siblings_` has the two (current/shadow)
sibling records at indices `0` and `1`; `recs_` holds the 13 physical
record slots (as a total function, indices ≥ 13 are never used). -/
structure Node where
  state_ : state_t
  leftmost_ptr_ : Nat
  siblings_ : Nat → Record
  recs_ : Nat → Record

/-- The node constructor `Node()` (`wotree256.h:133-136`): zero state,
NULL leftmost pointer, both sibling slots `{MAX_KEY, NULL}`.  The
physical record slots are not initialised by the constructor; the node
comes fresh from the PM allocator and we model that garbage as zeros. -/
def Node.new : Node :=
  ⟨⟨0⟩, 0, fun _ => ⟨MAX_KEY, 0⟩, fun _ => ⟨0, 0⟩⟩

/-- `Node::append(r, slotid, pos)` (`wotree256.h:398-402`): write record
`r` into physical slot `slotid` and splice `slotid` into the slot array
at logical position `pos` without touching `count`. -/
def Node.appendRec (n : Node) (r : Record) (slotid pos : Nat) : Node :=
  { n with recs_ := upd n.recs_ slotid r,
           state_ := ⟨n.state_.append pos slotid⟩ }

/-- The PM heap: nodes addressed by `1, 2, …` (position in the list plus
one); address `0` is NULL.  `galc->absolute`/`relative` are inverse
bijections between the persisted and in-process pointer forms and are
modelled as the identity on these addresses. -/
abbrev Heap := List Node

/-- Dereference pointer `p` (NULL and dangling pointers yield `none`). -/
def hget (H : Heap) (p : Nat) : Option Node :=
  if p = 0 then none else List.get? H (p - 1)

/-- Store node `n` at pointer `p`. -/
def hset (H : Heap) (p : Nat) (n : Node) : Heap :=
  List.set H (p - 1) n

/-- Byte address of the node at pointer `p` (nodes are 256 B,
cache-line aligned; spec §6 requires ≥ 64-byte alignment). -/
def nodeBase (p : Nat) : Nat := 256 * p

/-- Byte address of `recs_[i]` (offset 48, each record 16 B, spec §6). -/
def recAddr (p i : Nat) : Nat := nodeBase p + 48 + 16 * i

/-- Byte address of `siblings_[i]` (offset 16, spec §6). -/
def sibAddr (p i : Nat) : Nat := nodeBase p + 16 + 16 * i

/-- The scan shared by the leaf branches of `get_child`, `update` and
`remove`: `slotid = 0; for(i &lt; count) { slotid = read(i); if
(recs_[slotid].key >= k) break; }` — the final value of `slotid`. -/
def leafScanSlot (n : Node) (k : Nat) : Nat :=
  match (List.range n.state_.count).find?
      (fun i => k ≤ (n.recs_ (n.state_.read i)).key) with
  | some i => n.state_.read i
  | none => if n.state_.count = 0 then 0 else n.state_.read (n.state_.count - 1)

/-- The scan of the internal branches (`get_child`, `get_lrchild`,
`insertone`): the first logical position whose key is strictly greater
than `k`, or `count` if there is none. -/
def firstGtPos (n : Node) (k : Nat) : Nat :=
  ((List.range n.state_.count).find?
      (fun i => k < (n.recs_ (n.state_.read i)).key)).getD n.state_.count

/-- `Node::get_child(k)` (`wotree256.h:224-269`), with fuel for the
sibling-chain recursion.  Returns the `char *` result (`some 0` = NULL,
`none` = the recursion did not terminate within the fuel or a dangling
pointer was dereferenced). -/
def get_child (H : Heap) : Nat → Nat → Nat → Option Nat
  | 0, _, _ => none
  | fuel+1, p, k => do
    let n ← hget H p
    let sibling := n.siblings_ n.state_.sibling_version
    if sibling.key ≤ k then
      get_child H fuel sibling.val k
    else if n.leftmost_ptr_ = 0 then
      let slotid := leafScanSlot n k
      if (n.recs_ slotid).key = k ∧ 0 < n.state_.count then
        pure (n.recs_ slotid).val
      else
        pure 0
    else
      let pos := firstGtPos n k
      if pos = 0 then pure n.leftmost_ptr_
      else pure (n.recs_ (n.state_.read (pos - 1))).val

/-- `Node::insertone(key, right)` (`wotree256.h:371-395`), instrumented:
find the insertion position, allocate a physical slot, write and flush
the record, fence, then `persist_assign` the new state word. -/
def insertoneT (H : Heap) (p k v : Nat) : Option (Heap × List PMEvent) := do
  let n ← hget H p
  let idx := firstGtPos n k
  let slotid := n.state_.alloc
  let n1 := { n with recs_ := upd n.recs_ slotid ⟨k, v⟩ }
  let new_pack := n1.state_.add idx slotid
  pure (hset H p { n1 with state_ := ⟨new_pack⟩ },
    [PMEvent.write (recAddr p slotid) 16, PMEvent.clwb (recAddr p slotid) 16,
     PMEvent.mfence] ++ persistAssignEv (nodeBase p))

/-- The split portion of `Node::store(k, v, split_k, split_node)`
(`wotree256.h:147-204`), instrumented; `n` is the node already loaded
from pointer `p`.  The node splits at `m = count / 2` with
`split_k = recs_[read(m)].key`; a leaf moves logical positions
`m..count)` into the new node, an internal node turns position `m`'s
value into the new node's `leftmost_ptr_` and moves positions
`m+1..count)`.  The new node is written and flushed, the shadow sibling
slot of the current node is written (the code does **not** flush it
separately), a fence is issued, and the new state word (count updated,
`sibling_version` toggled) is published with `persist_assign`.
Result: `((heap', split_k, split_node), events)`. -/
def splitStep (H : Heap) (p : Nat) (n : Node) :
    (Heap × Nat × Nat) × List PMEvent :=
  let m := n.state_.count / 2
  let split_k := (n.recs_ (n.state_.read m)).key
  let q := H.length + 1
  let leafCase := n.leftmost_ptr_ = 0
  let j := if leafCase then n.state_.count - m else n.state_.count - (m + 1)
  let sn0 := if leafCase then Node.new
             else { Node.new with leftmost_ptr_ := (n.recs_ (n.state_.read m)).val }
  let base := if leafCase then m else m + 1
  let sn1 := (List.range j).foldl
      (fun sn t => sn.appendRec (n.recs_ (n.state_.read (base + t))) t t) sn0
  let new_state := n.state_.withCount
      (if leafCase then n.state_.count - j else n.state_.count - (j + 1))
  let sn2 := { sn1 with
      state_ := (sn1.state_.withCount j).withSibVersion 0,
      siblings_ := upd sn1.siblings_ 0 (n.siblings_ n.state_.sibling_version) }
  let nsv := (n.state_.sibling_version + 1) % 2
  let nOld := { n with siblings_ := upd n.siblings_ nsv ⟨split_k, q⟩ }
  let new_state2 := new_state.withSibVersion nsv
  let nOld2 := { nOld with state_ := ⟨new_state2.pack⟩ }
  let H2 := hset (H ++ [sn2]) p nOld2
  let buildEv : List PMEvent :=
    [PMEvent.write (nodeBase q) 48]
      ++ (if leafCase then [] else [PMEvent.write (nodeBase q + 8) 8])
      ++ (List.range j).foldr
          (fun t l => [PMEvent.write (recAddr q t) 16, PMEvent.write (nodeBase q) 8] ++ l) []
      ++ [PMEvent.write (nodeBase q) 8, PMEvent.write (nodeBase q) 8,
          PMEvent.write (sibAddr q 0) 16,
          PMEvent.clwb (nodeBase q) 64, PMEvent.clwb (recAddr q 1) (16 * (j - 1))]
  ((H2, split_k, q),
    buildEv ++ [PMEvent.write (sibAddr p nsv) 16, PMEvent.mfence]
      ++ persistAssignEv (nodeBase p))

/-- `Node::store` proper: split when full (via `splitStep`), then insert
the pending key on whichever side owns it. -/
def storeT (H : Heap) (p k v : Nat) :
    Option ((Heap × Bool × Nat × Nat) × List PMEvent) := do
  let n ← hget H p
  if n.state_.count = 13 then
    let ((H2, split_k, q), splitEv) := splitStep H p n
    let (H3, insEv) ← if k < split_k then insertoneT H2 p k v else insertoneT H2 q k v
    pure ((H3, true, split_k, q), splitEv ++ insEv)
  else
    let (H', tr) ← insertoneT H p k v
    pure ((H', false, 0, 0), tr)

/-- `Node::update(k, v)` (`wotree256.h:271-289`): scan for the first
logical slot with key ≥ `k`; if its key equals `k`, overwrite the value
and flush the record, returning `true`; otherwise return `false`. -/
def node_update (H : Heap) (p k v : Nat) : Option (Heap × Bool) := do
  let n ← hget H p
  let slotid := leafScanSlot n k
  if (n.recs_ slotid).key = k then
    pure (hset H p { n with recs_ := upd n.recs_ slotid ⟨k, v⟩ }, true)
  else
    pure (H, false)

/-- The leaf-walk shared by the drivers `find` and `update`
(`wotree256.cc:72-77` / `124-129`): follow `get_child` until a node with
NULL `leftmost_ptr_` is reached, returning its pointer. -/
def findLeaf (H : Heap) : Nat → Nat → Nat → Option Nat
  | 0, _, _ => none
  | fuel+1, p, k => do
    let n ← hget H p
    if n.leftmost_ptr_ = 0 then pure p
    else do
      let c ← get_child H (fuel+1) p k
      findLeaf H fuel c k

/-- Driver `find(rootPtr, key, val)` (`wotree256.cc:71-87`): walk to the
owning leaf, call `get_child` there; result is `(found?, val)` where
`found?` is `val != NULL`. -/
def find (H : Heap) (root k fuel : Nat) : Option (Bool × Nat) := do
  let leafp ← findLeaf H fuel root k
  let v ← get_child H fuel leafp k
  pure (v ≠ 0, v)

/-- Driver `update(rootPtr, key, val)` (`wotree256.cc:123-134`): walk to
the owning leaf and call the node-level `update` there.  The node-level
boolean is assigned to the dead local `val` and the driver returns
`true` unconditionally. -/
def update (H : Heap) (root k v fuel : Nat) : Option (Heap × Bool) := do
  let leafp ← findLeaf H fuel root k
  let (H', _) ← node_update H leafp k v
  pure (H', true)

/-- `insert_recursive(n, k, v, split_k, split_node, level)`
(`wotree256.cc:5-26`): recursive descent; a leaf stores directly, an
internal node first increments `level`, descends into `get_child(k)`,
and on a child split stores the routing record `(split_k_child,
relative(split_node_child))` into itself.  Result:
`(heap', split?, split_k, split_node, level)`. -/
def insert_recursive (H : Heap) :
    Nat → Nat → Nat → Nat → Nat → Option (Heap × Bool × Nat × Nat × Nat)
  | 0, _, _, _, _ => none
  | fuel+1, p, k, v, level => do
    let n ← hget H p
    if n.leftmost_ptr_ = 0 then
      let ((H', s, sk, sq), _) ← storeT H p k v
      pure (H', s, sk, sq, level)
    else do
      let c ← get_child H (fuel+1) p k
      let (H1, splitIf, skc, sqc, level') ← insert_recursive H fuel c k v (level + 1)
      if splitIf then
        let ((H2, s2, sk2, sq2), _) ← storeT H1 p skc sqc
        pure (H2, s2, sk2, sq2, level')
      else
        pure (H1, false, 0, 0, level')

/-- Driver `insert(rootPtr, key, val, threshold)` (`wotree256.cc:89-121`):
run the recursive insert from the root with `level = 1`; if the root
split and the height is still below the threshold, build a new root
whose `leftmost_ptr_` is the old root and whose single routing record is
the split, persist it, and publish it as the new root; past the
threshold return the escalation `res_t(true, {split_k, split_node})`.
Result: `(heap', root', escalate?, split_k, split_node)`. -/
def insert (H : Heap) (root k v threshold fuel : Nat) :
    Option (Heap × Nat × Bool × Nat × Nat) := do
  let (H1, splitIf, sk, sq, level) ← insert_recursive H fuel root k v 1
  if splitIf then
    if level < threshold then
      let q := H1.length + 1
      let nr := ((Node.appendRec { Node.new with leftmost_ptr_ := root } ⟨sk, sq⟩ 0 0))
      let nr2 := { nr with state_ := nr.state_.withCount 1 }
      pure (H1 ++ [nr2], q, false, 0, 0)
    else
      pure (H1, root, true, sk, sq)
  else
    pure (H1, root, false, 0, 0)

/-! ### Oracle sorted map (for claim C1)

A plain association-list map: the reference "oracle sorted map" of the
claim, with insert (fresh key), update (overwrite if present) and
lookup. -/

/-- Oracle insert (keys are assumed distinct across inserts). -/
def oracleIns (m : List (Nat × Nat)) (k v : Nat) : List (Nat × Nat) :=
  (k, v) :: m

/-- Oracle update: overwrite the value if the key is present. -/
def oracleUpd (m : List (Nat × Nat)) (k v : Nat) : List (Nat × Nat) :=
  m.map (fun kv => if kv.1 = k then (k, v) else kv)

/-- Oracle lookup. -/
def oracleFind (m : List (Nat × Nat)) (k : Nat) : Option Nat :=
  (m.find? (fun kv => kv.1 = k)).map (fun kv => kv.2)

/-- A driver operation of claim C1: `insert(root, k, v, threshold)` or
`update(root, k, v)`. -/
inductive WOp where
  | ins (k v : Nat)
  | upd (k v : Nat)
  deriving Repr, DecidableEq

/-- Run a sequence of driver operations against the tree (carrying the
heap and the root pointer; an escalating insert leaves the root as is,
exactly as the driver does). -/
def runW (ops : List WOp) (threshold fuel : Nat) : Option (Heap × Nat) :=
  ops.foldl (fun s op => do
      let (H, r) ← s
      match op with
      | WOp.ins k v => do
          let (H', r', _, _, _) ← insert H r k v threshold fuel
          pure (H', r')
      | WOp.upd k v => do
          let (H', _) ← update H r k v fuel
          pure (H', r))
    (some ([Node.new], 1))

/-- Run the same sequence against the oracle map. -/
def runO (ops : List WOp) : List (Nat × Nat) :=
  ops.foldl (fun m op =>
      match op with
      | WOp.ins k v => oracleIns m k v
      | WOp.upd k v => oracleUpd m k v) []

/-- The failing sequence for claim C1: insert the distinct keys `1..14`
(with values equal to the keys) under `threshold = 1`, then update key
`14` to `999`. -/
def c1Ops : List WOp :=
  (List.range 14).map (fun i => WOp.ins (i + 1) (i + 1)) ++ [WOp.upd 14 999]

/-- Does a PM event write back (clwb) a range containing byte `b`? -/
def coversFlush (e : PMEvent) (b : Nat) : Bool :=
  match e with
  | PMEvent.clwb a s => a ≤ b ∧ b < a + s
  | _ => false

/-- A PM event that only touches bytes of the node at pointer `q`
(fences touch nothing and are excluded, as is the 8-byte publish). -/
def inNode (q : Nat) : PMEvent → Prop :=
  fun e =>
    match e with
    | PMEvent.write a s => nodeBase q ≤ a ∧ a + s ≤ nodeBase q + 256
    | PMEvent.clwb a s => nodeBase q ≤ a ∧ a + s ≤ nodeBase q + 256
    | _ => False

/-- The logical key sequence of a node (keys at logical positions
`0..count)`). -/
def liveKeys (n : Node) : List Nat :=
  (List.range n.state_.count).map (fun i => (n.recs_ (n.state_.read i)).key)

/-- A 5-record state (slots `0..4` in order), concrete input of the C9
witness. -/
def st5 : state_t :=
  ⟨(List.range 5).foldl (fun pk i => state_t.add ⟨pk⟩ i i) 0⟩

/-- A full leaf node (count = 13, keys `1..13` in physical slots `0..12`
in slot-array order), the concrete input of the C3/C4 counterexamples. -/
def fullLeaf : Node :=
  { state_ := ⟨(List.range 13).foldl (fun pk i => state_t.add ⟨pk⟩ i i) 0⟩,
    leftmost_ptr_ := 0,
    siblings_ := fun _ => ⟨MAX_KEY, 0⟩,
    recs_ := fun i => ⟨i + 1, 100 + i⟩ }

/-- A two-record sorted leaf (keys `3` and `5`), concrete input of the
C7 witness. -/
def c7leaf : Node :=
  { state_ := ⟨(List.range 2).foldl (fun pk i => state_t.add ⟨pk⟩ i i) 0⟩,
    leftmost_ptr_ := 0,
    siblings_ := fun _ => ⟨MAX_KEY, 0⟩,
    recs_ := fun i => ⟨2 * i + 3, 50 + i⟩ }

end wotree256

namespace fixtree

/-- Fanout of an inner node (`fixtree.h:20`). -/
def INNER_CARD : Nat := 32

/-- Fanout of a leaf node (`fixtree.h:21`). -/
def LEAF_CARD : Nat := 16

/-- Records per leaf at bulk-load time (`fixtree.h:22`). -/
def LEAF_REBUILD_CARD : Nat := 8

/-- The fixtree object (`fixtree.h:36-55`).  The two buffers are
modelled as flat `Int`-indexed key/value stores — `Int` because the
lookup/insert/remove descent keeps the running node index in a signed C
`int` that can become negative (`inner_search` returns `-1` when all
keys of a node exceed the probe).  Inner node `n`, key slot `i` lives at
flat index `32*n + i`; leaf node `L`, slot `j` at flat index `16*L + j`.
`height_` and `leaf_cnt_` are the entrance fields; `lvloff` is the
cached `level_offset_` array. -/
structure Fixtree where
  inner : Int → Nat
  leafK : Int → Nat
  leafV : Int → Nat
  height_ : Nat
  leaf_cnt_ : Nat
  lvloff : Nat → Nat

/-- Ceiling division: the source computes `std::ceil((float)n / d)`;
the float arithmetic is exact for the magnitudes the structure is built
for (`n ≤ 2^24`), and we model it by the exact ceiling. -/
def lfCeil (n d : Nat) : Nat := (n + d - 1) / d

/-- The `level_offset_` computation (`fixtree.h:147-153`): the loop
accumulates `tmp += pow(INNER_CARD, l)`, so `level_offset_[l] =
1 + 32 + … + 32^(l-1)`. -/
def offSum (l : Nat) : Nat := (List.range l).foldl (fun t j => t + 32 ^ j) 0

/-- `inner_insert(node_idx, off, key)` (`fixtree.h:380-382`): write one
key into an inner node. -/
def inner_insert (buf : Int → Nat) (node off key : Nat) : Int → Nat :=
  updI buf ((32 * node + off : Nat) : Int) key

/-- One level-filling pass of the bulk constructor with an external
source (used for the parents of the leaves, `fixtree.h:113-120`): entry
`i` goes to node `off + i/32`, slot `i%32`; if the level is not a
multiple of 32 entries, one `MAX_KEY` terminator is written after the
last entry. -/
def fillLevel (buf : Int → Nat) (off cnt : Nat) (src : Nat → Nat) : Int → Nat :=
  let b := (List.range cnt).foldl
      (fun b i => inner_insert b (off + i / 32) (i % 32) (src i)) buf
  if cnt % 32 ≠ 0 then inner_insert b (off + cnt / 32) (cnt % 32) MAX_KEY else b

/-- One level-filling pass reading its source from the previously built
level of the same (live) buffer (`fixtree.h:131-137`): entry `i` is
`inner_nodes_[last_level_off + i].keys[0]`. -/
def fillLevelLive (buf : Int → Nat) (off cnt lastOff : Nat) : Int → Nat :=
  let b := (List.range cnt).foldl
      (fun b i => inner_insert b (off + i / 32) (i % 32)
        (b ((32 * (lastOff + i) : Nat) : Int))) buf
  if cnt % 32 ≠ 0 then inner_insert b (off + cnt / 32) (cnt % 32) MAX_KEY else b

/-- The upper-level loop of the bulk constructor (`fixtree.h:131-143`),
iterating `steps` times over levels `l = height-2, …, 0`; carries
`(cur_level_cnt, last_level_off, cur_level_off)`.  The final
`cur_level_off` update of the last iteration is the dead negative
update noted in spec §9; it is never consumed (here `Nat` subtraction
truncates, equally unconsumed). -/
def buildLoop (buf : Int → Nat) :
    Nat → Nat → Nat → Nat → Nat → (Int → Nat)
  | _, _, _, _, 0 => buf
  | cnt, lastOff, curOff, l, steps+1 =>
      let b := fillLevelLive buf curOff cnt lastOff
      buildLoop b (lfCeil cnt 32) curOff (curOff - 32 ^ (l - 1)) (l - 1) steps

/-- Fuel-bounded ceiling logarithm: `clogFuel b fuel n` is
`⌈log_b n⌉` whenever `fuel ≥ n` (see `clogFuel_eq_clog`). -/
def clogFuel (b : Nat) : Nat → Nat → Nat
  | 0, _ => 0
  | fuel + 1, n => if n ≤ 1 then 0 else clogFuel b fuel ((n + b - 1) / b) + 1

/-- The leaf-filling loop of the bulk constructor (`fixtree.h:91-104`):
leaf `i` gets the 8 records `i*8 .. i*8+7` in key/value slots `0..7`
(`MAX_KEY`/`0` past the input), and `MAX_KEY` in key slots `8..15`. -/
def leafFill (records : List Record) (gK gV : Int → Nat) :
    (Int → Nat) × (Int → Nat) :=
  let record_count := records.length
  (List.range (lfCeil record_count LEAF_REBUILD_CARD)).foldl
      (fun (kv : (Int → Nat) × (Int → Nat)) i =>
        let kv := (List.range 8).foldl
            (fun (kv : (Int → Nat) × (Int → Nat)) j =>
              let idx := i * 8 + j
              (updI kv.1 ((16 * i + j : Nat) : Int)
                  (if idx < record_count then (records.getD idx ⟨0, 0⟩).key else MAX_KEY),
               updI kv.2 ((16 * i + j : Nat) : Int)
                  (if idx < record_count then (records.getD idx ⟨0, 0⟩).val else 0)))
            kv
        ((List.range 8).foldl
            (fun b j => updI b ((16 * i + 8 + j : Nat) : Int) MAX_KEY) kv.1,
         kv.2))
      (gK, gV)

/-- The bulk constructor `Fixtree(std::vector<Record>)`
(`fixtree.h:74-162`) from a sorted record vector.  `gI`, `gK`, `gV` are
the initial contents of the freshly allocated inner/leaf buffers (the
constructor does not zero them; the pm-allocator is not part of the
sources, and spec §4.3.1 assumes zero-initialised buffers — theorems
that depend on untouched slots take these to be zero, the others hold
for arbitrary initial contents).  `height = ⌈log(max(32, leaf_cnt)) /
log 32⌉` is computed by the source in `double` arithmetic; we model it
exactly as the ceiling logarithm (`clogFuel 32`, which agrees with
`Nat.clog 32` by `clogFuel_eq_clog`). -/
def build (records : List Record) (gI gK gV : Int → Nat) : Fixtree :=
  let record_count := records.length
  let lfnode_cnt := lfCeil record_count LEAF_REBUILD_CARD
  let height_ := clogFuel 32 (max 32 lfnode_cnt) (max 32 lfnode_cnt)
  let innode_cnt := (32 ^ height_ - 1) / 31
  let lf := leafFill records gK gV
  let off0 := innode_cnt - 32 ^ (height_ - 1)
  let b1 := fillLevel gI off0 lfnode_cnt (fun i => lf.1 ((16 * i : Nat) : Int))
  let ib := buildLoop b1 (lfCeil lfnode_cnt 32) off0 (off0 - 32 ^ (height_ - 2))
      (height_ - 2) (height_ - 1)
  { inner := ib, leafK := lf.1, leafV := lf.2,
    height_ := height_, leaf_cnt_ := lfnode_cnt, lvloff := offSum }

/-- `Fixtree::inner_search(node_idx, key)` (`fixtree.h:336-347`): index
of the last key of the node that is ≤ `key`; `-1` if even `keys[0]`
exceeds `key`; `INNER_CARD - 1` if no key exceeds `key`. -/
def inner_search (t : Fixtree) (node_idx : Int) (key : Nat) : Int :=
  match (List.range 32).find? (fun (i : Nat) => key < t.inner (32 * node_idx + (i : Int))) with
  | some i => (i : Int) - 1
  | none => 31

/-- The descent shared by `find_lower`, `insert` and `try_remove`
(`fixtree.h:169-178`): walk the inner levels and return the final
`cur_idx` *minus* `level_offset_[height_]`, i.e. the leaf index (the C
keeps it in a signed `int`; it is `-level_offset_[height_]` when the
probe key is smaller than every key of the tree). -/
def leafIdx (t : Fixtree) (key : Nat) : Int :=
  ((List.range t.height_).foldl
      (fun cur l =>
        (t.lvloff (l + 1) : Int) + (cur - (t.lvloff l : Int)) * 32 + inner_search t cur key)
      ((t.lvloff 0 : Int)))
    - (t.lvloff t.height_ : Int)

/-- `Fixtree::leaf_search(node_idx, key)` (`fixtree.h:350-365`): running
maximum over the 16 (unsorted) slots, seeded with slot 0 regardless of
its contents; returns the slot position of the running maximum (the C
function returns `&vals[max_leqi]`). -/
def leaf_search (t : Fixtree) (L : Int) (key : Nat) : Nat :=
  ((List.range 15).foldl
      (fun (mk : Nat × Nat) (i0 : Nat) =>
        let i : Nat := i0 + 1
        let ki := t.leafK (16 * L + (i : Int))
        if ki ≤ key ∧ mk.1 < ki then (ki, i) else mk)
      (t.leafK (16 * L), 0)).2

/-- `Fixtree::find_lower(key)` (`fixtree.h:166-182`): returns the value
slot as its `(leaf index, slot)` coordinates — the C function returns
the address `&leaf_nodes_[leaf].vals[slot]`. -/
def find_lower (t : Fixtree) (key : Nat) : Int × Nat :=
  let L := leafIdx t key
  (L, leaf_search t L key)

/-- `Fixtree::leaf_insert(node_idx, off, rec)` (`fixtree.h:368-377`):
value first, then key, each with flush + fence. -/
def leaf_insert (t : Fixtree) (L : Int) (off key v : Nat) : Fixtree :=
  { t with leafV := updI t.leafV (16 * L + off) v,
           leafK := updI t.leafK (16 * L + off) key }

/-- `Fixtree::insert(key, val)` (`fixtree.h:185-207`): descend to the
leaf, take the first slot whose key is `MAX_KEY`, fail if none. -/
def insert (t : Fixtree) (key v : Nat) : Bool × Fixtree :=
  let L := leafIdx t key
  match (List.range 16).find? (fun (i : Nat) => t.leafK (16 * L + (i : Int)) == MAX_KEY) with
  | some i => (true, leaf_insert t L i key v)
  | none => (false, t)

/-- The leaf scan of `Fixtree::try_remove` (`fixtree.h:225-236`): over
slots `1..15`, count non-`MAX_KEY` slots (slot 0 is counted
unconditionally by the initial `rec_cnt = 1`) and track the running
maximum key ≤ `key`, seeded with slot 0's key regardless of its
contents.  Result `(max_leqkey, max_leqi, rec_cnt)`. -/
def tryRemoveScan (t : Fixtree) (L : Int) (key : Nat) : Nat × Nat × Nat :=
  (List.range 15).foldl
      (fun (acc : Nat × Nat × Nat) (i0 : Nat) =>
        let i : Nat := i0 + 1
        let ki := t.leafK (16 * L + (i : Int))
        if ki ≠ MAX_KEY then
          if ki ≤ key ∧ acc.1 < ki then (ki, i, acc.2.2 + 1)
          else (acc.1, acc.2.1, acc.2.2 + 1)
        else acc)
      (t.leafK (16 * L), 0, 1)

/-- `Fixtree::try_remove(key)` (`fixtree.h:210-250`): descend to the
leaf, run the scan, refuse if the winner is slot 0 while `rec_cnt > 1`,
otherwise tombstone the winning slot with one `persist_assign`. -/
def try_remove (t : Fixtree) (key : Nat) : Bool × Fixtree :=
  let L := leafIdx t key
  let acc := tryRemoveScan t L key
  if acc.2.1 = 0 ∧ 1 < acc.2.2 then (false, t)
  else (true, { t with leafK := updI t.leafK (16 * L + (acc.2.1 : Int)) MAX_KEY })

/-- The number of non-`MAX_KEY` slots among slots `1..15` of a leaf,
plus one for slot 0 — the `rec_cnt` the code actually computes. -/
def recCntCode (t : Fixtree) (L : Int) : Nat :=
  1 + ((List.range 15).filter
      (fun (i0 : Nat) => t.leafK (16 * L + ((i0 + 1 : Nat) : Int)) ≠ MAX_KEY)).length

/-- The position of the record with the largest key ≤ `k` among the
non-`MAX_KEY` slots of a leaf — the `max_leq` of claim C5 as worded
(`none` if the leaf has no live key ≤ `k`). -/
def claimMaxLeqPos (t : Fixtree) (L : Int) (k : Nat) : Option Nat :=
  ((List.range 16).filter
      (fun (i : Nat) => t.leafK (16 * L + (i : Int)) ≠ MAX_KEY ∧ t.leafK (16 * L + (i : Int)) ≤ k)).foldl
    (fun (best : Option Nat) (i : Nat) =>
      match best with
      | none => some i
      | some b =>
          if t.leafK (16 * L + (b : Int)) < t.leafK (16 * L + (i : Int)) then some i else some b)
    none

/-- Sorted input for the C2 counterexample: records `(1,1) … (24,24)`
(the end-to-end scenario of spec §8). -/
def records24 : List Record := (List.range 24).map (fun i => ⟨i + 1, i + 1⟩)

/-- The tree bulk-loaded from `records24` over zeroed buffers. -/
def t24 : Fixtree := build records24 (fun _ => 0) (fun _ => 0) (fun _ => 0)

/-- The reachable state of the C5 counterexample: bulk-load `{2, 5}`,
remove `5`, remove `2` (emptying the single leaf), insert `7`, insert
`3`.  The leaf now holds keys `[7, 3, MAX_KEY × 14]` — slot 0's key is
greater than slot 1's. -/
def c5state : Fixtree :=
  let s0 := build [⟨2, 20⟩, ⟨5, 50⟩] (fun _ => 0) (fun _ => 0) (fun _ => 0)
  let s1 := (try_remove s0 5).2
  let s2 := (try_remove s1 2).2
  let s3 := (insert s2 7 70).2
  (insert s3 3 30).2

/-- `d`-fold ceiling division by 32: starting from the entry count of
one level of the bulk-loaded structure, `chainC c d` is the entry count
`d` levels further up. -/
def chainC (c : Nat) : Nat → Nat
  | 0 => c
  | d + 1 => lfCeil (chainC c d) 32

/-- The largest input key that is ≤ `k` (`0` if there is none) — the
mathematical answer claim C2 specifies for `find_lower(k)`. -/
def maxLeqKey (records : List Record) (k : Nat) : Nat :=
  ((records.map Record.key).filter (fun x => x ≤ k)).foldl max 0

/-- The effect of one leaf-fill iteration on the key buffer (leaf `i`
of `leafFill`): record keys (or `MAX_KEY` past the input) into slots
`0..7`, `MAX_KEY` into slots `8..15`. -/
def leafKeyStep (records : List Record) (K : Int → Nat) (i : Nat) : Int → Nat :=
  (List.range 8).foldl (fun b j => updI b ((16 * i + 8 + j : Nat) : Int) MAX_KEY)
    ((List.range 8).foldl
      (fun b j => updI b ((16 * i + j : Nat) : Int)
        (if i * 8 + j < records.length then (records.getD (i * 8 + j) ⟨0, 0⟩).key
         else MAX_KEY)) K)

/-- The effect of one leaf-fill iteration on the value buffer. -/
def leafValStep (records : List Record) (V : Int → Nat) (i : Nat) : Int → Nat :=
  (List.range 8).foldl
    (fun b j => updI b ((16 * i + j : Nat) : Int)
      (if i * 8 + j < records.length then (records.getD (i * 8 + j) ⟨0, 0⟩).val
       else 0)) V

/-- The height the bulk constructor computes for an input of the given
size (`⌈log_32 (max 32 ⌈N/8⌉)⌉`). -/
def bheight (records : List Record) : Nat :=
  clogFuel 32 (max 32 (lfCeil records.length 8)) (max 32 (lfCeil records.length 8))

/-- The first non-`MAX_KEY` key among the `card` slots of a node, read
through `f` (slot ↦ key): claim C6's "child's first non-`MAX_KEY`
key". -/
def firstLiveKey (f : Nat → Nat) (card : Nat) : Option Nat :=
  ((List.range card).find? (fun s => f s ≠ MAX_KEY)).map f

end fixtree

/-! ## Theorems -/

namespace wotree256

/-- **C1.**  The claim — that after any sequence of driver inserts (with
distinct keys), updates and removes the driver `find` agrees with an
oracle sorted map — fails on the code.  Failing sequence: with
`threshold = 1`, insert the distinct keys `1..14` (value = key; the 14th
insert splits the root leaf, and because `level ≥ threshold` the split
is reported for escalation and no new root is installed), then
`update(14, 999)`.  The oracle then maps `14 ↦ 999`, and `find(14)`
indeed still reaches the key through the root's sibling pointer — but it
returns the stale value `14`: `Node::update` does not follow the sibling
chain (unlike `get_child`, `wotree256.h:226-232`, and `Node::remove`,
`wotree256.h:294-298`), so the update was silently dropped on the root
leaf. -/
theorem C1_update_dropped_after_escalated_split :
    ((runW c1Ops 1 20).bind (fun s => find s.1 s.2 14 20) = some (true, 14) ∧
      oracleFind (runO c1Ops) 14 = some 999) ∧ (14 : Nat) ≠ 999 := by
  exact ⟨⟨rfl, rfl⟩, by omega⟩

/-- **C10.**  A leaf node (`leftmost_ptr_` NULL) with `count = 0` whose
current sibling key is `MAX_KEY` yields `get_child(k) = NULL` for every
legal key `k` and any contents of the physical record slots — the
`count > 0` guard of the leaf branch (`wotree256.h:246`) rejects the
stale record that the scan's initial `slotid = 0` designates — and
consequently the driver `find` on a tree whose root is such a leaf
returns false. -/
theorem C10_empty_leaf_find_false
    (H : Heap) (p k fuel : Nat) (n : Node)
    (hp : hget H p = some n) (hleaf : n.leftmost_ptr_ = 0)
    (hcnt : n.state_.count = 0)
    (hsib : (n.siblings_ n.state_.sibling_version).key = MAX_KEY)
    (hk : k < MAX_KEY) :
    get_child H (fuel + 1) p k = some 0 ∧ find H p k (fuel + 1) = some (false, 0) := by
  have hgc : get_child H (fuel + 1) p k = some 0 := by
    simp only [get_child, hp, Option.bind_eq_bind, Option.some_bind, hsib, hleaf]
    rw [if_neg (by omega)]
    simp only [if_true]
    have hscan : leafScanSlot n k = 0 := by
      simp [leafScanSlot, hcnt]
    rw [hscan, if_neg (by simp [hcnt])]
    rfl
  refine ⟨hgc, ?_⟩
  simp only [find, findLeaf, hp, Option.bind_eq_bind, Option.some_bind, hleaf, if_pos rfl]
  simp [hgc]

/-- **C10 witness.**  The theorem applied to a one-node heap whose root
is the freshly constructed (empty) leaf and the probe key `5`. -/
theorem C10_empty_leaf_find_false_witness :
    get_child [Node.new] 1 1 5 = some 0 ∧ find [Node.new] 1 5 1 = some (false, 0) := by
  simpa using
    C10_empty_leaf_find_false [Node.new] 1 5 0 Node.new rfl rfl rfl rfl (by decide)

/-- **C7 counterexample.**  On the one-node heap (empty root leaf) and
the absent key `5`, the driver `update` returns `true` (the claim says
it reports not-found as its boolean result, i.e. `false` here), while
`find` confirms the key is absent. -/
theorem C7_counterexample :
    update [Node.new] 1 5 42 10 = some ([Node.new], true) ∧
    find [Node.new] 1 5 10 = some (false, 0) := by
  exact ⟨rfl, rfl⟩


/-! ### Heap access lemmas -/

theorem hget_bounds {H : Heap} {p : Nat} {n : Node} (h : hget H p = some n) :
    p ≠ 0 ∧ p - 1 < H.length := by
  by_cases hp : p = 0
  · simp [hget, hp] at h
  · refine ⟨hp, ?_⟩
    simp only [hget, hp, if_false] at h
    exact List.get?_eq_some.mp h |>.1

theorem hget_hset_append_fresh (H : Heap) (p : Nat) (x m : Node)
    (hp : p ≠ 0) (hlt : p - 1 < H.length) :
    hget (hset (H ++ [x]) p m) (H.length + 1) = some x := by
  have h0 : H.length + 1 ≠ 0 := by omega
  simp only [hget, hset, if_neg h0, Nat.add_sub_cancel]
  rw [List.get?_set_ne _ _ (by omega)]
  exact List.get?_concat_length H x

theorem hget_hset_append_self (H : Heap) (p : Nat) (x m : Node)
    (hp : p ≠ 0) (hlt : p - 1 < H.length) :
    hget (hset (H ++ [x]) p m) p = some m := by
  simp only [hget, hset, if_neg hp]
  rw [List.get?_set_eq_of_lt _ (by simp; omega)]


/-- **C3 counterexample.**  Splitting the concrete full leaf `fullLeaf`
(count 13, keys `1..13`): the new sibling receives the **7** records at
logical positions `6..12` and its count is set to `7` (the claim says 6
records and count 6), while the original node's published count is
`13 - 7 = 6` (the claim says `13 - 6 = 7`). -/
theorem C3_counterexample :
    ((hget (splitStep [fullLeaf] 1 fullLeaf).1.1 2).map (fun sn => sn.state_.count)
        = some 7 ∧
      (hget (splitStep [fullLeaf] 1 fullLeaf).1.1 1).map (fun n' => n'.state_.count)
        = some 6) ∧ (7 : Nat) ≠ 6 := by
  exact ⟨⟨rfl, rfl⟩, by omega⟩


/-- **C4 counterexample.**  On the split of the concrete full leaf
`fullLeaf` (heap `[fullLeaf]`, pointer 1, shadow slot `siblings_[1]` at
byte address `sibAddr 1 1`): the shadow sibling slot is written at trace
position 20 and the fence follows immediately at position 21, with the
8-byte state publish at position 22 — no `clwb` covering the shadow slot
occurs anywhere before the publish, so the claimed order "shadow slot
written **and flushed**, then fence, then publish" does not hold (the
slot's line is only written back by the `persist_assign` after the
fence). -/
theorem C4_counterexample :
    (((splitStep [fullLeaf] 1 fullLeaf).2.take 22).any
        (fun e => coversFlush e (sibAddr 1 1))) = false ∧
    (splitStep [fullLeaf] 1 fullLeaf).2.get? 20
      = some (PMEvent.write (sibAddr 1 1) 16) ∧
    (splitStep [fullLeaf] 1 fullLeaf).2.get? 21 = some PMEvent.mfence ∧
    (splitStep [fullLeaf] 1 fullLeaf).2.get? 22
      = some (PMEvent.store8 (nodeBase 1)) := by
  exact ⟨rfl, rfl, rfl, rfl⟩

/-! ### Bit-arithmetic toolkit for `state_t` -/

theorem two_pow_sub_one_sr {a b : Nat} (h : b ≤ a) :
    ((2 : Nat) ^ a - 1) >>> b = 2 ^ (a - b) - 1 := by
  rw [Nat.shiftRight_eq_div_pow]
  have h1 : (2 : Nat) ^ a = 2 ^ (a - b) * 2 ^ b := by
    rw [← pow_add]; congr 1; omega
  have h2 : (0 : Nat) < 2 ^ b := Nat.pos_pow_of_pos _ (by norm_num)
  have h3 : (0 : Nat) < 2 ^ (a - b) := Nat.pos_pow_of_pos _ (by norm_num)
  have h4 : (2 : Nat) ^ a - 1 = (2 ^ b - 1) + (2 ^ (a - b) - 1) * 2 ^ b := by
    have h5 : (2 ^ (a - b) - 1) * 2 ^ b = 2 ^ (a - b) * 2 ^ b - 2 ^ b := by
      rw [Nat.sub_mul, one_mul]
    have h6 : (2 : Nat) ^ b ≤ 2 ^ (a - b) * 2 ^ b :=
      Nat.le_mul_of_pos_left _ h3
    omega
  rw [h4, Nat.add_mul_div_right _ _ h2, Nat.div_eq_of_lt (by omega)]
  omega

theorem ones_xor_ones {k : Nat} (hk : k ≤ 64) :
    ((2 : Nat) ^ 64 - 1) ^^^ (2 ^ k - 1) = (2 ^ (64 - k) - 1) <<< k := by
  apply Nat.eq_of_testBit_eq
  intro i
  simp only [Nat.testBit_xor, Nat.testBit_two_pow_sub_one, Nat.testBit_shiftLeft,
    ge_iff_le]
  by_cases h1 : i < k
  · have h2 : i < 64 := lt_of_lt_of_le h1 hk
    simp [h1, h2, Nat.not_le.mpr h1]
  · by_cases h2 : i < 64
    · have h3 : i - k < 64 - k := by omega
      simp [h1, h2, Nat.not_lt.mp h1, h3]
    · have h3 : ¬(i - k < 64 - k) := by omega
      simp [h1, h2, Nat.not_lt.mp h1, h3]

theorem and_window (x m n : Nat) :
    x &&& ((2 ^ m - 1) <<< n) = x % 2 ^ (m + n) / 2 ^ n * 2 ^ n := by
  have h : x % 2 ^ (m + n) / 2 ^ n * 2 ^ n = ((x % 2 ^ (m + n)) >>> n) <<< n := by
    rw [Nat.shiftLeft_eq, Nat.shiftRight_eq_div_pow]
  rw [h]
  apply Nat.eq_of_testBit_eq
  intro i
  simp only [Nat.testBit_and, Nat.testBit_shiftLeft, Nat.testBit_shiftRight,
    Nat.testBit_mod_two_pow, Nat.testBit_two_pow_sub_one, ge_iff_le]
  by_cases h1 : n ≤ i
  · have h2 : n + (i - n) = i := by omega
    have h3 : (i - n < m) ↔ (i < m + n) := by omega
    simp [h1, h2, h3]
    by_cases h4 : i < m + n <;> simp [h4]
  · simp [h1]

namespace state_t

theorem slotArray_lt (s : state_t) : s.slotArray < 2 ^ 52 :=
  Nat.mod_lt _ (by norm_num)

theorem count_lt (s : state_t) : s.count < 16 :=
  Nat.mod_lt _ (by norm_num)

theorem slotArray_withSlotArray (s : state_t) (a : Nat) :
    (s.withSlotArray a).slotArray = a % 2 ^ 52 := by
  simp only [withSlotArray, slotArray]
  have h : (2 : Nat) ^ 52 = 4503599627370496 := by norm_num
  rw [h]; omega

theorem count_withSlotArray (s : state_t) (a : Nat) :
    (s.withSlotArray a).count = s.count := by
  simp only [withSlotArray, count]
  have h : (2 : Nat) ^ 52 = 4503599627370496 := by norm_num
  have h4 : (2 : Nat) ^ 4 = 16 := by norm_num
  rw [h, h4]; omega

theorem sibver_withSlotArray (s : state_t) (a : Nat) :
    (s.withSlotArray a).sibling_version = s.sibling_version := by
  simp only [withSlotArray, sibling_version]
  have h : (2 : Nat) ^ 52 = 4503599627370496 := by norm_num
  have h2 : (2 : Nat) ^ 56 = 72057594037927936 := by norm_num
  rw [h, h2]; omega

theorem slotArray_withCount (s : state_t) (c : Nat) :
    (s.withCount c).slotArray = s.slotArray := by
  simp only [withCount, slotArray]
  have h : (2 : Nat) ^ 52 = 4503599627370496 := by norm_num
  have h2 : (2 : Nat) ^ 56 = 72057594037927936 := by norm_num
  have h4 : (2 : Nat) ^ 4 = 16 := by norm_num
  rw [h, h2, h4]; omega

theorem count_withCount (s : state_t) (c : Nat) :
    (s.withCount c).count = c % 16 := by
  simp only [withCount, count]
  have h : (2 : Nat) ^ 52 = 4503599627370496 := by norm_num
  have h2 : (2 : Nat) ^ 56 = 72057594037927936 := by norm_num
  have h4 : (2 : Nat) ^ 4 = 16 := by norm_num
  rw [h, h2, h4]; omega

theorem sibver_withCount (s : state_t) (c : Nat) :
    (s.withCount c).sibling_version = s.sibling_version := by
  simp only [withCount, sibling_version]
  have h : (2 : Nat) ^ 52 = 4503599627370496 := by norm_num
  have h2 : (2 : Nat) ^ 56 = 72057594037927936 := by norm_num
  have h4 : (2 : Nat) ^ 4 = 16 := by norm_num
  rw [h, h2, h4]; omega

theorem slotArray_withSibVersion (s : state_t) (v : Nat) :
    (s.withSibVersion v).slotArray = s.slotArray := by
  simp only [withSibVersion, slotArray]
  have h : (2 : Nat) ^ 52 = 4503599627370496 := by norm_num
  have h2 : (2 : Nat) ^ 56 = 72057594037927936 := by norm_num
  have h3 : (2 : Nat) ^ 57 = 144115188075855872 := by norm_num
  rw [h, h2, h3]; omega

theorem count_withSibVersion (s : state_t) (v : Nat) :
    (s.withSibVersion v).count = s.count := by
  simp only [withSibVersion, count]
  have h : (2 : Nat) ^ 52 = 4503599627370496 := by norm_num
  have h2 : (2 : Nat) ^ 56 = 72057594037927936 := by norm_num
  have h3 : (2 : Nat) ^ 57 = 144115188075855872 := by norm_num
  have h4 : (2 : Nat) ^ 4 = 16 := by norm_num
  rw [h, h2, h3, h4]; omega

theorem sibver_withSibVersion (s : state_t) (v : Nat) :
    (s.withSibVersion v).sibling_version = v % 2 := by
  simp only [withSibVersion, sibling_version]
  have h2 : (2 : Nat) ^ 56 = 72057594037927936 := by norm_num
  have h3 : (2 : Nat) ^ 57 = 144115188075855872 := by norm_num
  rw [h2, h3]; omega

/-- `read` depends only on the slot array and extracts its `j`-th
(most-significant-first) nibble. -/
theorem read_eq (s : state_t) (j : Nat) (hj : j ≤ 12) :
    s.read j = s.slotArray / 2 ^ (4 * (12 - j)) % 16 := by
  have hw : (s.slotArray <<< 12) &&& (0xf <<< ((15 - j) * 4))
      = (s.slotArray <<< 12) % 2 ^ (4 + (15 - j) * 4) / 2 ^ ((15 - j) * 4)
          * 2 ^ ((15 - j) * 4) := by
    have h := and_window (s.slotArray <<< 12) 4 ((15 - j) * 4)
    norm_num at h
    exact h
  simp only [read]
  rw [hw, Nat.shiftRight_eq_div_pow,
    Nat.mul_div_cancel _ (Nat.pos_pow_of_pos _ (by norm_num)), Nat.shiftLeft_eq]
  have h1 : 4 + (15 - j) * 4 = 4 * (13 - j) + 12 := by omega
  rw [h1, pow_add, Nat.mul_mod_mul_right]
  have h2 : (15 - j) * 4 = 4 * (12 - j) + 12 := by omega
  rw [h2, pow_add, Nat.mul_div_mul_right _ _ (Nat.pos_pow_of_pos 12 (by norm_num))]
  have h3 : 4 * (13 - j) = 4 * (12 - j) + 4 := by omega
  rw [h3, pow_add, Nat.mod_mul_right_div_self]
  norm_num

theorem hi_part (A i : Nat) (hA : A < 2 ^ 52) (hi : i ≤ 12) :
    (A <<< 12) &&& ((2 ^ 64 - 1) ^^^ ((2 ^ 64 - 1) >>> (i * 4)))
      = A / 2 ^ (4 * (13 - i)) * 2 ^ (4 * (13 - i)) * 2 ^ 12 := by
  rw [two_pow_sub_one_sr (show i * 4 ≤ 64 by omega),
    ones_xor_ones (show 64 - i * 4 ≤ 64 by omega), and_window]
  have h1 : 64 - (64 - i * 4) + (64 - i * 4) = 64 := by omega
  rw [h1, Nat.shiftLeft_eq]
  have hp : A * 2 ^ 12 < 2 ^ 64 := by
    have : A * 2 ^ 12 < 2 ^ 52 * 2 ^ 12 := by
      exact (Nat.mul_lt_mul_right (by norm_num)).mpr hA
    calc A * 2 ^ 12 < 2 ^ 52 * 2 ^ 12 := this
      _ = 2 ^ 64 := by norm_num
  rw [Nat.mod_eq_of_lt hp]
  have h2 : 64 - i * 4 = 4 * (13 - i) + 12 := by omega
  rw [h2, pow_add, Nat.mul_div_mul_right _ _ (Nat.pos_pow_of_pos 12 (by norm_num))]
  ring

theorem lo_part (A i : Nat) (hi : i ≤ 12) :
    (A <<< 12) &&& ((2 ^ 64 - 1) >>> (i * 4))
      = A % 2 ^ (4 * (13 - i)) * 2 ^ 12 := by
  rw [two_pow_sub_one_sr (show i * 4 ≤ 64 by omega), Nat.shiftLeft_eq]
  rw [Nat.and_pow_two_sub_one_eq_mod]
  have h2 : 64 - i * 4 = 4 * (13 - i) + 12 := by omega
  rw [h2, pow_add, Nat.mul_mod_mul_right]


/-- Sharp bound for the high part: the cleared-out prefix stays below
`2^52` by a full `2^e`. -/
theorem hi_bound (A e : Nat) (hA : A < 2 ^ 52) (he : e ≤ 52) :
    A / 2 ^ e * 2 ^ e ≤ 2 ^ 52 - 2 ^ e := by
  have h4 : (2 : Nat) ^ 52 = 2 ^ (52 - e) * 2 ^ e := by
    rw [← pow_add]; congr 1; omega
  have h5 : A / 2 ^ e < 2 ^ (52 - e) := by
    apply Nat.div_lt_of_lt_mul
    rw [mul_comm, ← h4]; exact hA
  have h6 : A / 2 ^ e * 2 ^ e ≤ (2 ^ (52 - e) - 1) * 2 ^ e :=
    Nat.mul_le_mul_right _ (by omega)
  have h7 : (2 ^ (52 - e) - 1) * 2 ^ e = 2 ^ 52 - 2 ^ e := by
    rw [Nat.sub_mul, one_mul, ← h4]
  omega

/-- Closed form of `state_t::add`: subject to `idx ≤ 12` and a 4-bit
slot id, the new slot array is the old one with nibble `slot` spliced in
at logical position `idx` (nibbles `idx..` shifted one place towards the
least significant end, the last one dropped), and `count` is
incremented. -/
theorem add_eq (s : state_t) (i sl : Nat) (hi : i ≤ 12) (hs : sl < 16) :
    s.add i sl = ((s.withSlotArray
      (s.slotArray / 2 ^ (4 * (13 - i)) * 2 ^ (4 * (13 - i))
        + sl * 2 ^ (4 * (12 - i))
        + s.slotArray % 2 ^ (4 * (13 - i)) / 16)).withCount (s.count + 1)).pack := by
  have hA := s.slotArray_lt
  have key : (((((s.slotArray <<< 12) &&& ((2 ^ 64 - 1) ^^^ ((2 ^ 64 - 1) >>> (i * 4))))
        + (sl <<< ((15 - i) * 4))
        + (((s.slotArray <<< 12) &&& ((2 ^ 64 - 1) >>> (i * 4))) >>> 4)) % 2 ^ 64) >>> 12)
      = s.slotArray / 2 ^ (4 * (13 - i)) * 2 ^ (4 * (13 - i))
        + sl * 2 ^ (4 * (12 - i)) + s.slotArray % 2 ^ (4 * (13 - i)) / 16 := by
    set A := s.slotArray with hAdef
    rw [hi_part A i hA hi, lo_part A i hi, Nat.shiftLeft_eq sl]
    simp only [Nat.shiftRight_eq_div_pow]
    have h1 : (15 - i) * 4 = 4 * (12 - i) + 12 := by omega
    rw [h1, pow_add, ← Nat.mul_assoc]
    have h2 : A % 2 ^ (4 * (13 - i)) * 2 ^ 12 / 2 ^ 4 = A % 2 ^ (4 * (13 - i)) * 2 ^ 8 := by
      rw [show (2 : Nat) ^ 12 = 2 ^ 8 * 2 ^ 4 by norm_num, ← Nat.mul_assoc,
        Nat.mul_div_cancel _ (by norm_num)]
    rw [h2]
    have hea : 4 ≤ 4 * (13 - i) := by omega
    have heb : 4 * (13 - i) ≤ 52 := by omega
    have hdd : 4 * (12 - i) + 4 = 4 * (13 - i) := by omega
    have e1 : (2 : Nat) ^ (52 - 4 * (13 - i)) * 2 ^ (4 * (13 - i)) = 2 ^ 52 := by
      rw [← pow_add]; congr 1; omega
    have hb1 : A / 2 ^ (4 * (13 - i)) * 2 ^ (4 * (13 - i)) ≤ 2 ^ 52 - 2 ^ (4 * (13 - i)) :=
      hi_bound A _ hA heb
    have hb2 : A % 2 ^ (4 * (13 - i)) < 2 ^ (4 * (13 - i)) :=
      Nat.mod_lt _ (Nat.pos_pow_of_pos _ (by norm_num))
    have hsum : A / 2 ^ (4 * (13 - i)) * 2 ^ (4 * (13 - i)) * 2 ^ 12
        + sl * 2 ^ (4 * (12 - i)) * 2 ^ 12
        + A % 2 ^ (4 * (13 - i)) * 2 ^ 8 < 2 ^ 64 := by
      have p1 : (2 : Nat) ^ (4 * (13 - i)) * 2 ^ 12 = 16 * 2 ^ (4 * (12 - i) + 12) := by
        rw [← hdd]; simp only [pow_add]; ring
      have p2 : (2 : Nat) ^ (4 * (13 - i)) * 2 ^ 8 = 2 ^ (4 * (12 - i) + 12) := by
        rw [← hdd]; simp only [pow_add]; ring
      have p3 : (2 : Nat) ^ (4 * (12 - i)) * 2 ^ 12 = 2 ^ (4 * (12 - i) + 12) := by
        simp only [pow_add]
      have hX : (2 : Nat) ^ (4 * (12 - i) + 12) ≤ 2 ^ 60 :=
        Nat.pow_le_pow_right (by norm_num) (by omega)
      have hX2 : (256 : Nat) ≤ 2 ^ (4 * (12 - i) + 12) := by
        calc (256 : Nat) = 2 ^ 8 := by norm_num
          _ ≤ 2 ^ (4 * (12 - i) + 12) := Nat.pow_le_pow_right (by norm_num) (by omega)
      have t1 : A / 2 ^ (4 * (13 - i)) * 2 ^ (4 * (13 - i)) * 2 ^ 12
          ≤ (2 ^ 52 - 2 ^ (4 * (13 - i))) * 2 ^ 12 :=
        Nat.mul_le_mul_right _ hb1
      have t2 : sl * 2 ^ (4 * (12 - i)) * 2 ^ 12 ≤ 15 * (2 ^ (4 * (12 - i)) * 2 ^ 12) := by
        rw [← Nat.mul_assoc]
        exact Nat.mul_le_mul_right _ (Nat.mul_le_mul_right _ (by omega))
      have t3 : A % 2 ^ (4 * (13 - i)) * 2 ^ 8 ≤ (2 ^ (4 * (13 - i)) - 1) * 2 ^ 8 :=
        Nat.mul_le_mul_right _ (by omega)
      have q1 : (2 ^ 52 - 2 ^ (4 * (13 - i))) * 2 ^ 12
          = 2 ^ 64 - 16 * 2 ^ (4 * (12 - i) + 12) := by
        rw [Nat.sub_mul, p1]; norm_num
      have q2 : 15 * (2 ^ (4 * (12 - i)) * 2 ^ 12) = 15 * 2 ^ (4 * (12 - i) + 12) := by
        rw [p3]
      have q3 : (2 ^ (4 * (13 - i)) - 1) * 2 ^ 8 = 2 ^ (4 * (12 - i) + 12) - 2 ^ 8 := by
        rw [Nat.sub_mul, one_mul, p2]
      have q5 : 16 * 2 ^ (4 * (12 - i) + 12) ≤ 2 ^ 64 := by
        calc 16 * 2 ^ (4 * (12 - i) + 12) ≤ 16 * 2 ^ 60 := Nat.mul_le_mul_left _ hX
          _ ≤ 2 ^ 64 := by norm_num
      clear hA hi hs h1 h2 hea heb hdd e1 hb1 hb2 p1 p2 p3 hX
      omega
    rw [Nat.mod_eq_of_lt hsum]
    have rearr : A / 2 ^ (4 * (13 - i)) * 2 ^ (4 * (13 - i)) * 2 ^ 12
        + sl * 2 ^ (4 * (12 - i)) * 2 ^ 12
        + A % 2 ^ (4 * (13 - i)) * 2 ^ 8
        = A % 2 ^ (4 * (13 - i)) * 2 ^ 8
          + (A / 2 ^ (4 * (13 - i)) * 2 ^ (4 * (13 - i)) + sl * 2 ^ (4 * (12 - i))) * 2 ^ 12 := by
      ring
    rw [rearr, Nat.add_mul_div_right _ _ (by norm_num : (0:Nat) < 2 ^ 12)]
    have hdiv : A % 2 ^ (4 * (13 - i)) * 2 ^ 8 / 2 ^ 12 = A % 2 ^ (4 * (13 - i)) / 16 := by
      rw [show (2 : Nat) ^ 12 = 16 * 2 ^ 8 by norm_num,
        Nat.mul_div_mul_right _ _ (by norm_num : (0:Nat) < 2 ^ 8)]
    rw [hdiv]
    clear hA hi hs h1 h2 hea heb hdd e1 hb1 hb2 hsum rearr hdiv
    omega
  simp only [add]
  rw [key]

/-- Closed form of `state_t::remove`: nibbles `idx+1..` shift one place
towards the most significant end (a zero nibble enters at the bottom)
and `count` is decremented (4-bit wrap). -/
theorem remove_eq (s : state_t) (i : Nat) (hi : i ≤ 12) :
    s.remove i = ((s.withSlotArray
      (s.slotArray / 2 ^ (4 * (13 - i)) * 2 ^ (4 * (13 - i))
        + s.slotArray % 2 ^ (4 * (12 - i)) * 16)).withCount (s.count + 15)).pack := by
  have hA := s.slotArray_lt
  have key : (((((s.slotArray <<< 12) &&& ((2 ^ 64 - 1) ^^^ ((2 ^ 64 - 1) >>> (i * 4))))
        + ((((s.slotArray <<< 12) &&& (((2 ^ 64 - 1) >>> (i * 4)) >>> 4))) <<< 4)) % 2 ^ 64) >>> 12)
      = s.slotArray / 2 ^ (4 * (13 - i)) * 2 ^ (4 * (13 - i))
        + s.slotArray % 2 ^ (4 * (12 - i)) * 16 := by
    set A := s.slotArray with hAdef
    rw [hi_part A i hA hi]
    rw [two_pow_sub_one_sr (show i * 4 ≤ 64 by omega),
      two_pow_sub_one_sr (show 4 ≤ 64 - i * 4 by omega),
      Nat.shiftLeft_eq A, Nat.and_pow_two_sub_one_eq_mod]
    have h1 : 64 - i * 4 - 4 = 4 * (12 - i) + 12 := by omega
    rw [h1, pow_add, Nat.mul_mod_mul_right, Nat.shiftLeft_eq]
    have hsum : A / 2 ^ (4 * (13 - i)) * 2 ^ (4 * (13 - i)) * 2 ^ 12
        + A % 2 ^ (4 * (12 - i)) * 2 ^ 12 * 2 ^ 4
        = (A / 2 ^ (4 * (13 - i)) * 2 ^ (4 * (13 - i))
            + A % 2 ^ (4 * (12 - i)) * 2 ^ 4) * 2 ^ 12 := by
      ring
    rw [hsum]
    have heb : 4 * (13 - i) ≤ 52 := by omega
    have hb1 : A / 2 ^ (4 * (13 - i)) * 2 ^ (4 * (13 - i)) ≤ 2 ^ 52 - 2 ^ (4 * (13 - i)) :=
      hi_bound A _ hA heb
    have hb2 : A % 2 ^ (4 * (12 - i)) * 2 ^ 4 < 2 ^ (4 * (13 - i)) := by
      have h2 : A % 2 ^ (4 * (12 - i)) < 2 ^ (4 * (12 - i)) :=
        Nat.mod_lt _ (Nat.pos_pow_of_pos _ (by norm_num))
      have h3 : A % 2 ^ (4 * (12 - i)) * 2 ^ 4 < 2 ^ (4 * (12 - i)) * 2 ^ 4 :=
        (Nat.mul_lt_mul_right (by norm_num)).mpr h2
      have h4 : (2 : Nat) ^ (4 * (12 - i)) * 2 ^ 4 = 2 ^ (4 * (13 - i)) := by
        rw [← pow_add]; congr 1; omega
      omega
    have hlt : (A / 2 ^ (4 * (13 - i)) * 2 ^ (4 * (13 - i))
        + A % 2 ^ (4 * (12 - i)) * 2 ^ 4) * 2 ^ 12 < 2 ^ 64 := by
      have h5 : A / 2 ^ (4 * (13 - i)) * 2 ^ (4 * (13 - i))
          + A % 2 ^ (4 * (12 - i)) * 2 ^ 4 < 2 ^ 52 := by
        have h6 : (0:Nat) < 2 ^ (4 * (13 - i)) := Nat.pos_pow_of_pos _ (by norm_num)
        have hfle : (2:Nat) ^ (4 * (13 - i)) ≤ 2 ^ 52 :=
          Nat.pow_le_pow_right (by norm_num) heb
        omega
      calc (A / 2 ^ (4 * (13 - i)) * 2 ^ (4 * (13 - i))
            + A % 2 ^ (4 * (12 - i)) * 2 ^ 4) * 2 ^ 12
          ≤ (2 ^ 52 - 1) * 2 ^ 12 := Nat.mul_le_mul_right _ (by omega)
        _ < 2 ^ 64 := by norm_num
    rw [Nat.mod_eq_of_lt hlt, Nat.shiftRight_eq_div_pow,
      Nat.mul_div_cancel _ (by norm_num : (0:Nat) < 2 ^ 12)]
    norm_num
  simp only [remove]
  rw [key]

/-- The spliced-in slot array stays below `2^52`. -/
theorem add_sa_lt (A i sl : Nat) (hA : A < 2 ^ 52) (hi : i ≤ 12) (hs : sl < 16) :
    A / 2 ^ (4 * (13 - i)) * 2 ^ (4 * (13 - i)) + sl * 2 ^ (4 * (12 - i))
      + A % 2 ^ (4 * (13 - i)) / 16 < 2 ^ 52 := by
  have heb : 4 * (13 - i) ≤ 52 := by omega
  have hb1 := hi_bound A _ hA heb
  have hdd : (2 : Nat) ^ (4 * (12 - i)) * 16 = 2 ^ (4 * (13 - i)) := by
    rw [show (16 : Nat) = 2 ^ 4 by norm_num, ← pow_add]; congr 1; omega
  have hb2 : A % 2 ^ (4 * (13 - i)) / 16 < 2 ^ (4 * (12 - i)) := by
    apply Nat.div_lt_of_lt_mul
    have h2 : A % 2 ^ (4 * (13 - i)) < 2 ^ (4 * (13 - i)) :=
      Nat.mod_lt _ (Nat.pos_pow_of_pos _ (by norm_num))
    rw [mul_comm (16 : Nat) ((2:Nat) ^ (4 * (12 - i))), hdd]; exact h2
  have hb3 : sl * 2 ^ (4 * (12 - i)) ≤ 15 * 2 ^ (4 * (12 - i)) :=
    Nat.mul_le_mul_right _ (by omega)
  have h6 : (0:Nat) < 2 ^ (4 * (12 - i)) := Nat.pos_pow_of_pos _ (by norm_num)
  have hfle : (2:Nat) ^ (4 * (13 - i)) ≤ 2 ^ 52 :=
    Nat.pow_le_pow_right (by norm_num) heb
  omega

/-- The shifted-up slot array stays below `2^52`. -/
theorem remove_sa_lt (A i : Nat) (hA : A < 2 ^ 52) (hi : i ≤ 12) :
    A / 2 ^ (4 * (13 - i)) * 2 ^ (4 * (13 - i))
      + A % 2 ^ (4 * (12 - i)) * 16 < 2 ^ 52 := by
  have heb : 4 * (13 - i) ≤ 52 := by omega
  have hb1 := hi_bound A _ hA heb
  have hdd : (2 : Nat) ^ (4 * (12 - i)) * 16 = 2 ^ (4 * (13 - i)) := by
    rw [show (16 : Nat) = 2 ^ 4 by norm_num, ← pow_add]; congr 1; omega
  have hb2 : A % 2 ^ (4 * (12 - i)) * 16 < 2 ^ (4 * (13 - i)) := by
    have h2 : A % 2 ^ (4 * (12 - i)) < 2 ^ (4 * (12 - i)) :=
      Nat.mod_lt _ (Nat.pos_pow_of_pos _ (by norm_num))
    have h3 : A % 2 ^ (4 * (12 - i)) * 16 < 2 ^ (4 * (12 - i)) * 16 :=
      (Nat.mul_lt_mul_right (by norm_num)).mpr h2
    omega
  have hfle : (2:Nat) ^ (4 * (13 - i)) ≤ 2 ^ 52 :=
    Nat.pow_le_pow_right (by norm_num) heb
  omega

/-- Core of claim C9: splicing a nibble in at position `i` and removing
position `i` again returns the slot array except that its least
significant (13th, logically unused) nibble has been zeroed. -/
theorem roundtrip_core (A i sl : Nat) (hA : A < 2 ^ 52) (hi : i ≤ 12) (hs : sl < 16) :
    (A / 2 ^ (4 * (13 - i)) * 2 ^ (4 * (13 - i)) + sl * 2 ^ (4 * (12 - i))
        + A % 2 ^ (4 * (13 - i)) / 16) / 2 ^ (4 * (13 - i)) * 2 ^ (4 * (13 - i))
      + (A / 2 ^ (4 * (13 - i)) * 2 ^ (4 * (13 - i)) + sl * 2 ^ (4 * (12 - i))
        + A % 2 ^ (4 * (13 - i)) / 16) % 2 ^ (4 * (12 - i)) * 16
      = A - A % 16 := by
  have hdd : (2 : Nat) ^ (4 * (12 - i)) * 16 = 2 ^ (4 * (13 - i)) := by
    rw [show (16 : Nat) = 2 ^ 4 by norm_num, ← pow_add]; congr 1; omega
  have hcpos : (0:Nat) < 2 ^ (4 * (13 - i)) := Nat.pos_pow_of_pos _ (by norm_num)
  have hdpos : (0:Nat) < 2 ^ (4 * (12 - i)) := Nat.pos_pow_of_pos _ (by norm_num)
  have hmc : A % 2 ^ (4 * (13 - i)) < 2 ^ (4 * (13 - i)) := Nat.mod_lt _ hcpos
  have hr16 : A % 2 ^ (4 * (13 - i)) / 16 < 2 ^ (4 * (12 - i)) := by
    apply Nat.div_lt_of_lt_mul
    rw [mul_comm (16 : Nat) ((2:Nat) ^ (4 * (12 - i))), hdd]; exact hmc
  have hsl : sl * 2 ^ (4 * (12 - i)) ≤ 15 * 2 ^ (4 * (12 - i)) :=
    Nat.mul_le_mul_right _ (by omega)
  have hB : sl * 2 ^ (4 * (12 - i)) + A % 2 ^ (4 * (13 - i)) / 16 < 2 ^ (4 * (13 - i)) := by
    have : 15 * 2 ^ (4 * (12 - i)) + 2 ^ (4 * (12 - i)) = 2 ^ (4 * (13 - i)) := by
      rw [← hdd]; ring
    omega
  have hre : A / 2 ^ (4 * (13 - i)) * 2 ^ (4 * (13 - i)) + sl * 2 ^ (4 * (12 - i))
      + A % 2 ^ (4 * (13 - i)) / 16
      = (sl * 2 ^ (4 * (12 - i)) + A % 2 ^ (4 * (13 - i)) / 16)
        + A / 2 ^ (4 * (13 - i)) * 2 ^ (4 * (13 - i)) := by omega
  rw [hre]
  rw [Nat.add_mul_div_right _ _ hcpos, Nat.div_eq_of_lt hB, Nat.zero_add]
  have hmod : (sl * 2 ^ (4 * (12 - i)) + A % 2 ^ (4 * (13 - i)) / 16
      + A / 2 ^ (4 * (13 - i)) * 2 ^ (4 * (13 - i))) % 2 ^ (4 * (12 - i))
      = A % 2 ^ (4 * (13 - i)) / 16 % 2 ^ (4 * (12 - i)) := by
    have step1 : (sl * 2 ^ (4 * (12 - i)) + A % 2 ^ (4 * (13 - i)) / 16
        + A / 2 ^ (4 * (13 - i)) * 2 ^ (4 * (13 - i)))
        = A % 2 ^ (4 * (13 - i)) / 16
          + (sl + A / 2 ^ (4 * (13 - i)) * 16) * 2 ^ (4 * (12 - i)) := by
      have h9 : A / 2 ^ (4 * (13 - i)) * 2 ^ (4 * (13 - i))
          = A / 2 ^ (4 * (13 - i)) * 16 * 2 ^ (4 * (12 - i)) := by
        rw [← hdd]; ring
      rw [h9]; ring
    rw [step1, Nat.add_mul_mod_self_right]
  rw [hmod, Nat.mod_eq_of_lt hr16]
  have hfin : A % 2 ^ (4 * (13 - i)) / 16 * 16 = A % 2 ^ (4 * (13 - i)) - A % 16 := by
    have h10 : A % 2 ^ (4 * (13 - i)) % 16 = A % 16 :=
      Nat.mod_mod_of_dvd A ⟨2 ^ (4 * (12 - i)), by rw [← hdd]; ring⟩
    omega
  have h11 : A / 2 ^ (4 * (13 - i)) * 2 ^ (4 * (13 - i)) + A % 2 ^ (4 * (13 - i)) = A := by
    rw [Nat.mul_comm (A / 2 ^ (4 * (13 - i))) (2 ^ (4 * (13 - i)))]
    exact Nat.div_add_mod A _
  have h12 : A % 16 ≤ A % 2 ^ (4 * (13 - i)) := by
    have h10 : A % 2 ^ (4 * (13 - i)) % 16 = A % 16 :=
      Nat.mod_mod_of_dvd A ⟨2 ^ (4 * (12 - i)), by rw [← hdd]; ring⟩
    omega
  clear hA hi hs hdd hcpos hdpos hmc hr16 hsl hB hre
  omega

/-- **C9.**  For every state word with `count < 13`, every logical
position `idx ≤ count` and every 4-bit slot id, `remove(idx)` applied
to `add(idx, s)` restores `count` and every logical slot `read(j)`,
`j < count`. -/
theorem C9_add_remove_roundtrip (s : state_t) (idx sl : Nat)
    (hcnt : s.count < 13) (hidx : idx ≤ s.count) (hsl : sl < 16) :
    state_t.count ⟨state_t.remove ⟨s.add idx sl⟩ idx⟩ = s.count ∧
    ∀ j < s.count, state_t.read ⟨state_t.remove ⟨s.add idx sl⟩ idx⟩ j = s.read j := by
  have hA := s.slotArray_lt
  have hi12 : idx ≤ 12 := by omega
  have hs1 : (⟨s.add idx sl⟩ : state_t)
      = (s.withSlotArray
          (s.slotArray / 2 ^ (4 * (13 - idx)) * 2 ^ (4 * (13 - idx))
            + sl * 2 ^ (4 * (12 - idx))
            + s.slotArray % 2 ^ (4 * (13 - idx)) / 16)).withCount (s.count + 1) := by
    rw [add_eq s idx sl hi12 hsl]
  have ha1lt := add_sa_lt s.slotArray idx sl hA hi12 hsl
  have hs1sa : (⟨s.add idx sl⟩ : state_t).slotArray
      = s.slotArray / 2 ^ (4 * (13 - idx)) * 2 ^ (4 * (13 - idx))
        + sl * 2 ^ (4 * (12 - idx)) + s.slotArray % 2 ^ (4 * (13 - idx)) / 16 := by
    rw [hs1, slotArray_withCount, slotArray_withSlotArray, Nat.mod_eq_of_lt ha1lt]
  have hs1c : (⟨s.add idx sl⟩ : state_t).count = s.count + 1 := by
    rw [hs1, count_withCount, Nat.mod_eq_of_lt (by omega)]
  have hs2 : (⟨state_t.remove ⟨s.add idx sl⟩ idx⟩ : state_t)
      = ((⟨s.add idx sl⟩ : state_t).withSlotArray
          ((⟨s.add idx sl⟩ : state_t).slotArray / 2 ^ (4 * (13 - idx)) * 2 ^ (4 * (13 - idx))
            + (⟨s.add idx sl⟩ : state_t).slotArray % 2 ^ (4 * (12 - idx)) * 16)).withCount
          ((⟨s.add idx sl⟩ : state_t).count + 15) := by
    rw [remove_eq _ idx hi12]
  have ha2 := roundtrip_core s.slotArray idx sl hA hi12 hsl
  have ha2lt : s.slotArray - s.slotArray % 16 < 2 ^ 52 := by omega
  have hs2sa : (⟨state_t.remove ⟨s.add idx sl⟩ idx⟩ : state_t).slotArray
      = s.slotArray - s.slotArray % 16 := by
    rw [hs2, slotArray_withCount, slotArray_withSlotArray, hs1sa, ha2,
      Nat.mod_eq_of_lt ha2lt]
  constructor
  · rw [hs2, count_withCount, hs1c]
    have hcc := s.count_lt
    omega
  · intro j hj
    have hj12 : j ≤ 12 := by omega
    rw [read_eq _ j hj12, read_eq s j hj12, hs2sa]
    have hsplit : s.slotArray - s.slotArray % 16 = s.slotArray / 16 * 16 := by omega
    rw [hsplit]
    have hj11 : 4 * (12 - j) = 4 * (11 - j) + 4 := by omega
    rw [hj11, pow_add]
    rw [show (2:Nat) ^ 4 = 16 by norm_num]
    rw [Nat.mul_div_mul_right _ _ (by norm_num : (0:Nat) < 16)]
    rw [Nat.div_div_eq_div_mul, mul_comm (16:Nat), ← Nat.div_div_eq_div_mul]

/-- **C9 witness.**  The theorem at the concrete 5-slot state `st5`,
inserting slot id `9` at position `2` and removing position `2`. -/
theorem C9_add_remove_roundtrip_witness :
    state_t.count ⟨state_t.remove ⟨st5.add 2 9⟩ 2⟩ = st5.count ∧
    ∀ j < st5.count, state_t.read ⟨state_t.remove ⟨st5.add 2 9⟩ 2⟩ j = st5.read j :=
  C9_add_remove_roundtrip st5 2 9 (by decide) (by decide) (by decide)

end state_t

/-! ### The split step (claims C3 and C4) -/

theorem state_t.eta (x : state_t) : (⟨x.pack⟩ : state_t) = x := rfl

theorem foldl_appendRec_recs (n0 : Node) (f : Nat → Record) (j t : Nat) (ht : t < j) :
    ((List.range j).foldl (fun sn t => sn.appendRec (f t) t t) n0).recs_ t = f t := by
  induction j with
  | zero => omega
  | succ j ih =>
      rw [List.range_succ, List.foldl_append, List.foldl_cons, List.foldl_nil]
      by_cases h : t = j
      · subst h; simp [Node.appendRec, upd]
      · have ht' : t < j := by omega
        simp only [Node.appendRec, upd]
        rw [if_neg h]
        exact ih ht'

theorem foldl_appendRec_state (n0 : Node) (f : Nat → Record) (j : Nat) :
    ((List.range j).foldl (fun sn t => sn.appendRec (f t) t t) n0).state_
      = (List.range j).foldl (fun st t => (⟨state_t.append st t t⟩ : state_t)) n0.state_ := by
  induction j with
  | zero => rfl
  | succ j ih =>
      rw [List.range_succ]
      simp only [List.foldl_append, List.foldl_cons, List.foldl_nil]
      have h2 : ∀ (m : Node) (r : Record) (a b : Nat),
          (m.appendRec r a b).state_ = ⟨m.state_.append b a⟩ := fun _ _ _ _ => rfl
      rw [h2, ih]

theorem foldl_appendRec_leftmost (n0 : Node) (f : Nat → Record) (j : Nat) :
    ((List.range j).foldl (fun sn t => sn.appendRec (f t) t t) n0).leftmost_ptr_
      = n0.leftmost_ptr_ := by
  induction j with
  | zero => rfl
  | succ j ih =>
      rw [List.range_succ, List.foldl_append, List.foldl_cons, List.foldl_nil]
      simpa [Node.appendRec] using ih

/-- **C3 (amended).**  Splitting a full node (`count = 13`):
`m = 6` and `split_key = recs_[read(6)].key`; the new node is installed
at the next heap address; if the node is a leaf the records at logical
positions `6..12` (i.e. **7** records) move to the new node's physical
slots `0..6` (logical = physical) and the new node's count is **7**,
the original's published count being `13 − 7 = 6`; if the node is
internal, position 6's value becomes the new node's `leftmost_ptr_`,
the records at logical positions `7..12` (i.e. **6** records) move
over, the new node's count is 6 and the original's published count is
`13 − 7 = 6`.  In both cases the original's shadow sibling slot holds
`{split_key, new_node}` and its published `sibling_version` is
toggled. -/
theorem C3_split_shape (H : Heap) (p : Nat) (n : Node)
    (hp : hget H p = some n) (hc : n.state_.count = 13) :
    (splitStep H p n).1.2.1 = (n.recs_ (n.state_.read 6)).key ∧
    (splitStep H p n).1.2.2 = H.length + 1 ∧
    ∃ sn n',
      hget (splitStep H p n).1.1 (H.length + 1) = some sn ∧
      hget (splitStep H p n).1.1 p = some n' ∧
      n'.state_.count = 6 ∧
      n'.state_.sibling_version = (n.state_.sibling_version + 1) % 2 ∧
      n'.siblings_ ((n.state_.sibling_version + 1) % 2)
        = ⟨(n.recs_ (n.state_.read 6)).key, H.length + 1⟩ ∧
      (n.leftmost_ptr_ = 0 →
        sn.state_.count = 7 ∧ sn.leftmost_ptr_ = 0 ∧
        ∀ t < 7, sn.recs_ t = n.recs_ (n.state_.read (6 + t)) ∧ sn.state_.read t = t) ∧
      (n.leftmost_ptr_ ≠ 0 →
        sn.state_.count = 6 ∧ sn.leftmost_ptr_ = (n.recs_ (n.state_.read 6)).val ∧
        ∀ t < 6, sn.recs_ t = n.recs_ (n.state_.read (7 + t)) ∧ sn.state_.read t = t) := by
  obtain ⟨hp0, hplt⟩ := hget_bounds hp
  refine ⟨?_, ?_, ?_⟩
  · simp only [splitStep]
    rw [hc]
  · simp only [splitStep]
  refine ⟨_, _, hget_hset_append_fresh H p _ _ hp0 hplt,
          hget_hset_append_self H p _ _ hp0 hplt, ?_, ?_, ?_, ?_, ?_⟩
  · by_cases hL : n.leftmost_ptr_ = 0 <;>
      simp [hL, hc, state_t.eta, state_t.count_withSibVersion, state_t.count_withCount]
  · simp only [state_t.eta, state_t.sibver_withSibVersion]
    omega
  · simp [upd, hc]
  · intro h
    refine ⟨?_, ?_, ?_⟩
    · simp [h, hc, state_t.eta, state_t.count_withSibVersion, state_t.count_withCount]
    · simp only [h, hc, if_true, eq_self_iff_true]
      norm_num
      rw [foldl_appendRec_leftmost]
      rfl
    · intro t ht
      constructor
      · simp only [h, hc, if_true, eq_self_iff_true]
        norm_num
        rw [foldl_appendRec_recs _ _ 7 t ht]
      · simp only [h, hc, if_true, eq_self_iff_true]
        norm_num
        rw [foldl_appendRec_state]
        interval_cases t <;> decide
  · intro h
    refine ⟨?_, ?_, ?_⟩
    · simp [h, hc, state_t.eta, state_t.count_withSibVersion, state_t.count_withCount]
    · simp only [h, hc, if_false, eq_self_iff_true]
      norm_num
      rw [foldl_appendRec_leftmost]
    · intro t ht
      constructor
      · simp only [h, hc, if_false, eq_self_iff_true]
        norm_num
        rw [foldl_appendRec_recs _ _ 6 t ht]
      · simp only [h, hc, if_false, eq_self_iff_true]
        norm_num
        rw [foldl_appendRec_state]
        dsimp only
        interval_cases t <;> decide

/-- **C3 witness.**  The amended split-shape theorem applied to the
one-node heap holding the concrete full leaf. -/
theorem C3_split_shape_witness :
    (splitStep [fullLeaf] 1 fullLeaf).1.2.1
        = (fullLeaf.recs_ (fullLeaf.state_.read 6)).key ∧
    (splitStep [fullLeaf] 1 fullLeaf).1.2.2 = 2 ∧
    ∃ sn n',
      hget (splitStep [fullLeaf] 1 fullLeaf).1.1 2 = some sn ∧
      hget (splitStep [fullLeaf] 1 fullLeaf).1.1 1 = some n' ∧
      n'.state_.count = 6 ∧
      n'.state_.sibling_version = (fullLeaf.state_.sibling_version + 1) % 2 ∧
      n'.siblings_ ((fullLeaf.state_.sibling_version + 1) % 2)
        = ⟨(fullLeaf.recs_ (fullLeaf.state_.read 6)).key, 2⟩ ∧
      (fullLeaf.leftmost_ptr_ = 0 →
        sn.state_.count = 7 ∧ sn.leftmost_ptr_ = 0 ∧
        ∀ t < 7, sn.recs_ t = fullLeaf.recs_ (fullLeaf.state_.read (6 + t))
          ∧ sn.state_.read t = t) ∧
      (fullLeaf.leftmost_ptr_ ≠ 0 →
        sn.state_.count = 6 ∧ sn.leftmost_ptr_ = (fullLeaf.recs_ (fullLeaf.state_.read 6)).val ∧
        ∀ t < 6, sn.recs_ t = fullLeaf.recs_ (fullLeaf.state_.read (7 + t))
          ∧ sn.state_.read t = t) :=
  C3_split_shape [fullLeaf] 1 fullLeaf rfl (by decide)

/-- **C4 (amended).**  Persistence order on the split path
(`wotree256.h:186-204`): every PM event before the shadow-sibling write
touches only the new node at the next heap address — and the new node's
write-back `clwb` is among them; then the current node's shadow sibling
slot `siblings_[1 − sibling_version]` is written **without a separate
flush of that slot**; then a fence is issued; then the new state word is
published by the `persist_assign` triple on the state location.  In
particular no write-back covering the shadow slot occurs before the
fence. -/
theorem C4_split_persist_order (H : Heap) (p : Nat) (n : Node)
    (hp : hget H p = some n) (hc : n.state_.count = 13) :
    ∃ A, (splitStep H p n).2
        = A ++ [PMEvent.write (sibAddr p ((n.state_.sibling_version + 1) % 2)) 16,
                PMEvent.mfence] ++ persistAssignEv (nodeBase p) ∧
      (∀ e ∈ A, inNode (H.length + 1) e) ∧
      PMEvent.clwb (nodeBase (H.length + 1)) 64 ∈ A ∧
      (∀ e ∈ A, coversFlush e (sibAddr p ((n.state_.sibling_version + 1) % 2)) = false) := by
  have hp1 : p ≤ H.length := by
    obtain ⟨hp0, hplt⟩ := hget_bounds hp
    omega
  by_cases hL : n.leftmost_ptr_ = 0
  · refine ⟨[PMEvent.write (nodeBase (H.length + 1)) 48,
        PMEvent.write (recAddr (H.length + 1) 0) 16, PMEvent.write (nodeBase (H.length + 1)) 8,
        PMEvent.write (recAddr (H.length + 1) 1) 16, PMEvent.write (nodeBase (H.length + 1)) 8,
        PMEvent.write (recAddr (H.length + 1) 2) 16, PMEvent.write (nodeBase (H.length + 1)) 8,
        PMEvent.write (recAddr (H.length + 1) 3) 16, PMEvent.write (nodeBase (H.length + 1)) 8,
        PMEvent.write (recAddr (H.length + 1) 4) 16, PMEvent.write (nodeBase (H.length + 1)) 8,
        PMEvent.write (recAddr (H.length + 1) 5) 16, PMEvent.write (nodeBase (H.length + 1)) 8,
        PMEvent.write (recAddr (H.length + 1) 6) 16, PMEvent.write (nodeBase (H.length + 1)) 8,
        PMEvent.write (nodeBase (H.length + 1)) 8, PMEvent.write (nodeBase (H.length + 1)) 8,
        PMEvent.write (sibAddr (H.length + 1) 0) 16,
        PMEvent.clwb (nodeBase (H.length + 1)) 64,
        PMEvent.clwb (recAddr (H.length + 1) 1) 96], ?_, ?_, ?_, ?_⟩
    · simp only [splitStep, hc, hL]
      norm_num [List.range_succ, persistAssignEv]
    · intro e he
      fin_cases he <;> simp [inNode, nodeBase, recAddr, sibAddr] <;> omega
    · simp
    · intro e he
      fin_cases he <;> simp [coversFlush, sibAddr, nodeBase, recAddr] <;> omega
  · refine ⟨[PMEvent.write (nodeBase (H.length + 1)) 48,
        PMEvent.write (nodeBase (H.length + 1) + 8) 8,
        PMEvent.write (recAddr (H.length + 1) 0) 16, PMEvent.write (nodeBase (H.length + 1)) 8,
        PMEvent.write (recAddr (H.length + 1) 1) 16, PMEvent.write (nodeBase (H.length + 1)) 8,
        PMEvent.write (recAddr (H.length + 1) 2) 16, PMEvent.write (nodeBase (H.length + 1)) 8,
        PMEvent.write (recAddr (H.length + 1) 3) 16, PMEvent.write (nodeBase (H.length + 1)) 8,
        PMEvent.write (recAddr (H.length + 1) 4) 16, PMEvent.write (nodeBase (H.length + 1)) 8,
        PMEvent.write (recAddr (H.length + 1) 5) 16, PMEvent.write (nodeBase (H.length + 1)) 8,
        PMEvent.write (nodeBase (H.length + 1)) 8, PMEvent.write (nodeBase (H.length + 1)) 8,
        PMEvent.write (sibAddr (H.length + 1) 0) 16,
        PMEvent.clwb (nodeBase (H.length + 1)) 64,
        PMEvent.clwb (recAddr (H.length + 1) 1) 80], ?_, ?_, ?_, ?_⟩
    · simp only [splitStep, hc, hL]
      norm_num [List.range_succ, persistAssignEv]
    · intro e he
      fin_cases he <;> simp [inNode, nodeBase, recAddr, sibAddr] <;> omega
    · simp
    · intro e he
      fin_cases he <;> simp [coversFlush, sibAddr, nodeBase, recAddr] <;> omega

/-- **C4 witness.**  The amended persistence-order theorem applied to
the one-node heap holding the concrete full leaf. -/
theorem C4_split_persist_order_witness :
    ∃ A, (splitStep [fullLeaf] 1 fullLeaf).2
        = A ++ [PMEvent.write (sibAddr 1 ((fullLeaf.state_.sibling_version + 1) % 2)) 16,
                PMEvent.mfence] ++ persistAssignEv (nodeBase 1) ∧
      (∀ e ∈ A, inNode 2 e) ∧
      PMEvent.clwb (nodeBase 2) 64 ∈ A ∧
      (∀ e ∈ A, coversFlush e (sibAddr 1 ((fullLeaf.state_.sibling_version + 1) % 2)) = false) :=
  C4_split_persist_order [fullLeaf] 1 fullLeaf rfl (by decide)

/-! ### Leaf-scan lemmas (for `Node::update`) -/

theorem scan_key_of_mem (n : Node) (k : Nat)
    (hs : List.Sorted (· ≤ ·) (liveKeys n))
    (hk : k ∈ liveKeys n) :
    (n.recs_ (leafScanSlot n k)).key = k := by
  have hmono : ∀ a b : Nat, a < b → b < n.state_.count →
      (n.recs_ (n.state_.read a)).key ≤ (n.recs_ (n.state_.read b)).key := by
    intro a b hab hb
    have h1 : List.Pairwise
        (fun a b => (n.recs_ (n.state_.read a)).key ≤ (n.recs_ (n.state_.read b)).key)
        (List.range n.state_.count) := by
      have h2 : List.Pairwise (· ≤ ·)
          (List.map (fun i => (n.recs_ (n.state_.read i)).key)
            (List.range n.state_.count)) := hs
      rw [List.pairwise_map] at h2
      exact h2
    rw [List.pairwise_iff_getElem] at h1
    have h3 := h1 a b (by simpa using lt_trans hab hb) (by simpa using hb) hab
    simpa using h3
  obtain ⟨j, hj, hfj⟩ : ∃ j, j < n.state_.count ∧ (n.recs_ (n.state_.read j)).key = k := by
    simpa [liveKeys, List.mem_map, List.mem_range] using hk
  cases hfind : (List.range n.state_.count).find?
      (fun i => k ≤ (n.recs_ (n.state_.read i)).key) with
  | none =>
      exfalso
      rw [List.find?_eq_none] at hfind
      have h := hfind j (List.mem_range.mpr hj)
      simp [hfj] at h
  | some i =>
      have hls : leafScanSlot n k = n.state_.read i := by
        simp [leafScanSlot, hfind]
      rw [hls]
      have hpi : k ≤ (n.recs_ (n.state_.read i)).key := by
        simpa using List.find?_some hfind
      obtain ⟨-, as, bs, hsplit, hmin⟩ := List.find?_eq_some.mp hfind
      rcases Nat.lt_or_ge k (n.recs_ (n.state_.read i)).key with hlt | hge
      · exfalso
        have hjmem : j ∈ as ++ i :: bs := by
          rw [← hsplit]; exact List.mem_range.mpr hj
        rcases List.mem_append.mp hjmem with hja | hjc
        · have h := hmin j hja
          simp [hfj] at h
        · rcases List.mem_cons.mp hjc with hji | hjb
          · subst hji
            omega
          · have hpair : List.Pairwise (· < ·) (as ++ i :: bs) := by
              rw [← hsplit]; exact List.pairwise_lt_range n.state_.count
            have hij : i < j := by
              have h4 := (List.pairwise_append.mp hpair).2.1
              exact (List.pairwise_cons.mp h4).1 j hjb
            have h5 := hmono i j hij hj
            omega
      · omega

theorem scan_key_of_not_mem (n : Node) (k : Nat)
    (hc : 0 < n.state_.count) (hk : ¬ k ∈ liveKeys n) :
    ¬ (n.recs_ (leafScanSlot n k)).key = k := by
  intro hkey
  apply hk
  rw [liveKeys, List.mem_map]
  cases hfind : (List.range n.state_.count).find?
      (fun i => k ≤ (n.recs_ (n.state_.read i)).key) with
  | none =>
      have hls : leafScanSlot n k = n.state_.read (n.state_.count - 1) := by
        simp [leafScanSlot, hfind, Nat.pos_iff_ne_zero.mp hc]
      refine ⟨n.state_.count - 1, List.mem_range.mpr (by omega), ?_⟩
      rw [← hls]; exact hkey
  | some i =>
      have hls : leafScanSlot n k = n.state_.read i := by
        simp [leafScanSlot, hfind]
      exact ⟨i, List.mem_of_find?_eq_some hfind, by rw [← hls]; exact hkey⟩

/-- **C7 (amended).**  The driver `update(rootPtr, k, v)` returns `true`
unconditionally: the node-level found/not-found boolean is assigned to
the dead local `val` and discarded.  The node-level `Node::update`
itself does report not-found: on a leaf with at least one live record
and sorted live keys, it overwrites the scanned slot and returns `true`
exactly when `k` is among the live keys, and leaves the heap unchanged
and returns `false` when it is not. -/
theorem C7_update_found_flag (H : Heap) (root k v fuel : Nat) :
    (∀ H' b, update H root k v fuel = some (H', b) → b = true) ∧
    (∀ p n, hget H p = some n → 0 < n.state_.count →
      List.Sorted (· ≤ ·) (liveKeys n) →
      ((k ∈ liveKeys n →
          node_update H p k v
            = some (hset H p
                { n with recs_ := upd n.recs_ (leafScanSlot n k) ⟨k, v⟩ }, true)) ∧
        (¬ k ∈ liveKeys n → node_update H p k v = some (H, false)))) := by
  constructor
  · intro H' b h
    simp only [update, Option.bind_eq_bind, Option.bind_eq_some] at h
    obtain ⟨leafp, hf, h⟩ := h
    obtain ⟨⟨H2, b2⟩, hu, h⟩ := h
    simp only [Option.pure_def, Option.some.injEq, Prod.mk.injEq] at h
    exact h.2.symm
  · intro p n hp hc hs
    constructor
    · intro hk
      have hkey := scan_key_of_mem n k hs hk
      simp only [node_update, hp, Option.bind_eq_bind, Option.some_bind]
      rw [if_pos hkey]
      rfl
    · intro hk
      have hkey := scan_key_of_not_mem n k hc hk
      simp only [node_update, hp, Option.bind_eq_bind, Option.some_bind]
      rw [if_neg hkey]
      rfl

/-- **C7 witness.**  The amended theorem applied to the one-node heap
holding the two-record leaf `c7leaf` (keys `3`, `5`): the driver result
on present key `5`, the node-level overwrite on `5`, and the node-level
refusal on absent key `4`. -/
theorem C7_update_found_flag_witness :
    (true = true) ∧
    node_update [c7leaf] 1 5 42
      = some (hset [c7leaf] 1
          { c7leaf with recs_ := upd c7leaf.recs_ (leafScanSlot c7leaf 5) ⟨5, 42⟩ }, true) ∧
    node_update [c7leaf] 1 4 42 = some ([c7leaf], false) :=
  ⟨(C7_update_found_flag [c7leaf] 1 5 42 3).1
      (hset [c7leaf] 1
        { c7leaf with recs_ := upd c7leaf.recs_ (leafScanSlot c7leaf 5) ⟨5, 42⟩ }) true rfl,
   ((C7_update_found_flag [c7leaf] 1 5 42 3).2 1 c7leaf rfl (by decide)
      (by decide)).1 (by decide),
   ((C7_update_found_flag [c7leaf] 1 4 42 3).2 1 c7leaf rfl (by decide)
      (by decide)).2 (by decide)⟩

end wotree256

namespace fixtree

/-! ### The `try_remove` leaf scan (claim C5) -/

theorem tryRemoveScan_inv (t : Fixtree) (L : Int) (k : Nat) :
    ∀ j : Nat,
    ∃ m w c, (List.range j).foldl
        (fun (acc : Nat × Nat × Nat) (i0 : Nat) =>
          let i : Nat := i0 + 1
          let ki := t.leafK (16 * L + (i : Int))
          if ki ≠ MAX_KEY then
            if ki ≤ k ∧ acc.1 < ki then (ki, i, acc.2.2 + 1)
            else (acc.1, acc.2.1, acc.2.2 + 1)
          else acc)
        (t.leafK (16 * L), 0, 1) = (m, w, c) ∧
      m = t.leafK (16 * L + (w : Int)) ∧ w ≤ j ∧
      (w = 0 ∨ (1 ≤ w ∧ t.leafK (16 * L + (w : Int)) ≠ MAX_KEY ∧
        t.leafK (16 * L + (w : Int)) ≤ k ∧
        t.leafK (16 * L) < t.leafK (16 * L + (w : Int)))) ∧
      (∀ i : Nat, 1 ≤ i → i ≤ j → t.leafK (16 * L + (i : Int)) ≠ MAX_KEY →
        t.leafK (16 * L + (i : Int)) ≤ k →
        t.leafK (16 * L + (i : Int)) ≤ max (t.leafK (16 * L)) m) ∧
      c = 1 + ((List.range j).filter
        (fun (i0 : Nat) => t.leafK (16 * L + ((i0 + 1 : Nat) : Int)) ≠ MAX_KEY)).length := by
  intro j
  induction j with
  | zero =>
      refine ⟨t.leafK (16 * L), 0, 1, rfl, by norm_num, le_refl 0, Or.inl rfl, ?_, rfl⟩
      intro i hi1 hi0
      omega
  | succ j ih =>
      obtain ⟨m, w, c, hfold, hmw, hwj, hw, hmax, hc⟩ := ih
      rw [List.range_succ, List.foldl_append, List.foldl_cons, List.foldl_nil, hfold]
      have hK0m : t.leafK (16 * L) ≤ m := by
        rcases hw with h0 | hpos
        · subst h0
          rw [hmw]
          norm_num
        · rw [hmw]
          exact le_of_lt hpos.2.2.2
      by_cases hMK : t.leafK (16 * L + ((j + 1 : Nat) : Int)) ≠ MAX_KEY
      · by_cases hup : t.leafK (16 * L + ((j + 1 : Nat) : Int)) ≤ k ∧
            m < t.leafK (16 * L + ((j + 1 : Nat) : Int))
        · refine ⟨t.leafK (16 * L + ((j + 1 : Nat) : Int)), j + 1, c + 1,
            by simp only [ne_eq, hMK, hup, not_false_eq_true, and_self, if_true, ite_true],
            rfl, le_refl _, ?_, ?_, ?_⟩
          · exact Or.inr ⟨by omega, hMK, hup.1, lt_of_le_of_lt hK0m hup.2⟩
          · intro i hi1 hij hlive hle
            rcases Nat.lt_or_ge i (j + 1) with hlt | hge
            · have h1 := hmax i hi1 (by omega) hlive hle
              have h2 : max (t.leafK (16 * L)) m
                  ≤ max (t.leafK (16 * L)) (t.leafK (16 * L + ((j + 1 : Nat) : Int))) :=
                max_le_max (le_refl _) (le_of_lt hup.2)
              exact le_trans h1 h2
            · have hieq : i = j + 1 := by omega
              subst hieq
              exact le_max_right _ _
          · rw [List.filter_append, List.length_append, hc]
            simp only [List.filter_cons, List.filter_nil, decide_eq_true_eq, ne_eq, hMK,
              not_false_eq_true, if_true, ite_true, List.length_cons, List.length_nil]
            omega
        · refine ⟨m, w, c + 1,
            by simp only [ne_eq, hMK, hup, not_false_eq_true, if_true, ite_true, if_false,
              ite_false], hmw, by omega, hw, ?_, ?_⟩
          · intro i hi1 hij hlive hle
            rcases Nat.lt_or_ge i (j + 1) with hlt | hge
            · exact hmax i hi1 (by omega) hlive hle
            · have hieq : i = j + 1 := by omega
              subst hieq
              have h1 : ¬ m < t.leafK (16 * L + ((j + 1 : Nat) : Int)) := fun h2 => hup ⟨hle, h2⟩
              exact le_trans (not_lt.mp h1) (le_max_right _ _)
          · rw [List.filter_append, List.length_append, hc]
            simp only [List.filter_cons, List.filter_nil, decide_eq_true_eq, ne_eq, hMK,
              not_false_eq_true, if_true, ite_true, List.length_cons, List.length_nil]
            omega
      · have hEQ : t.leafK (16 * L + ((j + 1 : Nat) : Int)) = MAX_KEY :=
          not_not.mp (by simpa [ne_eq] using hMK)
        refine ⟨m, w, c,
            by simp only [ne_eq, hEQ, eq_self_iff_true, not_true, if_false, ite_false],
            hmw, by omega, hw, ?_, ?_⟩
        · intro i hi1 hij hlive hle
          rcases Nat.lt_or_ge i (j + 1) with hlt | hge
          · exact hmax i hi1 (by omega) hlive hle
          · have hieq : i = j + 1 := by omega
            subst hieq
            exact absurd hlive hMK
        · rw [List.filter_append, List.length_append, hc]
          simp only [List.filter_cons, List.filter_nil, decide_eq_true_eq, ne_eq, hEQ,
            eq_self_iff_true, not_true, if_false, ite_false, List.length_nil]
          omega

/-- **C5 (amended).**  What `try_remove(k)` actually does: the scan
winner `w` is **not** the position of the largest live key ≤ `k` — it
is seeded with slot 0's key unconditionally, so `w = 0` unless some
slot `1..15` holds a live key ≤ `k` *strictly greater than slot 0's
key*; every live key ≤ `k` in slots `1..15` is bounded by
`max keys[0] keys[w]`; and the scan's `rec_cnt` counts slot 0 whether
live or not (`recCntCode`).  The result refuses exactly when `w = 0`
and `recCntCode > 1`, and otherwise tombstones slot `w`. -/
theorem C5_try_remove_shape (t : Fixtree) (k : Nat) :
    ∃ w : Nat, w < 16 ∧
      (w = 0 ∨ (1 ≤ w ∧ t.leafK (16 * leafIdx t k + (w : Int)) ≠ MAX_KEY ∧
        t.leafK (16 * leafIdx t k + (w : Int)) ≤ k ∧
        t.leafK (16 * leafIdx t k) < t.leafK (16 * leafIdx t k + (w : Int)))) ∧
      (∀ i : Nat, 1 ≤ i → i < 16 →
        t.leafK (16 * leafIdx t k + (i : Int)) ≠ MAX_KEY →
        t.leafK (16 * leafIdx t k + (i : Int)) ≤ k →
        t.leafK (16 * leafIdx t k + (i : Int))
          ≤ max (t.leafK (16 * leafIdx t k)) (t.leafK (16 * leafIdx t k + (w : Int)))) ∧
      try_remove t k =
        (if w = 0 ∧ 1 < recCntCode t (leafIdx t k) then (false, t)
         else (true,
           { t with leafK := updI t.leafK (16 * leafIdx t k + (w : Int)) MAX_KEY })) := by
  obtain ⟨m, w, c, hfold, hmw, hwj, hw, hmax, hc⟩ :=
    tryRemoveScan_inv t (leafIdx t k) k 15
  have hrs : tryRemoveScan t (leafIdx t k) k = (m, w, c) := hfold
  have hcr : c = recCntCode t (leafIdx t k) := hc
  refine ⟨w, by omega, hw, ?_, ?_⟩
  · intro i hi1 hi16 hlive hle
    have h1 := hmax i hi1 (by omega) hlive hle
    rwa [hmw] at h1
  · simp only [try_remove, hrs, hcr]

/-- **C5 counterexample.**  Reachable state `c5state` (leaf keys
`[7, 3, MAX_KEY × 14]`, obtained by bulk-loading `{2, 5}`, removing
both, then inserting `7` and `3`): for probe key `4` the record with
the largest live key ≤ `4` sits at position `1` (key `3`) and the claim
therefore mandates tombstoning it and returning `true`; the code
returns `false` and leaves the leaf unchanged, because its scan is
seeded with slot 0's key `7 > 4`. -/
theorem C5_counterexample :
    leafIdx c5state 4 = 0 ∧
    claimMaxLeqPos c5state 0 4 = some 1 ∧
    recCntCode c5state 0 = 2 ∧
    (try_remove c5state 4).1 = false ∧
    (try_remove c5state 4).2.leafK 1 = 3 := by
  refine ⟨?_, ?_, ?_, ?_, ?_⟩ <;> decide

/-- **C8 (confirmed).**  Frame property of the mutating FixTree
operations: `insert(k, v)` and `try_remove(k)` leave the inner-node
buffer, the height, the leaf count and the cached level offsets
untouched, and change the leaf key/value buffers only inside the
16-slot window of the single leaf `leafIdx t k` selected by the
inner-level descent — every position outside `[16·L, 16·L + 16)` is
unchanged, whether the operation succeeds or fails. -/
theorem C8_insert_remove_frame (t : Fixtree) (k v : Nat) :
    ((insert t k v).2.inner = t.inner ∧
     (insert t k v).2.height_ = t.height_ ∧
     (insert t k v).2.leaf_cnt_ = t.leaf_cnt_ ∧
     (insert t k v).2.lvloff = t.lvloff ∧
     (∀ a : Int, a < 16 * leafIdx t k ∨ 16 * leafIdx t k + 16 ≤ a →
       (insert t k v).2.leafK a = t.leafK a ∧ (insert t k v).2.leafV a = t.leafV a)) ∧
    ((try_remove t k).2.inner = t.inner ∧
     (try_remove t k).2.height_ = t.height_ ∧
     (try_remove t k).2.leaf_cnt_ = t.leaf_cnt_ ∧
     (try_remove t k).2.lvloff = t.lvloff ∧
     (∀ a : Int, a < 16 * leafIdx t k ∨ 16 * leafIdx t k + 16 ≤ a →
       (try_remove t k).2.leafK a = t.leafK a ∧ (try_remove t k).2.leafV a = t.leafV a)) := by
  constructor
  · cases hf : (List.range 16).find?
        (fun (i : Nat) => t.leafK (16 * leafIdx t k + (i : Int)) == MAX_KEY) with
    | none =>
        simp [insert, hf]
    | some i =>
        have hi : i < 16 := List.mem_range.mp (List.mem_of_find?_eq_some hf)
        simp only [insert, hf, leaf_insert]
        refine ⟨by trivial, by trivial, by trivial, by trivial, ?_⟩
        intro a ha
        have hne : ¬ a = 16 * leafIdx t k + (i : Int) := by
          rcases ha with h1 | h1 <;> omega
        exact ⟨by simp only [updI, if_neg hne], by simp only [updI, if_neg hne]⟩
  · obtain ⟨m, w, c, hfold, hmw, hwj, hw, hmax, hc⟩ :=
      tryRemoveScan_inv t (leafIdx t k) k 15
    have hrs : tryRemoveScan t (leafIdx t k) k = (m, w, c) := hfold
    simp only [try_remove, hrs]
    by_cases hcond : w = 0 ∧ 1 < c
    · rw [if_pos hcond]
      exact ⟨rfl, rfl, rfl, rfl, fun a ha => ⟨rfl, rfl⟩⟩
    · rw [if_neg hcond]
      refine ⟨by trivial, by trivial, by trivial, by trivial, ?_⟩
      intro a ha
      have hne : ¬ a = 16 * leafIdx t k + (w : Int) := by
        rcases ha with h1 | h1 <;> omega
      exact ⟨by simp only [updI, if_neg hne], rfl⟩

/-! ### Bulk-constructor characterisation (claims C2 and C6) -/

theorem clogFuel_eq_clog : ∀ fuel n : Nat, n ≤ fuel → clogFuel 32 fuel n = Nat.clog 32 n := by
  intro fuel
  induction fuel with
  | zero =>
      intro n hn
      interval_cases n
      rw [Nat.clog_of_right_le_one (by omega)]
      rfl
  | succ fuel ih =>
      intro n hn
      by_cases h1 : n ≤ 1
      · show (if n ≤ 1 then 0 else clogFuel 32 fuel ((n + 32 - 1) / 32) + 1) = _
        rw [if_pos h1, Nat.clog_of_right_le_one h1]
      · show (if n ≤ 1 then 0 else clogFuel 32 fuel ((n + 32 - 1) / 32) + 1) = _
        rw [if_neg h1, ih ((n + 32 - 1) / 32) (by omega),
          ← Nat.clog_of_two_le (by norm_num) (by omega : 2 ≤ n)]

theorem offSum_succ (l : Nat) : offSum (l + 1) = offSum l + 32 ^ l := by
  unfold offSum
  rw [List.range_succ, List.foldl_append, List.foldl_cons, List.foldl_nil]

theorem offSum_mul : ∀ l : Nat, 31 * offSum l + 1 = 32 ^ l := by
  intro l
  induction l with
  | zero => rfl
  | succ l ih =>
      have h1 := offSum_succ l
      have h2 : (32 : Nat) ^ (l + 1) = 32 ^ l * 32 := pow_succ 32 l
      omega

theorem offSum_mono : ∀ {a b : Nat}, a ≤ b → offSum a ≤ offSum b := by
  intro a b hab
  induction b with
  | zero =>
      interval_cases a
      exact le_refl _
  | succ b ih =>
      rcases Nat.lt_or_ge a (b + 1) with h | h
      · calc offSum a ≤ offSum b := ih (by omega)
        _ ≤ offSum (b + 1) := by rw [offSum_succ]; exact Nat.le_add_right _ _
      · have hab1 : a = b + 1 := by omega
        subst hab1
        exact le_refl _

theorem chainC_le_pow {c : Nat} : ∀ d e : Nat, c ≤ 32 ^ (d + e) → chainC c d ≤ 32 ^ e := by
  intro d
  induction d with
  | zero =>
      intro e h
      simpa using h
  | succ d ih =>
      intro e h
      have h1 : chainC c d ≤ 32 ^ (e + 1) :=
        ih (e + 1) (by rw [show d + (e + 1) = d + 1 + e from by omega]; exact h)
      have hps : (32 : Nat) ^ (e + 1) = 32 ^ e * 32 := pow_succ 32 e
      show lfCeil (chainC c d) 32 ≤ 32 ^ e
      unfold lfCeil
      omega

theorem chainC_mul_lt {c : Nat} : ∀ d e : Nat, e < chainC c d → 32 ^ d * e < c := by
  intro d
  induction d with
  | zero =>
      intro e he
      simpa using he
  | succ d ih =>
      intro e he
      have hrfl : chainC c (d + 1) = (chainC c d + 32 - 1) / 32 := rfl
      have h1 : 32 * e < chainC c d := by omega
      have h2 := ih (32 * e) h1
      calc 32 ^ (d + 1) * e = 32 ^ d * (32 * e) := by ring
      _ < c := h2

theorem chainC_cover {c : Nat} : ∀ d, c ≤ 32 ^ d * chainC c d := by
  intro d
  induction d with
  | zero => simp [chainC]
  | succ d ih =>
      have hrfl : chainC c (d + 1) = (chainC c d + 32 - 1) / 32 := rfl
      have h1 : chainC c d ≤ 32 * chainC c (d + 1) := by omega
      calc c ≤ 32 ^ d * chainC c d := ih
      _ ≤ 32 ^ d * (32 * chainC c (d + 1)) := Nat.mul_le_mul_left _ h1
      _ = 32 ^ (d + 1) * chainC c (d + 1) := by ring

theorem chainC_shift (c : Nat) : ∀ d, chainC (lfCeil c 32) d = chainC c (d + 1) := by
  intro d
  induction d with
  | zero => rfl
  | succ d ih =>
      show lfCeil (chainC (lfCeil c 32) d) 32 = lfCeil (chainC c (d + 1)) 32
      rw [ih]

theorem chainC_pos {c : Nat} (hc : 0 < c) : ∀ d, 0 < chainC c d := by
  intro d
  induction d with
  | zero => exact hc
  | succ d ih =>
      have hrfl : chainC c (d + 1) = (chainC c d + 32 - 1) / 32 := rfl
      omega

theorem writeRun_out (f : Int → Nat) (base : Nat) (v : Nat → Nat) :
    ∀ (n : Nat) (x : Int), ¬ ((base : Int) ≤ x ∧ x < (base : Int) + n) →
      (List.range n).foldl (fun b j => updI b ((base + j : Nat) : Int) (v j)) f x = f x := by
  intro n
  induction n with
  | zero =>
      intro x hx
      rfl
  | succ n ih =>
      intro x hx
      rw [List.range_succ, List.foldl_append, List.foldl_cons, List.foldl_nil]
      simp only [updI]
      rw [if_neg (show ¬ x = ((base + n : Nat) : Int) from by omega)]
      exact ih x (by omega)

theorem writeRun_content (f : Int → Nat) (base : Nat) (v : Nat → Nat) :
    ∀ (n i : Nat), i < n →
      (List.range n).foldl (fun b j => updI b ((base + j : Nat) : Int) (v j)) f
        ((base + i : Nat) : Int) = v i := by
  intro n
  induction n with
  | zero =>
      intro i hi
      exact absurd hi (Nat.not_lt_zero i)
  | succ n ih =>
      intro i hi
      rw [List.range_succ, List.foldl_append, List.foldl_cons, List.foldl_nil]
      simp only [updI]
      by_cases hin : i = n
      · subst hin
        rw [if_pos rfl]
      · rw [if_neg (show ¬ ((base + i : Nat) : Int) = ((base + n : Nat) : Int) from by omega)]
        exact ih i (by omega)

theorem fillFold_eq (buf : Int → Nat) (off : Nat) (src : Nat → Nat) (cnt : Nat) :
    (List.range cnt).foldl (fun b i => inner_insert b (off + i / 32) (i % 32) (src i)) buf
      = (List.range cnt).foldl
          (fun b i => updI b ((32 * off + i : Nat) : Int) (src i)) buf := by
  have hfun : (fun (b : Int → Nat) (i : Nat) =>
        inner_insert b (off + i / 32) (i % 32) (src i))
      = fun b i => updI b ((32 * off + i : Nat) : Int) (src i) := by
    funext b i
    unfold inner_insert
    have hidx : ((32 * (off + i / 32) + i % 32 : Nat) : Int) = ((32 * off + i : Nat) : Int) := by
      omega
    rw [hidx]
  rw [hfun]

theorem fillLevel_content (buf : Int → Nat) (off cnt : Nat) (src : Nat → Nat)
    (i : Nat) (hi : i < cnt) :
    fillLevel buf off cnt src ((32 * off + i : Nat) : Int) = src i := by
  simp only [fillLevel, fillFold_eq]
  by_cases ht : cnt % 32 ≠ 0
  · rw [if_pos ht]
    simp only [inner_insert, updI]
    rw [if_neg (show ¬ ((32 * off + i : Nat) : Int)
        = ((32 * (off + cnt / 32) + cnt % 32 : Nat) : Int) from by omega)]
    exact writeRun_content buf (32 * off) src cnt i hi
  · rw [if_neg ht]
    exact writeRun_content buf (32 * off) src cnt i hi

theorem fillLevel_term (buf : Int → Nat) (off cnt : Nat) (src : Nat → Nat)
    (ht : cnt % 32 ≠ 0) :
    fillLevel buf off cnt src ((32 * off + cnt : Nat) : Int) = MAX_KEY := by
  simp only [fillLevel, fillFold_eq]
  rw [if_pos ht]
  simp only [inner_insert, updI]
  rw [if_pos (show ((32 * off + cnt : Nat) : Int)
      = ((32 * (off + cnt / 32) + cnt % 32 : Nat) : Int) from by omega)]

theorem fillLevel_out (buf : Int → Nat) (off cnt : Nat) (src : Nat → Nat)
    (x : Int) (hx1 : ¬ (32 * (off : Int) ≤ x ∧ x < 32 * (off : Int) + cnt))
    (hx2 : cnt % 32 ≠ 0 → x ≠ ((32 * off + cnt : Nat) : Int)) :
    fillLevel buf off cnt src x = buf x := by
  simp only [fillLevel, fillFold_eq]
  by_cases ht : cnt % 32 ≠ 0
  · rw [if_pos ht]
    simp only [inner_insert, updI]
    rw [if_neg (show ¬ x = ((32 * (off + cnt / 32) + cnt % 32 : Nat) : Int) from by
      have := hx2 ht
      omega)]
    exact writeRun_out buf (32 * off) src cnt x (by push_cast; omega)
  · rw [if_neg ht]
    exact writeRun_out buf (32 * off) src cnt x (by push_cast; omega)

theorem liveFold_spec (buf : Int → Nat) (off lastOff : Nat) :
    ∀ cnt : Nat, 32 * off + cnt ≤ 32 * lastOff →
      ((∀ x : Int, ¬ (32 * (off : Int) ≤ x ∧ x < 32 * (off : Int) + cnt) →
        (List.range cnt).foldl
          (fun b i => inner_insert b (off + i / 32) (i % 32)
            (b ((32 * (lastOff + i) : Nat) : Int))) buf x = buf x) ∧
      (∀ i : Nat, i < cnt →
        (List.range cnt).foldl
          (fun b i => inner_insert b (off + i / 32) (i % 32)
            (b ((32 * (lastOff + i) : Nat) : Int))) buf ((32 * off + i : Nat) : Int)
          = buf ((32 * (lastOff + i) : Nat) : Int))) := by
  intro cnt
  induction cnt with
  | zero =>
      intro hsep
      exact ⟨fun x hx => rfl, fun i hi => absurd hi (Nat.not_lt_zero i)⟩
  | succ cnt ih =>
      intro hsep
      obtain ⟨ihout, ihcont⟩ := ih (by omega)
      constructor
      · intro x hx
        rw [List.range_succ, List.foldl_append, List.foldl_cons, List.foldl_nil]
        simp only [inner_insert, updI]
        rw [if_neg (show ¬ x = ((32 * (off + cnt / 32) + cnt % 32 : Nat) : Int) from by omega)]
        exact ihout x (by omega)
      · intro i hi
        rw [List.range_succ, List.foldl_append, List.foldl_cons, List.foldl_nil]
        simp only [inner_insert, updI]
        by_cases hic : i = cnt
        · subst hic
          rw [if_pos (show ((32 * off + i : Nat) : Int)
              = ((32 * (off + i / 32) + i % 32 : Nat) : Int) from by omega)]
          exact ihout _ (by omega)
        · rw [if_neg (show ¬ ((32 * off + i : Nat) : Int)
              = ((32 * (off + cnt / 32) + cnt % 32 : Nat) : Int) from by omega)]
          exact ihcont i (by omega)

theorem fillLevelLive_content (buf : Int → Nat) (off cnt lastOff : Nat)
    (hsep : 32 * off + cnt ≤ 32 * lastOff) (i : Nat) (hi : i < cnt) :
    fillLevelLive buf off cnt lastOff ((32 * off + i : Nat) : Int)
      = buf ((32 * (lastOff + i) : Nat) : Int) := by
  obtain ⟨hout, hcont⟩ := liveFold_spec buf off lastOff cnt hsep
  simp only [fillLevelLive]
  by_cases ht : cnt % 32 ≠ 0
  · rw [if_pos ht]
    simp only [inner_insert, updI]
    rw [if_neg (show ¬ ((32 * off + i : Nat) : Int)
        = ((32 * (off + cnt / 32) + cnt % 32 : Nat) : Int) from by omega)]
    exact hcont i hi
  · rw [if_neg ht]
    exact hcont i hi

theorem fillLevelLive_term (buf : Int → Nat) (off cnt lastOff : Nat)
    (hsep : 32 * off + cnt ≤ 32 * lastOff) (ht : cnt % 32 ≠ 0) :
    fillLevelLive buf off cnt lastOff ((32 * off + cnt : Nat) : Int) = MAX_KEY := by
  simp only [fillLevelLive]
  rw [if_pos ht]
  simp only [inner_insert, updI]
  rw [if_pos (show ((32 * off + cnt : Nat) : Int)
      = ((32 * (off + cnt / 32) + cnt % 32 : Nat) : Int) from by omega)]

theorem fillLevelLive_out (buf : Int → Nat) (off cnt lastOff : Nat)
    (hsep : 32 * off + cnt ≤ 32 * lastOff) (x : Int)
    (hx1 : ¬ (32 * (off : Int) ≤ x ∧ x < 32 * (off : Int) + cnt))
    (hx2 : cnt % 32 ≠ 0 → x ≠ ((32 * off + cnt : Nat) : Int)) :
    fillLevelLive buf off cnt lastOff x = buf x := by
  obtain ⟨hout, hcont⟩ := liveFold_spec buf off lastOff cnt hsep
  simp only [fillLevelLive]
  by_cases ht : cnt % 32 ≠ 0
  · rw [if_pos ht]
    simp only [inner_insert, updI]
    rw [if_neg (show ¬ x = ((32 * (off + cnt / 32) + cnt % 32 : Nat) : Int) from by
      have := hx2 ht
      omega)]
    exact hout x (by omega)
  · rw [if_neg ht]
    exact hout x (by omega)

theorem foldl_prod {α β γ : Type} (f : α → γ → α) (g : β → γ → β) :
    ∀ (l : List γ) (x : α) (y : β),
      l.foldl (fun p c => (f p.1 c, g p.2 c)) (x, y) = (l.foldl f x, l.foldl g y) := by
  intro l
  induction l with
  | nil =>
      intro x y
      rfl
  | cons a l ih =>
      intro x y
      simp only [List.foldl_cons]
      exact ih (f x a) (g y a)

theorem foldl_prod_eta {α β γ : Type} (f : α → γ → α) (g : β → γ → β)
    (l : List γ) (p : α × β) :
    l.foldl (fun q c => (f q.1 c, g q.2 c)) p = (l.foldl f p.1, l.foldl g p.2) := by
  obtain ⟨x, y⟩ := p
  exact foldl_prod f g l x y

theorem leafFill_eq (records : List Record) (gK gV : Int → Nat) :
    leafFill records gK gV
      = ((List.range (lfCeil records.length 8)).foldl (leafKeyStep records) gK,
         (List.range (lfCeil records.length 8)).foldl (leafValStep records) gV) := by
  simp only [leafFill, LEAF_REBUILD_CARD]
  have hstep : ∀ (kv : (Int → Nat) × (Int → Nat)) (i : Nat), i ∈ List.range (lfCeil records.length 8) →
      ((List.range 8).foldl (fun b j => updI b ((16 * i + 8 + j : Nat) : Int) MAX_KEY)
        ((List.range 8).foldl
          (fun (kv : (Int → Nat) × (Int → Nat)) (j : Nat) =>
            (updI kv.1 ((16 * i + j : Nat) : Int)
              (if i * 8 + j < records.length then (records.getD (i * 8 + j) ⟨0, 0⟩).key
               else MAX_KEY),
             updI kv.2 ((16 * i + j : Nat) : Int)
              (if i * 8 + j < records.length then (records.getD (i * 8 + j) ⟨0, 0⟩).val
               else 0))) kv).1,
       ((List.range 8).foldl
          (fun (kv : (Int → Nat) × (Int → Nat)) (j : Nat) =>
            (updI kv.1 ((16 * i + j : Nat) : Int)
              (if i * 8 + j < records.length then (records.getD (i * 8 + j) ⟨0, 0⟩).key
               else MAX_KEY),
             updI kv.2 ((16 * i + j : Nat) : Int)
              (if i * 8 + j < records.length then (records.getD (i * 8 + j) ⟨0, 0⟩).val
               else 0))) kv).2)
      = (leafKeyStep records kv.1 i, leafValStep records kv.2 i) := by
    intro kv i hmem
    rw [foldl_prod_eta
      (fun b j => updI b ((16 * i + j : Nat) : Int)
        (if i * 8 + j < records.length then (records.getD (i * 8 + j) ⟨0, 0⟩).key
         else MAX_KEY))
      (fun b j => updI b ((16 * i + j : Nat) : Int)
        (if i * 8 + j < records.length then (records.getD (i * 8 + j) ⟨0, 0⟩).val
         else 0))
      (List.range 8) kv]
    rfl
  rw [List.foldl_ext _ _ _ hstep, foldl_prod]

theorem leafKeyFold_spec (records : List Record) (gK : Int → Nat) :
    ∀ mq : Nat,
      (∀ q j : Nat, q < mq → j < 16 →
        (List.range mq).foldl (leafKeyStep records) gK ((16 * q + j : Nat) : Int)
          = if j < 8 ∧ q * 8 + j < records.length
            then (records.getD (q * 8 + j) ⟨0, 0⟩).key else MAX_KEY) ∧
      (∀ x : Int, ¬ (0 ≤ x ∧ x < 16 * (mq : Int)) →
        (List.range mq).foldl (leafKeyStep records) gK x = gK x) := by
  intro mq
  induction mq with
  | zero =>
      exact ⟨fun q j hq _ => absurd hq (Nat.not_lt_zero q), fun x hx => rfl⟩
  | succ m ih =>
      obtain ⟨ihc, ihf⟩ := ih
      constructor
      · intro q j hq hj
        rw [List.range_succ, List.foldl_append, List.foldl_cons, List.foldl_nil]
        by_cases hqm : q = m
        · subst hqm
          unfold leafKeyStep
          by_cases hj8 : j < 8
          · rw [writeRun_out _ _ _ 8 _ (by push_cast; omega)]
            rw [writeRun_content _ (16 * q) _ 8 j hj8]
            simp only [hj8, true_and]
          · have hcast : ((16 * q + j : Nat) : Int) = ((16 * q + 8 + (j - 8) : Nat) : Int) := by
              omega
            rw [hcast, writeRun_content _ (16 * q + 8) _ 8 (j - 8) (by omega)]
            rw [if_neg (by omega)]
        · unfold leafKeyStep
          rw [writeRun_out _ _ _ 8 _ (by push_cast; omega),
              writeRun_out _ _ _ 8 _ (by push_cast; omega)]
          exact ihc q j (by omega) hj
      · intro x hx
        rw [List.range_succ, List.foldl_append, List.foldl_cons, List.foldl_nil]
        unfold leafKeyStep
        rw [writeRun_out _ _ _ 8 _ (by push_cast at hx ⊢; omega),
            writeRun_out _ _ _ 8 _ (by push_cast at hx ⊢; omega)]
        exact ihf x (by push_cast at hx ⊢; omega)

theorem build_leafK (records : List Record) (gI gK gV : Int → Nat) (q j : Nat)
    (hq : q < lfCeil records.length 8) (hj : j < 16) :
    (build records gI gK gV).leafK ((16 * q + j : Nat) : Int)
      = if j < 8 ∧ q * 8 + j < records.length
        then (records.getD (q * 8 + j) ⟨0, 0⟩).key else MAX_KEY := by
  show (leafFill records gK gV).1 _ = _
  rw [leafFill_eq]
  exact (leafKeyFold_spec records gK (lfCeil records.length 8)).1 q j hq hj

theorem build_leafK_out (records : List Record) (gI gK gV : Int → Nat) (x : Int)
    (hx : ¬ (0 ≤ x ∧ x < 16 * (lfCeil records.length 8 : Int))) :
    (build records gI gK gV).leafK x = gK x := by
  show (leafFill records gK gV).1 _ = _
  rw [leafFill_eq]
  exact (leafKeyFold_spec records gK (lfCeil records.length 8)).2 x hx

theorem buildLoop_spec : ∀ l : Nat, ∀ (buf : Int → Nat) (cnt : Nat), cnt ≤ 32 ^ (l + 1) →
    ((∀ j e : Nat, j ≤ l → e < chainC cnt (l - j) →
        buildLoop buf cnt (offSum (l + 1)) (offSum l) l (l + 1)
            ((32 * offSum j + e : Nat) : Int)
          = buf ((32 * (offSum (l + 1) + 32 ^ (l - j) * e) : Nat) : Int)) ∧
      (∀ j : Nat, j ≤ l → chainC cnt (l - j) % 32 ≠ 0 →
        buildLoop buf cnt (offSum (l + 1)) (offSum l) l (l + 1)
            ((32 * offSum j + chainC cnt (l - j) : Nat) : Int) = MAX_KEY) ∧
      (∀ x : Int, (∀ j : Nat, j ≤ l →
          ¬ (32 * (offSum j : Int) ≤ x ∧ x < 32 * (offSum j : Int) + chainC cnt (l - j)) ∧
          (chainC cnt (l - j) % 32 ≠ 0 →
            x ≠ ((32 * offSum j + chainC cnt (l - j) : Nat) : Int))) →
        buildLoop buf cnt (offSum (l + 1)) (offSum l) l (l + 1) x = buf x)) := by
  intro l
  induction l with
  | zero =>
      intro buf cnt hcnt
      have hres : ∀ y : Int, buildLoop buf cnt (offSum (0 + 1)) (offSum 0) 0 (0 + 1) y
          = fillLevelLive buf (offSum 0) cnt (offSum (0 + 1)) y := fun y => rfl
      have hsep : 32 * offSum 0 + cnt ≤ 32 * offSum (0 + 1) := by
        have h0 : offSum 0 = 0 := rfl
        have h1 : offSum (0 + 1) = 1 := rfl
        have h32 : (32 : Nat) ^ (0 + 1) = 32 := by norm_num
        omega
      refine ⟨?_, ?_, ?_⟩
      · intro j e hj he
        have hj0 : j = 0 := by omega
        subst hj0
        have he' : e < cnt := he
        rw [hres, fillLevelLive_content buf (offSum 0) cnt (offSum (0 + 1)) hsep e he']
        rw [show (32 : Nat) ^ (0 - 0) = 1 from by norm_num, one_mul]
      · intro j hj ht
        have hj0 : j = 0 := by omega
        subst hj0
        rw [hres]
        exact fillLevelLive_term buf (offSum 0) cnt (offSum (0 + 1)) hsep ht
      · intro x hx
        rw [hres]
        exact fillLevelLive_out buf (offSum 0) cnt (offSum (0 + 1)) hsep x
          (hx 0 (le_refl 0)).1 (hx 0 (le_refl 0)).2
  | succ l ih =>
      intro buf cnt hcnt
      have hps2 : (32 : Nat) ^ (l + 1 + 1) = 32 ^ (l + 1) * 32 := pow_succ 32 (l + 1)
      have hoff1 : offSum (l + 1) = offSum l + 32 ^ l := offSum_succ l
      have hoff2 : offSum (l + 1 + 1) = offSum (l + 1) + 32 ^ (l + 1) := offSum_succ (l + 1)
      have hstep : ∀ y : Int,
          buildLoop buf cnt (offSum (l + 1 + 1)) (offSum (l + 1)) (l + 1) (l + 1 + 1) y
            = buildLoop (fillLevelLive buf (offSum (l + 1)) cnt (offSum (l + 1 + 1)))
                (lfCeil cnt 32) (offSum (l + 1)) (offSum (l + 1) - 32 ^ l) l (l + 1) y :=
        fun y => rfl
      rw [show offSum (l + 1) - 32 ^ l = offSum l from by omega] at hstep
      have hsep : 32 * offSum (l + 1) + cnt ≤ 32 * offSum (l + 1 + 1) := by omega
      obtain ⟨ihc, iht, ihf⟩ := ih (fillLevelLive buf (offSum (l + 1)) cnt (offSum (l + 1 + 1)))
        (lfCeil cnt 32) (by unfold lfCeil; omega)
      have hshift : ∀ d : Nat, chainC (lfCeil cnt 32) d = chainC cnt (d + 1) := chainC_shift cnt
      have hreg : ∀ j : Nat, j ≤ l →
          32 * offSum j + chainC (lfCeil cnt 32) (l - j) ≤ 32 * offSum (l + 1) := by
        intro j hj
        have h1 : chainC (lfCeil cnt 32) (l - j) ≤ 32 ^ (j + 1) := by
          refine chainC_le_pow (l - j) (j + 1) ?_
          rw [show l - j + (j + 1) = l + 1 from by omega]
          unfold lfCeil
          omega
        have h2 : 32 * offSum j + 32 ^ (j + 1) = 32 * offSum (j + 1) := by
          have h2a := offSum_succ j
          have h2b : (32 : Nat) ^ (j + 1) = 32 ^ j * 32 := pow_succ 32 j
          omega
        have h3 : offSum (j + 1) ≤ offSum (l + 1) := offSum_mono (by omega)
        omega
      refine ⟨?_, ?_, ?_⟩
      · intro j e hj he
        by_cases hjl : j ≤ l
        · have he' : e < chainC (lfCeil cnt 32) (l - j) := by
            rw [hshift (l - j), show l - j + 1 = l + 1 - j from by omega]
            exact he
          rw [hstep, ihc j e hjl he']
          have hxx : 32 * (32 ^ (l - j) * e) = 32 ^ (l + 1 - j) * e := by
            rw [show l + 1 - j = l - j + 1 from by omega, pow_succ]
            ring
          have hlt : 32 * (32 ^ (l - j) * e) < cnt := by
            rw [hxx]
            exact chainC_mul_lt (l + 1 - j) e he
          rw [show ((32 * (offSum (l + 1) + 32 ^ (l - j) * e) : Nat) : Int)
              = ((32 * offSum (l + 1) + 32 * (32 ^ (l - j) * e) : Nat) : Int) from by omega]
          rw [fillLevelLive_content buf (offSum (l + 1)) cnt (offSum (l + 1 + 1)) hsep
            (32 * (32 ^ (l - j) * e)) hlt]
          congr 1
          omega
        · have hj1 : j = l + 1 := by omega
          subst hj1
          have he' : e < cnt := by
            rw [show l + 1 - (l + 1) = 0 from by omega] at he
            exact he
          have hframe : ∀ j' : Nat, j' ≤ l →
              ¬ (32 * (offSum j' : Int) ≤ ((32 * offSum (l + 1) + e : Nat) : Int) ∧
                 ((32 * offSum (l + 1) + e : Nat) : Int)
                   < 32 * (offSum j' : Int) + chainC (lfCeil cnt 32) (l - j')) ∧
              (chainC (lfCeil cnt 32) (l - j') % 32 ≠ 0 →
                ((32 * offSum (l + 1) + e : Nat) : Int)
                  ≠ ((32 * offSum j' + chainC (lfCeil cnt 32) (l - j') : Nat) : Int)) := by
            intro j' hj'
            have h1 := hreg j' hj'
            constructor
            · omega
            · intro hterm
              have h4 : offSum j' ≤ offSum (l + 1) := offSum_mono (by omega)
              omega
          rw [hstep, ihf _ hframe]
          rw [fillLevelLive_content buf (offSum (l + 1)) cnt (offSum (l + 1 + 1)) hsep e he']
          rw [show l + 1 - (l + 1) = 0 from by omega, pow_zero, one_mul]
      · intro j hj ht
        by_cases hjl : j ≤ l
        · have ht' : chainC (lfCeil cnt 32) (l - j) % 32 ≠ 0 := by
            rw [hshift (l - j), show l - j + 1 = l + 1 - j from by omega]
            exact ht
          have hpos : ((32 * offSum j + chainC cnt (l + 1 - j) : Nat) : Int)
              = ((32 * offSum j + chainC (lfCeil cnt 32) (l - j) : Nat) : Int) := by
            rw [hshift (l - j), show l - j + 1 = l + 1 - j from by omega]
          rw [hstep, hpos, iht j hjl ht']
        · have hj1 : j = l + 1 := by omega
          subst hj1
          rw [show l + 1 - (l + 1) = 0 from by omega] at ht ⊢
          have hframe : ∀ j' : Nat, j' ≤ l →
              ¬ (32 * (offSum j' : Int) ≤ ((32 * offSum (l + 1) + chainC cnt 0 : Nat) : Int) ∧
                 ((32 * offSum (l + 1) + chainC cnt 0 : Nat) : Int)
                   < 32 * (offSum j' : Int) + chainC (lfCeil cnt 32) (l - j')) ∧
              (chainC (lfCeil cnt 32) (l - j') % 32 ≠ 0 →
                ((32 * offSum (l + 1) + chainC cnt 0 : Nat) : Int)
                  ≠ ((32 * offSum j' + chainC (lfCeil cnt 32) (l - j') : Nat) : Int)) := by
            intro j' hj'
            have h1 := hreg j' hj'
            constructor
            · omega
            · intro hterm
              have h4 : offSum j' ≤ offSum (l + 1) := offSum_mono (by omega)
              omega
          rw [hstep, ihf _ hframe]
          exact fillLevelLive_term buf (offSum (l + 1)) cnt (offSum (l + 1 + 1)) hsep ht
      · intro x hx
        have hframe : ∀ j' : Nat, j' ≤ l →
            ¬ (32 * (offSum j' : Int) ≤ x ∧
               x < 32 * (offSum j' : Int) + chainC (lfCeil cnt 32) (l - j')) ∧
            (chainC (lfCeil cnt 32) (l - j') % 32 ≠ 0 →
              x ≠ ((32 * offSum j' + chainC (lfCeil cnt 32) (l - j') : Nat) : Int)) := by
          intro j' hj'
          have h1 := (hx j' (by omega)).1
          have h2 := (hx j' (by omega)).2
          rw [hshift (l - j'), show l - j' + 1 = l + 1 - j' from by omega]
          exact ⟨h1, h2⟩
        rw [hstep, ihf x hframe]
        have h1 := (hx (l + 1) (le_refl _)).1
        have h2 := (hx (l + 1) (le_refl _)).2
        rw [show l + 1 - (l + 1) = 0 from by omega] at h1 h2
        exact fillLevelLive_out buf (offSum (l + 1)) cnt (offSum (l + 1 + 1)) hsep x h1 h2

theorem buildLoop_frame_high (l : Nat) (buf : Int → Nat) (cnt : Nat)
    (hcnt : cnt ≤ 32 ^ (l + 1)) (x : Int) (hx : 32 * (offSum (l + 1) : Int) ≤ x) :
    buildLoop buf cnt (offSum (l + 1)) (offSum l) l (l + 1) x = buf x := by
  refine (buildLoop_spec l buf cnt hcnt).2.2 x ?_
  intro j hj
  have hc1 : chainC cnt (l - j) ≤ 32 ^ (j + 1) := by
    refine chainC_le_pow (l - j) (j + 1) ?_
    rw [show l - j + (j + 1) = l + 1 from by omega]
    exact hcnt
  have hc2 : 32 * offSum j + 32 ^ (j + 1) = 32 * offSum (j + 1) := by
    have h2a := offSum_succ j
    have h2b : (32 : Nat) ^ (j + 1) = 32 ^ j * 32 := pow_succ 32 j
    omega
  have hc3 : offSum (j + 1) ≤ offSum (l + 1) := offSum_mono (by omega)
  have hc4 : (32 : Nat) ^ (j + 1) % 32 = 0 := by
    rw [pow_succ]
    exact Nat.mul_mod_left _ _
  constructor
  · omega
  · intro hterm
    omega

theorem build_height (records : List Record) (gI gK gV : Int → Nat) :
    (build records gI gK gV).height_ = bheight records := rfl

theorem bheight_eq_clog (records : List Record) :
    bheight records = Nat.clog 32 (max 32 (lfCeil records.length 8)) :=
  clogFuel_eq_clog _ _ (le_refl _)

theorem bheight_pos (records : List Record) : 1 ≤ bheight records := by
  rw [bheight_eq_clog]
  have h1 : 32 ≤ max 32 (lfCeil records.length 8) := le_max_left _ _
  exact Nat.clog_pos (by norm_num) (by omega)

theorem lfcnt_le_pow (records : List Record) :
    lfCeil records.length 8 ≤ 32 ^ bheight records := by
  rw [bheight_eq_clog]
  calc lfCeil records.length 8 ≤ max 32 (lfCeil records.length 8) := le_max_right _ _
  _ ≤ 32 ^ Nat.clog 32 (max 32 (lfCeil records.length 8)) := Nat.le_pow_clog (by norm_num) _

theorem build_inner_entry (records : List Record) (gI gK gV : Int → Nat) (j e : Nat)
    (hj : j < bheight records)
    (he : e < chainC (lfCeil records.length 8) (bheight records - 1 - j)) :
    (build records gI gK gV).inner ((32 * offSum j + e : Nat) : Int)
      = (build records gI gK gV).leafK
          ((16 * (32 ^ (bheight records - 1 - j) * e) : Nat) : Int) := by
  have hpos := bheight_pos records
  have hm32 := lfcnt_le_pow records
  have hoffm := offSum_mul (bheight records)
  have hoffs := offSum_succ (bheight records - 1)
  rw [show bheight records - 1 + 1 = bheight records from by omega] at hoffs
  have hoff0 : (32 ^ bheight records - 1) / 31 - 32 ^ (bheight records - 1)
      = offSum (bheight records - 1) := by omega
  have hinner : (build records gI gK gV).inner
      = buildLoop
          (fillLevel gI ((32 ^ bheight records - 1) / 31 - 32 ^ (bheight records - 1))
            (lfCeil records.length 8)
            (fun i => (leafFill records gK gV).1 ((16 * i : Nat) : Int)))
          (lfCeil (lfCeil records.length 8) 32)
          ((32 ^ bheight records - 1) / 31 - 32 ^ (bheight records - 1))
          ((32 ^ bheight records - 1) / 31 - 32 ^ (bheight records - 1)
            - 32 ^ (bheight records - 2))
          (bheight records - 2) (bheight records - 1) := rfl
  have hleafK : (build records gI gK gV).leafK = (leafFill records gK gV).1 := rfl
  rw [hinner, hoff0, hleafK]
  rcases Nat.lt_or_ge (bheight records) 2 with hht | hht
  · have h1 : bheight records = 1 := by omega
    rw [h1] at he ⊢
    have hj0 : j = 0 := by omega
    subst hj0
    have he' : e < lfCeil records.length 8 := he
    show fillLevel gI (offSum 0) (lfCeil records.length 8)
        (fun i => (leafFill records gK gV).1 ((16 * i : Nat) : Int))
        ((32 * offSum 0 + e : Nat) : Int) = _
    rw [fillLevel_content gI (offSum 0) (lfCeil records.length 8)
      (fun i => (leafFill records gK gV).1 ((16 * i : Nat) : Int)) e he']
    rw [show ((16 * (32 ^ (1 - 1 - 0) * e) : Nat) : Int) = ((16 * e : Nat) : Int) from by
      norm_num]
  · obtain ⟨l, hl⟩ : ∃ l, bheight records = l + 2 := ⟨bheight records - 2, by omega⟩
    rw [hl] at he hm32 ⊢
    rw [show l + 2 - 1 = l + 1 from rfl] at he ⊢
    rw [show l + 2 - 2 = l from rfl]
    rw [show offSum (l + 1) - 32 ^ l = offSum l from by
      have := offSum_succ l
      omega]
    have hps : (32 : Nat) ^ (l + 2) = 32 ^ (l + 1) * 32 := pow_succ 32 (l + 1)
    have hcnt' : lfCeil (lfCeil records.length 8) 32 ≤ 32 ^ (l + 1) := by
      have hceil : lfCeil (lfCeil records.length 8) 32
          = (lfCeil records.length 8 + 32 - 1) / 32 := rfl
      omega
    by_cases hjl : j ≤ l
    · have he'' : e < chainC (lfCeil (lfCeil records.length 8) 32) (l - j) := by
        rw [chainC_shift, show l - j + 1 = l + 1 - j from by omega]
        exact he
      rw [(buildLoop_spec l _ _ hcnt').1 j e hjl he'']
      have hxx : 32 * (32 ^ (l - j) * e) = 32 ^ (l + 1 - j) * e := by
        rw [show l + 1 - j = l - j + 1 from by omega, pow_succ]
        ring
      have hlt : 32 * (32 ^ (l - j) * e) < lfCeil records.length 8 := by
        rw [hxx]
        exact chainC_mul_lt (l + 1 - j) e he
      rw [show ((32 * (offSum (l + 1) + 32 ^ (l - j) * e) : Nat) : Int)
          = ((32 * offSum (l + 1) + 32 * (32 ^ (l - j) * e) : Nat) : Int) from by omega]
      rw [fillLevel_content gI (offSum (l + 1)) (lfCeil records.length 8)
        (fun i => (leafFill records gK gV).1 ((16 * i : Nat) : Int))
        (32 * (32 ^ (l - j) * e)) hlt]
      rw [show ((16 * (32 * (32 ^ (l - j) * e)) : Nat) : Int)
          = ((16 * (32 ^ (l + 1 - j) * e) : Nat) : Int) from by rw [hxx]]
    · have hj1 : j = l + 1 := by omega
      subst hj1
      have he' : e < lfCeil records.length 8 := by
        rw [show l + 1 - (l + 1) = 0 from by omega] at he
        exact he
      rw [buildLoop_frame_high l _ _ hcnt' _ (by push_cast; omega)]
      rw [fillLevel_content gI (offSum (l + 1)) (lfCeil records.length 8)
        (fun i => (leafFill records gK gV).1 ((16 * i : Nat) : Int)) e he']
      rw [show ((16 * (32 ^ (l + 1 - (l + 1)) * e) : Nat) : Int) = ((16 * e : Nat) : Int) from by
        rw [show l + 1 - (l + 1) = 0 from by omega, pow_zero, one_mul]]

theorem build_inner_term (records : List Record) (gI gK gV : Int → Nat) (j : Nat)
    (hj : j < bheight records)
    (ht : chainC (lfCeil records.length 8) (bheight records - 1 - j) % 32 ≠ 0) :
    (build records gI gK gV).inner
        ((32 * offSum j + chainC (lfCeil records.length 8) (bheight records - 1 - j)
          : Nat) : Int)
      = MAX_KEY := by
  have hpos := bheight_pos records
  have hm32 := lfcnt_le_pow records
  have hoffm := offSum_mul (bheight records)
  have hoffs := offSum_succ (bheight records - 1)
  rw [show bheight records - 1 + 1 = bheight records from by omega] at hoffs
  have hoff0 : (32 ^ bheight records - 1) / 31 - 32 ^ (bheight records - 1)
      = offSum (bheight records - 1) := by omega
  have hinner : (build records gI gK gV).inner
      = buildLoop
          (fillLevel gI ((32 ^ bheight records - 1) / 31 - 32 ^ (bheight records - 1))
            (lfCeil records.length 8)
            (fun i => (leafFill records gK gV).1 ((16 * i : Nat) : Int)))
          (lfCeil (lfCeil records.length 8) 32)
          ((32 ^ bheight records - 1) / 31 - 32 ^ (bheight records - 1))
          ((32 ^ bheight records - 1) / 31 - 32 ^ (bheight records - 1)
            - 32 ^ (bheight records - 2))
          (bheight records - 2) (bheight records - 1) := rfl
  rw [hinner, hoff0]
  rcases Nat.lt_or_ge (bheight records) 2 with hht | hht
  · have h1 : bheight records = 1 := by omega
    rw [h1] at ht ⊢
    have hj0 : j = 0 := by omega
    subst hj0
    rw [show chainC (lfCeil records.length 8) (1 - 1 - 0) = lfCeil records.length 8 from rfl]
      at ht ⊢
    show fillLevel gI (offSum 0) (lfCeil records.length 8)
        (fun i => (leafFill records gK gV).1 ((16 * i : Nat) : Int))
        ((32 * offSum 0 + lfCeil records.length 8 : Nat) : Int) = MAX_KEY
    exact fillLevel_term gI (offSum 0) (lfCeil records.length 8) _ ht
  · obtain ⟨l, hl⟩ : ∃ l, bheight records = l + 2 := ⟨bheight records - 2, by omega⟩
    rw [hl] at ht hm32 ⊢
    rw [show l + 2 - 1 = l + 1 from rfl] at ht ⊢
    rw [show l + 2 - 2 = l from rfl]
    rw [show offSum (l + 1) - 32 ^ l = offSum l from by
      have := offSum_succ l
      omega]
    have hps : (32 : Nat) ^ (l + 2) = 32 ^ (l + 1) * 32 := pow_succ 32 (l + 1)
    have hcnt' : lfCeil (lfCeil records.length 8) 32 ≤ 32 ^ (l + 1) := by
      have hceil : lfCeil (lfCeil records.length 8) 32
          = (lfCeil records.length 8 + 32 - 1) / 32 := rfl
      omega
    by_cases hjl : j ≤ l
    · have hsh : chainC (lfCeil records.length 8) (l + 1 - j)
          = chainC (lfCeil (lfCeil records.length 8) 32) (l - j) := by
        rw [chainC_shift, show l - j + 1 = l + 1 - j from by omega]
      rw [hsh] at ht ⊢
      exact (buildLoop_spec l _ _ hcnt').2.1 j hjl ht
    · have hj1 : j = l + 1 := by omega
      subst hj1
      rw [show chainC (lfCeil records.length 8) (l + 1 - (l + 1))
          = lfCeil records.length 8 from by
        rw [show l + 1 - (l + 1) = 0 from by omega]
        rfl] at ht ⊢
      rw [buildLoop_frame_high l _ _ hcnt' _ (by push_cast; omega)]
      exact fillLevel_term gI (offSum (l + 1)) (lfCeil records.length 8) _ ht

theorem build_inner_out (records : List Record) (gI gK gV : Int → Nat) (x : Int)
    (hx : ∀ j : Nat, j < bheight records →
      ¬ (32 * (offSum j : Int) ≤ x ∧
         x < 32 * (offSum j : Int) + chainC (lfCeil records.length 8) (bheight records - 1 - j)) ∧
      (chainC (lfCeil records.length 8) (bheight records - 1 - j) % 32 ≠ 0 →
        x ≠ ((32 * offSum j + chainC (lfCeil records.length 8) (bheight records - 1 - j)
          : Nat) : Int))) :
    (build records gI gK gV).inner x = gI x := by
  have hpos := bheight_pos records
  have hm32 := lfcnt_le_pow records
  have hoffm := offSum_mul (bheight records)
  have hoffs := offSum_succ (bheight records - 1)
  rw [show bheight records - 1 + 1 = bheight records from by omega] at hoffs
  have hoff0 : (32 ^ bheight records - 1) / 31 - 32 ^ (bheight records - 1)
      = offSum (bheight records - 1) := by omega
  have hinner : (build records gI gK gV).inner
      = buildLoop
          (fillLevel gI ((32 ^ bheight records - 1) / 31 - 32 ^ (bheight records - 1))
            (lfCeil records.length 8)
            (fun i => (leafFill records gK gV).1 ((16 * i : Nat) : Int)))
          (lfCeil (lfCeil records.length 8) 32)
          ((32 ^ bheight records - 1) / 31 - 32 ^ (bheight records - 1))
          ((32 ^ bheight records - 1) / 31 - 32 ^ (bheight records - 1)
            - 32 ^ (bheight records - 2))
          (bheight records - 2) (bheight records - 1) := rfl
  rw [hinner, hoff0]
  rcases Nat.lt_or_ge (bheight records) 2 with hht | hht
  · have h1 : bheight records = 1 := by omega
    rw [h1] at hx
    have hx0 := hx 0 (by omega)
    rw [show chainC (lfCeil records.length 8) (1 - 1 - 0) = lfCeil records.length 8 from rfl]
      at hx0
    rw [h1]
    show fillLevel gI (offSum 0) (lfCeil records.length 8)
        (fun i => (leafFill records gK gV).1 ((16 * i : Nat) : Int)) x = gI x
    exact fillLevel_out gI (offSum 0) (lfCeil records.length 8) _ x hx0.1 hx0.2
  · obtain ⟨l, hl⟩ : ∃ l, bheight records = l + 2 := ⟨bheight records - 2, by omega⟩
    rw [hl] at hx hm32 ⊢
    rw [show l + 2 - 1 = l + 1 from rfl] at hx ⊢
    rw [show l + 2 - 2 = l from rfl]
    rw [show offSum (l + 1) - 32 ^ l = offSum l from by
      have := offSum_succ l
      omega]
    have hps : (32 : Nat) ^ (l + 2) = 32 ^ (l + 1) * 32 := pow_succ 32 (l + 1)
    have hcnt' : lfCeil (lfCeil records.length 8) 32 ≤ 32 ^ (l + 1) := by
      have hceil : lfCeil (lfCeil records.length 8) 32
          = (lfCeil records.length 8 + 32 - 1) / 32 := rfl
      omega
    have hframe : ∀ j : Nat, j ≤ l →
        ¬ (32 * (offSum j : Int) ≤ x ∧
           x < 32 * (offSum j : Int) + chainC (lfCeil (lfCeil records.length 8) 32) (l - j)) ∧
        (chainC (lfCeil (lfCeil records.length 8) 32) (l - j) % 32 ≠ 0 →
          x ≠ ((32 * offSum j + chainC (lfCeil (lfCeil records.length 8) 32) (l - j)
            : Nat) : Int)) := by
      intro j hj
      have hxj := hx j (by omega)
      rw [show l + 1 - j = l - j + 1 from by omega, ← chainC_shift] at hxj
      exact hxj
    rw [(buildLoop_spec l _ _ hcnt').2.2 x hframe]
    have hxl := hx (l + 1) (by omega)
    rw [show chainC (lfCeil records.length 8) (l + 1 - (l + 1))
        = lfCeil records.length 8 from by
      rw [show l + 1 - (l + 1) = 0 from by omega]
      rfl] at hxl
    exact fillLevel_out gI (offSum (l + 1)) (lfCeil records.length 8) _ x hxl.1 hxl.2

theorem firstLiveKey_zero (f : Nat → Nat) (card : Nat) (hc : 0 < card)
    (h0 : f 0 ≠ MAX_KEY) : firstLiveKey f card = some (f 0) := by
  obtain ⟨c1, rfl⟩ : ∃ c1, card = c1 + 1 := ⟨card - 1, by omega⟩
  unfold firstLiveKey
  rw [List.range_succ_eq_map, List.find?_cons_of_pos _ (by simpa using h0)]
  rfl

theorem build_inner_zero (records : List Record) (gK gV : Int → Nat) (l e : Nat)
    (hl : l < bheight records) (he32 : e < 32 ^ (l + 1))
    (hge : chainC (lfCeil records.length 8) (bheight records - 1 - l) ≤ e)
    (hnt : e = chainC (lfCeil records.length 8) (bheight records - 1 - l) →
      chainC (lfCeil records.length 8) (bheight records - 1 - l) % 32 = 0) :
    (build records (fun _ => 0) gK gV).inner ((32 * offSum l + e : Nat) : Int) = 0 := by
  refine build_inner_out records _ gK gV _ ?_
  intro j hj
  have hchainj : chainC (lfCeil records.length 8) (bheight records - 1 - j) ≤ 32 ^ (j + 1) := by
    refine chainC_le_pow _ _ ?_
    rw [show bheight records - 1 - j + (j + 1) = bheight records from by omega]
    exact lfcnt_le_pow records
  have hpowj : 32 * offSum j + 32 ^ (j + 1) = 32 * offSum (j + 1) := by
    have h2a := offSum_succ j
    have h2b : (32 : Nat) ^ (j + 1) = 32 ^ j * 32 := pow_succ 32 j
    omega
  have hmodj : (32 : Nat) ^ (j + 1) % 32 = 0 := by
    rw [pow_succ]
    exact Nat.mul_mod_left _ _
  rcases lt_trichotomy j l with hjl | hjl | hjl
  · have hmono : offSum (j + 1) ≤ offSum l := offSum_mono (by omega)
    constructor
    · omega
    · intro ht
      omega
  · subst hjl
    constructor
    · omega
    · intro ht
      omega
  · have hmono : offSum (l + 1) ≤ offSum j := offSum_mono (by omega)
    have hpowl : 32 * offSum l + 32 ^ (l + 1) = 32 * offSum (l + 1) := by
      have h2a := offSum_succ l
      have h2b : (32 : Nat) ^ (l + 1) = 32 ^ l * 32 := pow_succ 32 l
      omega
    constructor
    · omega
    · intro ht
      omega

/-- **C6 (confirmed).**  Bulk-load geometry over zero-initialised
buffers: `leaf_cnt = ⌈N/8⌉`; `height = ⌈log_32 (max 32 leaf_cnt)⌉`;
and for every inner level `l < height`, node `p` at that level and
child position `c ∈ [0, 32)` whose key is not `MAX_KEY`, the first
non-`MAX_KEY` key of the corresponding child node (an inner node of
level `l+1`, or the leaf `32p + c` when `l + 1 = height`) equals that
key. -/
theorem C6_bulk_geometry (records : List Record) :
    (build records (fun _ => 0) (fun _ => 0) (fun _ => 0)).leaf_cnt_
        = lfCeil records.length 8 ∧
    (build records (fun _ => 0) (fun _ => 0) (fun _ => 0)).height_
        = Nat.clog 32 (max 32 (lfCeil records.length 8)) ∧
    (∀ l p c : Nat, l < bheight records → p < 32 ^ l → c < 32 →
      (build records (fun _ => 0) (fun _ => 0) (fun _ => 0)).inner
          ((32 * (offSum l + p) + c : Nat) : Int) ≠ MAX_KEY →
      ((l + 1 < bheight records →
          firstLiveKey (fun s =>
            (build records (fun _ => 0) (fun _ => 0) (fun _ => 0)).inner
              ((32 * (offSum (l + 1) + (32 * p + c)) + s : Nat) : Int)) 32
            = some ((build records (fun _ => 0) (fun _ => 0) (fun _ => 0)).inner
                ((32 * (offSum l + p) + c : Nat) : Int))) ∧
        (l + 1 = bheight records →
          firstLiveKey (fun s =>
            (build records (fun _ => 0) (fun _ => 0) (fun _ => 0)).leafK
              ((16 * (32 * p + c) + s : Nat) : Int)) 16
            = some ((build records (fun _ => 0) (fun _ => 0) (fun _ => 0)).inner
                ((32 * (offSum l + p) + c : Nat) : Int))))) := by
  refine ⟨rfl, ?_, ?_⟩
  · rw [build_height, bheight_eq_clog]
  · intro l p c hl hp hc hne
    have hpos := bheight_pos records
    have hm32 := lfcnt_le_pow records
    have hpsl : (32 : Nat) ^ (l + 1) = 32 ^ l * 32 := pow_succ 32 l
    have he32 : 32 * p + c < 32 ^ (l + 1) := by omega
    have hpp : ((32 * (offSum l + p) + c : Nat) : Int)
        = ((32 * offSum l + (32 * p + c) : Nat) : Int) := by omega
    rcases Nat.lt_or_ge (32 * p + c)
        (chainC (lfCeil records.length 8) (bheight records - 1 - l)) with he | he
    · have hparent := build_inner_entry records (fun _ => 0) (fun _ => 0) (fun _ => 0)
        l (32 * p + c) hl he
      constructor
      · intro hlt
        have hEeq : chainC (lfCeil records.length 8) (bheight records - 1 - l)
            = lfCeil (chainC (lfCeil records.length 8) (bheight records - 1 - (l + 1))) 32 := by
          rw [show bheight records - 1 - l = bheight records - 1 - (l + 1) + 1 from by omega]
          rfl
        have he2 : 32 * (32 * p + c)
            < chainC (lfCeil records.length 8) (bheight records - 1 - (l + 1)) := by
          rw [hEeq] at he
          have hrfl : lfCeil (chainC (lfCeil records.length 8) (bheight records - 1 - (l + 1))) 32
              = (chainC (lfCeil records.length 8) (bheight records - 1 - (l + 1)) + 32 - 1) / 32 :=
            rfl
          omega
        have hchild := build_inner_entry records (fun _ => 0) (fun _ => 0) (fun _ => 0)
          (l + 1) (32 * (32 * p + c)) (by omega) he2
        have hpow : 32 ^ (bheight records - 1 - (l + 1)) * (32 * (32 * p + c))
            = 32 ^ (bheight records - 1 - l) * (32 * p + c) := by
          rw [show bheight records - 1 - l = bheight records - 1 - (l + 1) + 1 from by omega,
            pow_succ]
          ring
        have hv : (build records (fun _ => 0) (fun _ => 0) (fun _ => 0)).inner
              ((32 * (offSum (l + 1) + (32 * p + c)) + 0 : Nat) : Int)
            = (build records (fun _ => 0) (fun _ => 0) (fun _ => 0)).inner
              ((32 * (offSum l + p) + c : Nat) : Int) := by
          rw [show ((32 * (offSum (l + 1) + (32 * p + c)) + 0 : Nat) : Int)
              = ((32 * offSum (l + 1) + 32 * (32 * p + c) : Nat) : Int) from by omega]
          rw [hchild]
          rw [show ((16 * (32 ^ (bheight records - 1 - (l + 1)) * (32 * (32 * p + c))) : Nat) : Int)
              = ((16 * (32 ^ (bheight records - 1 - l) * (32 * p + c)) : Nat) : Int) from by
            rw [hpow]]
          rw [← hparent, ← hpp]
        rw [firstLiveKey_zero _ 32 (by norm_num) (by rw [show ((0 : Nat)) = 0 from rfl]; exact hv ▸ (hpp ▸ hne)), hv]
      · intro heq
        have hd0 : bheight records - 1 - l = 0 := by omega
        rw [hd0, pow_zero, one_mul] at hparent
        have hv : (build records (fun _ => 0) (fun _ => 0) (fun _ => 0)).leafK
              ((16 * (32 * p + c) + 0 : Nat) : Int)
            = (build records (fun _ => 0) (fun _ => 0) (fun _ => 0)).inner
              ((32 * (offSum l + p) + c : Nat) : Int) := by
          rw [show ((16 * (32 * p + c) + 0 : Nat) : Int)
              = ((16 * (32 * p + c) : Nat) : Int) from by omega]
          rw [← hparent, ← hpp]
        rw [firstLiveKey_zero _ 16 (by norm_num) (by exact hv ▸ (hpp ▸ hne)), hv]
    · by_cases hterm : 32 * p + c = chainC (lfCeil records.length 8) (bheight records - 1 - l)
          ∧ chainC (lfCeil records.length 8) (bheight records - 1 - l) % 32 ≠ 0
      · exfalso
        apply hne
        rw [hpp, show ((32 * offSum l + (32 * p + c) : Nat) : Int)
            = ((32 * offSum l + chainC (lfCeil records.length 8) (bheight records - 1 - l)
              : Nat) : Int) from by rw [hterm.1]]
        exact build_inner_term records (fun _ => 0) (fun _ => 0) (fun _ => 0) l hl hterm.2
      · have hnt : 32 * p + c = chainC (lfCeil records.length 8) (bheight records - 1 - l) →
            chainC (lfCeil records.length 8) (bheight records - 1 - l) % 32 = 0 := by
          intro hx
          by_contra hy
          exact hterm ⟨hx, hy⟩
        have hpar0 : (build records (fun _ => 0) (fun _ => 0) (fun _ => 0)).inner
            ((32 * (offSum l + p) + c : Nat) : Int) = 0 := by
          rw [hpp]
          exact build_inner_zero records (fun _ => 0) (fun _ => 0) l (32 * p + c)
            hl he32 he hnt
        constructor
        · intro hlt
          have hEeq : chainC (lfCeil records.length 8) (bheight records - 1 - l)
              = lfCeil (chainC (lfCeil records.length 8) (bheight records - 1 - (l + 1))) 32 := by
            rw [show bheight records - 1 - l = bheight records - 1 - (l + 1) + 1 from by omega]
            rfl
          have hge2 : chainC (lfCeil records.length 8) (bheight records - 1 - (l + 1))
              ≤ 32 * (32 * p + c) := by
            rw [hEeq] at he
            have hrfl : lfCeil (chainC (lfCeil records.length 8)
                  (bheight records - 1 - (l + 1))) 32
                = (chainC (lfCeil records.length 8) (bheight records - 1 - (l + 1)) + 32 - 1)
                  / 32 := rfl
            omega
          have hchild0 : (build records (fun _ => 0) (fun _ => 0) (fun _ => 0)).inner
              ((32 * (offSum (l + 1) + (32 * p + c)) + 0 : Nat) : Int) = 0 := by
            rw [show ((32 * (offSum (l + 1) + (32 * p + c)) + 0 : Nat) : Int)
                = ((32 * offSum (l + 1) + 32 * (32 * p + c) : Nat) : Int) from by omega]
            refine build_inner_zero records (fun _ => 0) (fun _ => 0) (l + 1)
              (32 * (32 * p + c)) (by omega) ?_ hge2 (by omega)
            have hpsl2 : (32 : Nat) ^ (l + 1 + 1) = 32 ^ (l + 1) * 32 := pow_succ 32 (l + 1)
            omega
          rw [firstLiveKey_zero _ 32 (by norm_num)
            (by rw [hchild0, hpar0] at *; rw [hchild0]; simp [MAX_KEY]), hchild0, hpar0]
        · intro heq
          have hd0 : bheight records - 1 - l = 0 := by omega
          have hgem : lfCeil records.length 8 ≤ 32 * p + c := by
            rw [hd0] at he
            exact he
          have hchild0 : (build records (fun _ => 0) (fun _ => 0) (fun _ => 0)).leafK
              ((16 * (32 * p + c) + 0 : Nat) : Int) = 0 := by
            rw [build_leafK_out records (fun _ => 0) (fun _ => 0) (fun _ => 0) _
              (by push_cast; omega)]
          rw [firstLiveKey_zero _ 16 (by norm_num) (by rw [hchild0]; simp [MAX_KEY]),
            hchild0, hpar0]

/-- **C6 witness.**  The geometry theorem applied to the 24-record
input: 3 leaves, height 1, and the child link for the root's slot 1
(key `9`, first key of leaf 1). -/
theorem C6_bulk_geometry_witness :
    (build records24 (fun _ => 0) (fun _ => 0) (fun _ => 0)).leaf_cnt_ = 3 ∧
    (build records24 (fun _ => 0) (fun _ => 0) (fun _ => 0)).height_ = 1 ∧
    firstLiveKey (fun s =>
        (build records24 (fun _ => 0) (fun _ => 0) (fun _ => 0)).leafK
          ((16 * (32 * 0 + 1) + s : Nat) : Int)) 16
      = some ((build records24 (fun _ => 0) (fun _ => 0) (fun _ => 0)).inner
          ((32 * (offSum 0 + 0) + 1 : Nat) : Int)) :=
  ⟨by decide, by decide,
    ((C6_bulk_geometry records24).2.2 0 0 1 (by decide) (by decide) (by decide)
      (by decide)).2 (by decide)⟩

/-! ### Lookup correctness (claim C2) -/

theorem find?_range_first (p : Nat → Bool) (n i0 : Nat) (hi : i0 < n) (hp : p i0 = true)
    (hmin : ∀ i2, i2 < i0 → p i2 = false) : (List.range n).find? p = some i0 := by
  have hnone : (List.range i0).find? p = none := by
    rw [List.find?_eq_none]
    intro x hx
    simp [hmin x (List.mem_range.mp hx)]
  rw [show n = i0 + 1 + (n - i0 - 1) from by omega, List.range_add, List.find?_append,
    List.range_succ, List.find?_append, hnone, Option.none_or,
    List.find?_cons_of_pos _ hp]
  rfl

theorem init_le_foldl_max : ∀ (l : List Nat) (b : Nat), b ≤ l.foldl max b := by
  intro l
  induction l with
  | nil =>
      intro b
      exact le_refl b
  | cons x l ih =>
      intro b
      exact le_trans (le_max_left b x) (ih (max b x))

theorem le_foldl_max : ∀ (l : List Nat) (b a : Nat), a ∈ l → a ≤ l.foldl max b := by
  intro l
  induction l with
  | nil =>
      intro b a ha
      cases ha
  | cons x l ih =>
      intro b a ha
      rcases List.mem_cons.mp ha with rfl | ha
      · exact le_trans (le_max_right b a) (init_le_foldl_max l (max b a))
      · exact ih (max b x) a ha

theorem foldl_max_le : ∀ (l : List Nat) (b c : Nat), b ≤ c → (∀ a ∈ l, a ≤ c) →
    l.foldl max b ≤ c := by
  intro l
  induction l with
  | nil =>
      intro b c hb _
      exact hb
  | cons x l ih =>
      intro b c hb hall
      exact ih _ _ (max_le hb (hall x (List.mem_cons_self x l)))
        (fun a ha => hall a (List.mem_cons_of_mem _ ha))

theorem key_mono_le (records : List Record)
    (hsort : List.Pairwise (· < ·) (records.map Record.key)) :
    ∀ a b : Nat, a ≤ b → b < records.length →
      (records.getD a ⟨0, 0⟩).key ≤ (records.getD b ⟨0, 0⟩).key := by
  intro a b hab hb
  rcases Nat.eq_or_lt_of_le hab with rfl | hlt
  · exact le_refl _
  · have h1 : List.Pairwise (fun r s : Record => r.key < s.key) records := by
      rw [← List.pairwise_map]
      exact hsort
    rw [List.pairwise_iff_getElem] at h1
    have h2 := h1 a b (by omega) hb hlt
    rw [List.getD_eq_getElem records _ (show a < records.length from by omega),
      List.getD_eq_getElem records _ hb]
    exact le_of_lt h2

theorem key_mono_lt (records : List Record)
    (hsort : List.Pairwise (· < ·) (records.map Record.key)) :
    ∀ a b : Nat, a < b → b < records.length →
      (records.getD a ⟨0, 0⟩).key < (records.getD b ⟨0, 0⟩).key := by
  intro a b hab hb
  have h1 : List.Pairwise (fun r s : Record => r.key < s.key) records := by
    rw [← List.pairwise_map]
    exact hsort
  rw [List.pairwise_iff_getElem] at h1
  have h2 := h1 a b (by omega) hb hab
  rw [List.getD_eq_getElem records _ (show a < records.length from by omega),
    List.getD_eq_getElem records _ hb]
  exact h2

theorem getD_key_mem (records : List Record) (i : Nat) (hi : i < records.length) :
    (records.getD i ⟨0, 0⟩).key ∈ records.map Record.key := by
  rw [List.getD_eq_getElem records _ hi]
  exact List.mem_map_of_mem Record.key (records.getElem_mem hi)

theorem leafScan_inv (t : Fixtree) (L : Int) (k : Nat) :
    ∀ j : Nat,
    ∃ mv mp, (List.range j).foldl
        (fun (mk : Nat × Nat) (i0 : Nat) =>
          let i : Nat := i0 + 1
          let ki := t.leafK (16 * L + (i : Int))
          if ki ≤ k ∧ mk.1 < ki then (ki, i) else mk)
        (t.leafK (16 * L), 0) = (mv, mp) ∧
      mv = t.leafK (16 * L + (mp : Int)) ∧ mp ≤ j ∧
      (mp = 0 ∨ (1 ≤ mp ∧ t.leafK (16 * L + (mp : Int)) ≤ k ∧
        t.leafK (16 * L) < t.leafK (16 * L + (mp : Int)))) ∧
      (∀ i : Nat, 1 ≤ i → i ≤ j → t.leafK (16 * L + (i : Int)) ≤ k →
        t.leafK (16 * L + (i : Int)) ≤ max (t.leafK (16 * L)) mv) := by
  intro j
  induction j with
  | zero =>
      refine ⟨t.leafK (16 * L), 0, rfl, by norm_num, le_refl 0, Or.inl rfl, ?_⟩
      intro i hi1 hi0
      omega
  | succ j ih =>
      obtain ⟨mv, mp, hfold, hmv, hmpj, hm, hmax⟩ := ih
      rw [List.range_succ, List.foldl_append, List.foldl_cons, List.foldl_nil, hfold]
      have hK0m : t.leafK (16 * L) ≤ mv := by
        rcases hm with h0 | hpos
        · subst h0
          rw [hmv]
          norm_num
        · rw [hmv]
          exact le_of_lt hpos.2.2
      by_cases hup : t.leafK (16 * L + ((j + 1 : Nat) : Int)) ≤ k ∧
          mv < t.leafK (16 * L + ((j + 1 : Nat) : Int))
      · refine ⟨t.leafK (16 * L + ((j + 1 : Nat) : Int)), j + 1,
          by simp only [hup, and_self, if_true, ite_true], rfl, le_refl _, ?_, ?_⟩
        · exact Or.inr ⟨by omega, hup.1, lt_of_le_of_lt hK0m hup.2⟩
        · intro i hi1 hij hle
          rcases Nat.lt_or_ge i (j + 1) with hlt | hge
          · have h1 := hmax i hi1 (by omega) hle
            have h2 : max (t.leafK (16 * L)) mv
                ≤ max (t.leafK (16 * L)) (t.leafK (16 * L + ((j + 1 : Nat) : Int))) :=
              max_le_max (le_refl _) (le_of_lt hup.2)
            exact le_trans h1 h2
          · have hieq : i = j + 1 := by omega
            subst hieq
            exact le_max_right _ _
      · refine ⟨mv, mp, by simp only [hup, if_false, ite_false], hmv, by omega, hm, ?_⟩
        intro i hi1 hij hle
        rcases Nat.lt_or_ge i (j + 1) with hlt | hge
        · exact hmax i hi1 (by omega) hle
        · have hieq : i = j + 1 := by omega
          subst hieq
          have h1 : ¬ mv < t.leafK (16 * L + ((j + 1 : Nat) : Int)) := fun h2 => hup ⟨hle, h2⟩
          exact le_trans (not_lt.mp h1) (le_max_right _ _)

theorem descent_scan (t : Fixtree) (cur : Int) (k a E P M : Nat) (K : Nat → Nat)
    (hkM : k < MAX_KEY)
    (hval : ∀ i : Nat, i < 32 → 32 * a + i < E →
      t.inner (32 * cur + (i : Int)) = K (P * (32 * a + i)))
    (hterm32 : E % 32 ≠ 0 → t.inner (32 * cur + ((E - 32 * a : Nat) : Int)) = MAX_KEY)
    (hE1 : 32 * a < E)
    (hg0 : K (P * (32 * a)) ≤ k)
    (hub : ∀ x : Nat, x < M → K x ≤ k → x < P * (32 * a + 32))
    (hcov : M ≤ P * E)
    (hmono : ∀ y x : Nat, y ≤ x → x < M → K y ≤ K x) :
    ∃ c : Nat, c < 32 ∧
      inner_search t cur k = (c : Int) ∧
      32 * a + c < E ∧
      K (P * (32 * a + c)) ≤ k ∧
      (∀ x : Nat, x < M → K x ≤ k → x < P * (32 * a + c + 1)) := by
  by_cases hfull : 32 * a + 32 ≤ E
  · by_cases hhit : ∃ i : Nat, i < 32 ∧ k < K (P * (32 * a + i))
    · obtain ⟨i0, hφ, hmin⟩ : ∃ i0 : Nat,
          (i0 < 32 ∧ k < K (P * (32 * a + i0))) ∧
          ∀ i2, i2 < i0 → ¬ (i2 < 32 ∧ k < K (P * (32 * a + i2))) :=
        ⟨Nat.find hhit, Nat.find_spec hhit, fun i2 h => Nat.find_min hhit h⟩
      have hi0pos : 1 ≤ i0 := by
        by_contra h
        have h1 : i0 = 0 := by omega
        rw [h1] at hφ
        have h2 := hφ.2
        rw [Nat.add_zero] at h2
        exact absurd h2 (not_lt.mpr hg0)
      have hfind : (List.range 32).find?
          (fun (i : Nat) => decide (k < t.inner (32 * cur + (i : Int)))) = some i0 := by
        refine find?_range_first _ 32 i0 hφ.1 ?_ ?_
        · rw [hval i0 hφ.1 (by omega)]
          exact decide_eq_true hφ.2
        · intro i2 hi2
          rw [hval i2 (by omega) (by omega)]
          exact decide_eq_false (fun hk => hmin i2 hi2 ⟨by omega, hk⟩)
      refine ⟨i0 - 1, by omega, ?_, by omega, ?_, ?_⟩
      · simp only [inner_search]
        rw [hfind]
        show (i0 : Int) - 1 = ((i0 - 1 : Nat) : Int)
        omega
      · have h1 := hmin (i0 - 1) (by omega)
        have h2 : ¬ k < K (P * (32 * a + (i0 - 1))) := fun hk => h1 ⟨by omega, hk⟩
        exact not_lt.mp h2
      · intro x hx hkx
        rw [show 32 * a + (i0 - 1) + 1 = 32 * a + i0 from by omega]
        by_contra hge
        have hB : P * (32 * a + i0) ≤ x := by omega
        have h3 := hmono (P * (32 * a + i0)) x hB hx
        exact absurd hφ.2 (not_lt.mpr (le_trans h3 hkx))
    · push_neg at hhit
      have hfind : (List.range 32).find?
          (fun (i : Nat) => decide (k < t.inner (32 * cur + (i : Int)))) = none := by
        rw [List.find?_eq_none]
        intro i hi
        have hi32 := List.mem_range.mp hi
        simp only [decide_eq_true_eq]
        rw [hval i hi32 (by omega)]
        exact not_lt.mpr (hhit i hi32)
      refine ⟨31, by omega, ?_, by omega, not_lt.mp (not_lt.mpr (hhit 31 (by omega))), ?_⟩
      · simp only [inner_search]
        rw [hfind]
        show (31 : Int) = ((31 : Nat) : Int)
        norm_num
      · intro x hx hkx
        rw [show 32 * a + 31 + 1 = 32 * a + 32 from by omega]
        exact hub x hx hkx
  · have hEm : E % 32 ≠ 0 := by omega
    by_cases hhit : ∃ i : Nat, i < E - 32 * a ∧ k < K (P * (32 * a + i))
    · obtain ⟨i0, hφ, hmin⟩ : ∃ i0 : Nat,
          (i0 < E - 32 * a ∧ k < K (P * (32 * a + i0))) ∧
          ∀ i2, i2 < i0 → ¬ (i2 < E - 32 * a ∧ k < K (P * (32 * a + i2))) :=
        ⟨Nat.find hhit, Nat.find_spec hhit, fun i2 h => Nat.find_min hhit h⟩
      have hi0pos : 1 ≤ i0 := by
        by_contra h
        have h1 : i0 = 0 := by omega
        rw [h1] at hφ
        have h2 := hφ.2
        rw [Nat.add_zero] at h2
        exact absurd h2 (not_lt.mpr hg0)
      have hfind : (List.range 32).find?
          (fun (i : Nat) => decide (k < t.inner (32 * cur + (i : Int)))) = some i0 := by
        refine find?_range_first _ 32 i0 (by omega) ?_ ?_
        · rw [hval i0 (by omega) (by omega)]
          exact decide_eq_true hφ.2
        · intro i2 hi2
          rw [hval i2 (by omega) (by omega)]
          exact decide_eq_false (fun hk => hmin i2 hi2 ⟨by omega, hk⟩)
      refine ⟨i0 - 1, by omega, ?_, by omega, ?_, ?_⟩
      · simp only [inner_search]
        rw [hfind]
        show (i0 : Int) - 1 = ((i0 - 1 : Nat) : Int)
        omega
      · have h1 := hmin (i0 - 1) (by omega)
        have h2 : ¬ k < K (P * (32 * a + (i0 - 1))) := fun hk => h1 ⟨by omega, hk⟩
        exact not_lt.mp h2
      · intro x hx hkx
        rw [show 32 * a + (i0 - 1) + 1 = 32 * a + i0 from by omega]
        by_contra hge
        have hB : P * (32 * a + i0) ≤ x := by omega
        have h3 := hmono (P * (32 * a + i0)) x hB hx
        exact absurd hφ.2 (not_lt.mpr (le_trans h3 hkx))
    · push_neg at hhit
      have hfind : (List.range 32).find?
          (fun (i : Nat) => decide (k < t.inner (32 * cur + (i : Int)))) = some (E - 32 * a) := by
        refine find?_range_first _ 32 (E - 32 * a) (by omega) ?_ ?_
        · rw [hterm32 hEm]
          exact decide_eq_true hkM
        · intro i2 hi2
          rw [hval i2 (by omega) (by omega)]
          exact decide_eq_false (fun hk => absurd hk (not_lt.mpr (hhit i2 (by omega))))
      refine ⟨E - 32 * a - 1, by omega, ?_, by omega,
        not_lt.mp (not_lt.mpr (hhit (E - 32 * a - 1) (by omega))), ?_⟩
      · simp only [inner_search]
        rw [hfind]
        show ((E - 32 * a : Nat) : Int) - 1 = ((E - 32 * a - 1 : Nat) : Int)
        omega
      · intro x hx hkx
        rw [show 32 * a + (E - 32 * a - 1) + 1 = E from by omega]
        exact lt_of_lt_of_le hx hcov

theorem descent_step (records : List Record) (gI gK gV : Int → Nat) (k j a : Nat)
    (hsort : List.Pairwise (· < ·) (records.map Record.key))
    (hN : 0 < records.length) (hkM : k < MAX_KEY)
    (hj : j < bheight records)
    (ha : a < chainC (lfCeil records.length 8) (bheight records - j))
    (h0 : (records.getD (8 * (32 ^ (bheight records - j) * a)) ⟨0, 0⟩).key ≤ k)
    (hub : ∀ x : Nat, x < lfCeil records.length 8 →
      (records.getD (8 * x) ⟨0, 0⟩).key ≤ k → x < 32 ^ (bheight records - j) * (a + 1)) :
    ∃ c : Nat, c < 32 ∧
      inner_search (build records gI gK gV) ((offSum j + a : Nat) : Int) k = (c : Int) ∧
      32 * a + c < chainC (lfCeil records.length 8) (bheight records - 1 - j) ∧
      (records.getD (8 * (32 ^ (bheight records - 1 - j) * (32 * a + c))) ⟨0, 0⟩).key ≤ k ∧
      (∀ x : Nat, x < lfCeil records.length 8 →
        (records.getD (8 * x) ⟨0, 0⟩).key ≤ k →
          x < 32 ^ (bheight records - 1 - j) * (32 * a + c + 1)) := by
  have hig : bheight records - j = bheight records - 1 - j + 1 := by omega
  have hpeel : chainC (lfCeil records.length 8) (bheight records - j)
      = (chainC (lfCeil records.length 8) (bheight records - 1 - j) + 32 - 1) / 32 := by
    rw [hig]
    rfl
  have h8m : ∀ x : Nat, x < lfCeil records.length 8 → 8 * x < records.length := by
    have hm : lfCeil records.length 8 = (records.length + 8 - 1) / 8 := rfl
    intro x hx
    omega
  have hQP : (32 : Nat) ^ (bheight records - j) = 32 * 32 ^ (bheight records - 1 - j) := by
    rw [hig, pow_succ]
    ring
  have hval : ∀ i : Nat, i < 32 →
      32 * a + i < chainC (lfCeil records.length 8) (bheight records - 1 - j) →
      (build records gI gK gV).inner (32 * ((offSum j + a : Nat) : Int) + (i : Int))
        = (records.getD (8 * (32 ^ (bheight records - 1 - j) * (32 * a + i))) ⟨0, 0⟩).key := by
    intro i hi32 hvalid
    rw [show (32 * ((offSum j + a : Nat) : Int) + (i : Int))
        = ((32 * offSum j + (32 * a + i) : Nat) : Int) from by push_cast; ring]
    rw [build_inner_entry records gI gK gV j (32 * a + i) hj hvalid]
    have hq : 32 ^ (bheight records - 1 - j) * (32 * a + i) < lfCeil records.length 8 :=
      chainC_mul_lt (bheight records - 1 - j) _ hvalid
    rw [show ((16 * (32 ^ (bheight records - 1 - j) * (32 * a + i)) : Nat) : Int)
        = ((16 * (32 ^ (bheight records - 1 - j) * (32 * a + i)) + 0 : Nat) : Int) from by
      omega]
    rw [build_leafK records gI gK gV _ 0 hq (by norm_num)]
    rw [if_pos ⟨by norm_num, by
      have := h8m _ hq
      omega⟩]
    rw [show 32 ^ (bheight records - 1 - j) * (32 * a + i) * 8 + 0
        = 8 * (32 ^ (bheight records - 1 - j) * (32 * a + i)) from by ring]
  have hterm32 : chainC (lfCeil records.length 8) (bheight records - 1 - j) % 32 ≠ 0 →
      (build records gI gK gV).inner (32 * ((offSum j + a : Nat) : Int)
          + ((chainC (lfCeil records.length 8) (bheight records - 1 - j) - 32 * a : Nat) : Int))
        = MAX_KEY := by
    intro hEm
    rw [show (32 * ((offSum j + a : Nat) : Int)
        + ((chainC (lfCeil records.length 8) (bheight records - 1 - j) - 32 * a : Nat) : Int))
        = ((32 * offSum j + chainC (lfCeil records.length 8) (bheight records - 1 - j)
          : Nat) : Int) from by push_cast; omega]
    exact build_inner_term records gI gK gV j hj hEm
  have hE1 : 32 * a < chainC (lfCeil records.length 8) (bheight records - 1 - j) := by
    omega
  have hg0 : (records.getD (8 * (32 ^ (bheight records - 1 - j) * (32 * a))) ⟨0, 0⟩).key
      ≤ k := by
    rw [show 8 * (32 ^ (bheight records - 1 - j) * (32 * a))
        = 8 * (32 ^ (bheight records - j) * a) from by rw [hQP]; ring]
    exact h0
  have hub2 : ∀ x : Nat, x < lfCeil records.length 8 →
      (records.getD (8 * x) ⟨0, 0⟩).key ≤ k →
      x < 32 ^ (bheight records - 1 - j) * (32 * a + 32) := by
    intro x hx hkx
    rw [show 32 ^ (bheight records - 1 - j) * (32 * a + 32)
        = 32 ^ (bheight records - j) * (a + 1) from by rw [hQP]; ring]
    exact hub x hx hkx
  have hmono2 : ∀ y x : Nat, y ≤ x → x < lfCeil records.length 8 →
      (records.getD (8 * y) ⟨0, 0⟩).key ≤ (records.getD (8 * x) ⟨0, 0⟩).key := by
    intro y x hyx hx
    exact key_mono_le records hsort (8 * y) (8 * x) (by omega) (h8m x hx)
  have hcovK : lfCeil records.length 8
      ≤ 32 ^ (bheight records - 1 - j)
        * chainC (lfCeil records.length 8) (bheight records - 1 - j) :=
    chainC_cover (bheight records - 1 - j)
  exact descent_scan (build records gI gK gV) ((offSum j + a : Nat) : Int) k a
    (chainC (lfCeil records.length 8) (bheight records - 1 - j))
    (32 ^ (bheight records - 1 - j)) (lfCeil records.length 8)
    (fun x => (records.getD (8 * x) ⟨0, 0⟩).key)
    hkM hval hterm32 hE1 hg0 hub2 hcovK hmono2

theorem descent_inv (records : List Record) (gI gK gV : Int → Nat) (k : Nat)
    (hsort : List.Pairwise (· < ·) (records.map Record.key))
    (hN : 0 < records.length) (hkM : k < MAX_KEY)
    (hk0 : (records.getD 0 ⟨0, 0⟩).key ≤ k) :
    ∀ j : Nat, j ≤ bheight records →
    ∃ a : Nat,
      (List.range j).foldl
        (fun cur l =>
          ((build records gI gK gV).lvloff (l + 1) : Int)
            + (cur - ((build records gI gK gV).lvloff l : Int)) * 32
            + inner_search (build records gI gK gV) cur k)
        (((build records gI gK gV).lvloff 0 : Int))
      = ((offSum j + a : Nat) : Int) ∧
      a < chainC (lfCeil records.length 8) (bheight records - j) ∧
      (records.getD (8 * (32 ^ (bheight records - j) * a)) ⟨0, 0⟩).key ≤ k ∧
      (∀ x : Nat, x < lfCeil records.length 8 →
        (records.getD (8 * x) ⟨0, 0⟩).key ≤ k → x < 32 ^ (bheight records - j) * (a + 1)) := by
  have hm : lfCeil records.length 8 = (records.length + 8 - 1) / 8 := rfl
  intro j
  induction j with
  | zero =>
      intro _
      refine ⟨0, ?_, ?_, ?_, ?_⟩
      · norm_num [offSum]
        rfl
      · exact chainC_pos (by omega) _
      · rw [show 8 * (32 ^ (bheight records - 0) * 0) = 0 from by ring]
        exact hk0
      · intro x hx _
        rw [show 32 ^ (bheight records - 0) * (0 + 1) = 32 ^ bheight records from by
          rw [Nat.sub_zero]; ring]
        exact lt_of_lt_of_le hx (lfcnt_le_pow records)
  | succ j ih =>
      intro hj1
      obtain ⟨a, hcur, ha, h0, hub⟩ := ih (by omega)
      obtain ⟨c, hc32, his, hlt', hkey', hub'⟩ :=
        descent_step records gI gK gV k j a hsort hN hkM (by omega) ha h0 hub
      refine ⟨32 * a + c, ?_, ?_, ?_, ?_⟩
      · rw [List.range_succ, List.foldl_append, List.foldl_cons, List.foldl_nil, hcur]
        rw [show (build records gI gK gV).lvloff = offSum from rfl, his]
        push_cast
        ring
      · rw [show bheight records - (j + 1) = bheight records - 1 - j from by omega]
        exact hlt'
      · rw [show bheight records - (j + 1) = bheight records - 1 - j from by omega]
        exact hkey'
      · rw [show bheight records - (j + 1) = bheight records - 1 - j from by omega]
        exact hub'

/-- **C2 (amended).**  `find_lower(k)` is correct exactly on probes that
are not below the whole tree: for a strictly sorted input, a probe with
`records[0].key ≤ k < MAX_KEY` lands on a value slot whose key is
`max { r.key | r ∈ records, r.key ≤ k }` — for any contents of the
freshly allocated buffers.  (For `k` below every input key the descent
index goes negative and the function reads outside the leaf buffers —
the C2 counterexample.) -/
theorem C2_find_lower_max_leq (records : List Record) (gI gK gV : Int → Nat) (k : Nat)
    (hsort : List.Pairwise (· < ·) (records.map Record.key))
    (hN : 0 < records.length)
    (hk0 : (records.getD 0 ⟨0, 0⟩).key ≤ k)
    (hkM : k < MAX_KEY) :
    (build records gI gK gV).leafK
        (16 * (find_lower (build records gI gK gV) k).1
          + ((find_lower (build records gI gK gV) k).2 : Int))
      = maxLeqKey records k := by
  have hm : lfCeil records.length 8 = (records.length + 8 - 1) / 8 := rfl
  obtain ⟨L, hcur, hL, h0, hub⟩ :=
    descent_inv records gI gK gV k hsort hN hkM hk0 (bheight records) (le_refl _)
  rw [show bheight records - bheight records = 0 from by omega] at hL h0 hub
  have hLm : L < lfCeil records.length 8 := hL
  rw [pow_zero, one_mul] at h0 hub
  have hlidx : leafIdx (build records gI gK gV) k = (L : Int) := by
    simp only [leafIdx]
    rw [show (build records gI gK gV).height_ = bheight records from rfl, hcur]
    show ((offSum (bheight records) + L : Nat) : Int)
        - (((build records gI gK gV).lvloff (bheight records) : Nat) : Int) = (L : Int)
    rw [show (build records gI gK gV).lvloff = offSum from rfl]
    omega
  have hfl : find_lower (build records gI gK gV) k
      = ((L : Int), leaf_search (build records gI gK gV) (L : Int) k) := by
    simp only [find_lower]
    rw [hlidx]
  rw [hfl]
  obtain ⟨mv, mp, hfold, hmv, hmp15, hmcase, hmax⟩ :=
    leafScan_inv (build records gI gK gV) (L : Int) k 15
  have hls : leaf_search (build records gI gK gV) (L : Int) k = mp := by
    simp only [leaf_search]
    rw [hfold]
  rw [hls, ← hmv]
  have hslot : ∀ i : Nat, i < 16 →
      (build records gI gK gV).leafK (16 * (L : Int) + (i : Int))
        = if i < 8 ∧ L * 8 + i < records.length
          then (records.getD (L * 8 + i) ⟨0, 0⟩).key else MAX_KEY := by
    intro i hi
    rw [show (16 * (L : Int) + (i : Int)) = ((16 * L + i : Nat) : Int) from by push_cast; ring]
    exact build_leafK records gI gK gV L i hLm hi
  have hv0 : (build records gI gK gV).leafK (16 * (L : Int))
      = (records.getD (8 * L) ⟨0, 0⟩).key := by
    rw [show (16 * (L : Int)) = (16 * (L : Int) + ((0 : Nat) : Int)) from by push_cast; ring]
    rw [hslot 0 (by norm_num)]
    rw [if_pos ⟨by norm_num, by omega⟩]
    rw [show L * 8 + 0 = 8 * L from by ring]
  have hv0k : (build records gI gK gV).leafK (16 * (L : Int)) ≤ k := by
    rw [hv0]
    exact h0
  have hmvlive : ∃ i : Nat, i < 8 ∧ L * 8 + i < records.length ∧
      mv = (records.getD (L * 8 + i) ⟨0, 0⟩).key ∧ mv ≤ k := by
    rcases hmcase with h0' | hpos
    · subst h0'
      refine ⟨0, by norm_num, by omega, ?_, ?_⟩
      · rw [hmv, show (16 * (L : Int) + ((0 : Nat) : Int)) = (16 * (L : Int)) from by
          push_cast; ring, hv0]
        rw [show L * 8 + 0 = 8 * L from by ring]
      · rw [hmv, show (16 * (L : Int) + ((0 : Nat) : Int)) = (16 * (L : Int)) from by
          push_cast; ring]
        exact hv0k
    · have hmpv := hslot mp (by omega)
      by_cases hlive : mp < 8 ∧ L * 8 + mp < records.length
      · rw [if_pos hlive] at hmpv
        exact ⟨mp, hlive.1, hlive.2, by rw [hmv, hmpv], by rw [hmv]; exact hpos.2.1⟩
      · rw [if_neg hlive] at hmpv
        exfalso
        have h1 := hpos.2.1
        rw [hmpv] at h1
        omega
  have hv0mv : (build records gI gK gV).leafK (16 * (L : Int)) ≤ mv := by
    rcases hmcase with h0' | hpos
    · subst h0'
      rw [hmv]
      rw [show (16 * (L : Int) + ((0 : Nat) : Int)) = (16 * (L : Int)) from by push_cast; ring]
    · rw [hmv]
      exact le_of_lt hpos.2.2
  obtain ⟨imv, himv8, himvN, hmveq, hmvk⟩ := hmvlive
  simp only [maxLeqKey]
  refine le_antisymm ?_ ?_
  · refine le_foldl_max _ 0 mv ?_
    refine List.mem_filter.mpr ⟨?_, by simpa using hmvk⟩
    rw [hmveq]
    exact getD_key_mem records (L * 8 + imv) himvN
  · refine foldl_max_le _ 0 mv (by omega) ?_
    intro y hy
    obtain ⟨hymem, hyk⟩ := List.mem_filter.mp hy
    obtain ⟨r, hr, hry⟩ := List.mem_map.mp hymem
    obtain ⟨x, hx, hrx⟩ := List.mem_iff_getElem.mp hr
    have hyx : y = (records.getD x ⟨0, 0⟩).key := by
      rw [List.getD_eq_getElem records _ hx, hrx, hry]
    have hykk : y ≤ k := by simpa using hyk
    have hq : x / 8 < lfCeil records.length 8 := by omega
    have hqk : (records.getD (8 * (x / 8)) ⟨0, 0⟩).key ≤ k := by
      refine le_trans (key_mono_le records hsort (8 * (x / 8)) x (by omega) hx) ?_
      rw [← hyx]
      exact hykk
    have hqL : x / 8 < L + 1 := hub (x / 8) hq hqk
    rcases Nat.lt_or_ge x (8 * L) with hxL | hxL
    · rw [hyx]
      refine le_trans (key_mono_le records hsort x (L * 8 + imv) (by omega) (by omega)) ?_
      rw [hmveq]
    · have hs : x - 8 * L < 8 := by omega
      have hsx : x = L * 8 + (x - 8 * L) := by omega
      rcases Nat.eq_zero_or_pos (x - 8 * L) with hz | hz
      · rw [hyx, hsx, hz]
        rw [show L * 8 + 0 = 8 * L from by ring]
        rw [← hv0]
        exact hv0mv
      · have hval : (build records gI gK gV).leafK
            (16 * (L : Int) + ((x - 8 * L : Nat) : Int))
            = (records.getD (L * 8 + (x - 8 * L)) ⟨0, 0⟩).key := by
          rw [hslot (x - 8 * L) (by omega), if_pos ⟨hs, by omega⟩]
        have h2 := hmax (x - 8 * L) (by omega) (by omega) (by rw [hval, ← hsx, ← hyx]; exact hykk)
        rw [hval, ← hsx, ← hyx] at h2
        refine le_trans h2 ?_
        rw [max_eq_right hv0mv]

/-- **C2 counterexample.**  The end-to-end tree built from keys
`1..24`: for probe key `0` (smaller than every input key) the descent
index underflows to `-1`, and the returned slot reads the (zeroed)
memory below the leaf buffer: its key is `0` — not `1`, the smallest
key of the input, as the claim requires.  (No input record has key
`0`.) -/
theorem C2_counterexample :
    (find_lower t24 0).1 = -1 ∧
    t24.leafK (16 * (find_lower t24 0).1 + ((find_lower t24 0).2 : Int)) = 0 ∧
    (∀ r ∈ records24, r.key ≠ 0) := by
  refine ⟨?_, ?_, ?_⟩ <;> decide

/-- **C2 witness.**  The amended theorem applied to the 24-record tree
and the probe key `7` of spec §8: the returned slot's key is
`maxLeqKey records24 7 = 7`. -/
theorem C2_find_lower_max_leq_witness :
    t24.leafK (16 * (find_lower t24 7).1 + ((find_lower t24 7).2 : Int))
      = maxLeqKey records24 7 :=
  C2_find_lower_max_leq records24 (fun _ => 0) (fun _ => 0) (fun _ => 0) 7
    (by decide) (by decide) (by decide) (by decide)

end fixtree

end TLB
